import Mathlib

/-!
Verification of the PERSEPTOR analysis-pipeline core against its
natural-language specification.  The Python modules under `modules/` are
shallowly embedded below: Python `str` values are modelled as `List Char`,
Python numbers entering score arithmetic as `ℚ`, Python dicts as ordered
association lists, and fallible code as `Option`/`Except`.  Each embedded
definition carries a comment naming the source function it translates.
-/

namespace Perseptor

/-- Python strings are modelled as lists of characters. -/
abbrev Str := List Char

/-- Shorthand turning a Lean string literal into the `List Char` model. -/
def strOf (x : String) : Str := x.toList

/-- Python `str.startswith`. -/
def startsWith (p l : Str) : Bool := decide (p <+: l)

/-- Python `in` on strings (substring containment). -/
def containsSeq (p l : Str) : Bool := decide (p <:+: l)

/-- Python whitespace characters recognised by `str.strip` / `\s`. -/
def isPyWs (c : Char) : Bool :=
  c = ' ' ∨ c = '\t' ∨ c = '\n' ∨ c = '\r' ∨ c = Char.ofNat 11 ∨ c = Char.ofNat 12

/-- Python `str.strip()` (strip whitespace from both ends). -/
def pyStrip (l : Str) : Str :=
  (l.dropWhile isPyWs).reverse.dropWhile isPyWs |>.reverse

/-- Python `str.rstrip()`. -/
def pyRstrip (l : Str) : Str := l.reverse.dropWhile isPyWs |>.reverse

/-- ASCII lower-casing, the effect of Python `str.lower` on the data seen here. -/
def lowerStr (l : Str) : Str := l.map Char.toLower

/-- ASCII upper-casing, the effect of Python `str.upper` on the data seen here. -/
def upperStr (l : Str) : Str := l.map Char.toUpper

/-- Python `str.capitalize()`: first character upper-cased, the rest lower-cased. -/
def pyCapitalize : Str → Str
  | [] => []
  | c :: rest => Char.toUpper c :: rest.map Char.toLower

/-- Fuel-driven worker for `splitOnSeq`; the fuel dominates the input length
so the zero case is unreachable from the wrapper. -/
def splitOnSeqF (sep : Str) : ℕ → Str → List Str
  | _, [] => [[]]
  | 0, l => [l]
  | fuel + 1, c :: rest =>
    if startsWith sep (c :: rest) then
      match splitOnSeqF sep fuel ((c :: rest).drop sep.length) with
      | [] => [[]]
      | piece :: pieces => [] :: piece :: pieces
    else
      match splitOnSeqF sep fuel rest with
      | [] => [[c]]
      | piece :: pieces => (c :: piece) :: pieces

/-- Python `str.split(sep)` for a non-empty separator: split on each
non-overlapping occurrence, keeping empty pieces. -/
def splitOnSeq (sep : Str) (l : Str) : List Str :=
  if sep = [] then [l] else splitOnSeqF sep l.length l

/-- A stable insertion: place `x` before the first element it `le`-precedes.
Used to model Python's stable `list.sort` / `sorted`. -/
def insertSorted {α : Type} (le : α → α → Bool) (x : α) : List α → List α
  | [] => [x]
  | y :: ys => if le x y then x :: y :: ys else y :: insertSorted le x ys

/-- Stable insertion sort (the model of Python's stable sort: an element is
placed before a later element exactly when the comparison strictly requires
it, so equal keys keep their original order). -/
def sortByB {α : Type} (le : α → α → Bool) : List α → List α
  | [] => []
  | x :: xs => insertSorted le x (sortByB le xs)

/-- Python `sep.join(pieces)`. -/
def joinSep (sep : Str) : List Str → Str
  | [] => []
  | [x] => x
  | x :: y :: rest => x ++ sep ++ joinSep sep (y :: rest)

------------------------------------------------------------------------------
-- § Provider resolution — `modules/ai_engine.py`, `_resolve_provider`
------------------------------------------------------------------------------

/-- The provider-name resolution performed by `_resolve_provider` when no
provider instance is passed: if `openai_api_key` is non-empty the key prefix
chooses the provider, otherwise the `provider_name` argument is used. -/
def resolveProviderName (openaiApiKey : Str) (providerName : Str) : Str :=
  if openaiApiKey ≠ [] then
    if startsWith (strOf "sk-ant-") openaiApiKey then strOf "anthropic"
    else if startsWith (strOf "AIza") openaiApiKey then strOf "google"
    else strOf "openai"
  else providerName

/-- A provider instance, kept abstract: `_resolve_provider` returns the
instance unchanged when one is passed. -/
structure ProviderInstance where
  name : Str

/-- `_resolve_provider`: an explicitly passed provider instance wins; otherwise
a provider is constructed for the name chosen by `resolveProviderName`. -/
def resolveProvider (provider : Option ProviderInstance)
    (openaiApiKey providerName : Str) : ProviderInstance :=
  match provider with
  | some p => p
  | none => ⟨resolveProviderName openaiApiKey providerName⟩

------------------------------------------------------------------------------
-- § Retry layer — `modules/ai/retry_handler.py`, `with_retry`
------------------------------------------------------------------------------

/-- The classification of a raised error, as produced by `classify_error`:
whether it is retryable, whether it is a `RateLimitError`, and the
`retry_after` value carried by rate-limit errors. -/
structure CErr where
  retryable : Bool
  isRate : Bool
  retryAfter : ℚ
deriving DecidableEq

/-- Sleep duration chosen by `with_retry` before retry number `attempt + 1`:
a rate-limit error with positive `retry_after` sleeps that long, anything else
sleeps `min(base_delay * 2**attempt, max_delay) * (0.5 + random())` where the
jitter draw `random()` lies in `[0, 1)`. -/
def backoffDelay (base maxd : ℚ) (attempt : ℕ) (c : CErr) (jitter : ℚ) : ℚ :=
  if c.isRate ∧ 0 < c.retryAfter then c.retryAfter
  else min (base * 2 ^ attempt) maxd * (1 / 2 + jitter)

/-- Observable trace of one run of the `with_retry` wrapper: the final result,
how many times the wrapped function was invoked, and the sleeps performed. -/
structure RetryTrace (α : Type) where
  result : Except CErr α
  invocations : ℕ
  sleeps : List ℚ

/-- The `for attempt in range(max_retries + 1)` loop of `with_retry`.
`calls i` is the (classified) outcome of the `i`-th invocation of the wrapped
function and `jit i` the jitter drawn before the `i`-th retry sleep. -/
def retryLoop {α : Type} (calls : ℕ → Except CErr α) (jit : ℕ → ℚ)
    (base maxd : ℚ) : (attempt : ℕ) → (remaining : ℕ) → RetryTrace α
  | attempt, 0 =>
    match calls attempt with
    | .ok v => ⟨.ok v, 1, []⟩
    | .error c => ⟨.error c, 1, []⟩
  | attempt, r + 1 =>
    match calls attempt with
    | .ok v => ⟨.ok v, 1, []⟩
    | .error c =>
      if c.retryable then
        let d := backoffDelay base maxd attempt c (jit attempt)
        let t := retryLoop calls jit base maxd (attempt + 1) r
        ⟨t.result, t.invocations + 1, d :: t.sleeps⟩
      else ⟨.error c, 1, []⟩

/-- `with_retry(max_retries, base_delay, max_delay)` applied to a function
whose successive invocation outcomes are `calls` and whose jitter draws are
`jit`; `remaining = maxRetries - attempt` tracks the loop bound
`attempt < max_retries`. -/
def withRetry {α : Type} (maxRetries : ℕ) (base maxd : ℚ)
    (calls : ℕ → Except CErr α) (jit : ℕ → ℚ) : RetryTrace α :=
  retryLoop calls jit base maxd 0 maxRetries

------------------------------------------------------------------------------
-- § Validated analysis data — the dict shape produced by the IoC extraction
------------------------------------------------------------------------------

/-- One TTP entry of the analysis data: either a bare string or a dict with
the normalized keys `mitre_id`, `technique_name`, `description` in insertion
order (the shape produced by `validate_ioc_response`). -/
inductive TtpIn where
  | strTtp (v : Str)
  | dictTtp (mitreId : Str) (techName : Str) (descr : Str)
deriving DecidableEq

/-- The fields of the validated analysis dict that the deterministic
generators read: `indicators_of_compromise` (an ordered dict of string
lists), `ttps`, `threat_actors` and `tools_or_malware`. -/
structure AnalysisData where
  iocs : List (Str × List Str)
  ttps : List TtpIn
  threatActors : List Str
  toolsOrMalware : List Str
deriving DecidableEq

/-- `analysis_data.get("indicators_of_compromise", {}).get(category, [])`. -/
def iocGet (a : AnalysisData) (category : Str) : List Str :=
  match a.iocs.find? (fun kv => kv.1 = category) with
  | some kv => kv.2
  | none => []

/-- Worker for `dedupKeepFirst`, carrying the elements already emitted. -/
def dedupKeepFirstAux {α : Type} [DecidableEq α] (seen : List α) : List α → List α
  | [] => []
  | x :: xs =>
    if x ∈ seen then dedupKeepFirstAux seen xs
    else x :: dedupKeepFirstAux (seen ++ [x]) xs

/-- Remove later duplicates from a list, keeping the first occurrence of each
element; determinises the iteration order of a Python set built by scanning. -/
def dedupKeepFirst {α : Type} [DecidableEq α] (l : List α) : List α :=
  dedupKeepFirstAux [] l

/-- Python `round(q, 2)` over the rational model of the float scores: the
nearest multiple of `1/100` (Lean's `round` resolves ties upward while Python
resolves float ties to even; no tie arises at the values reached here). -/
def round2 (q : ℚ) : ℚ := (round (q * 100) : ℚ) / 100

------------------------------------------------------------------------------
-- § YARA generator — `modules/yara_module.py`, `generate_yara_rules`
------------------------------------------------------------------------------

/-- `safe_string`: escape double quotes for YARA syntax. -/
def safeString (s : Str) : Str :=
  s.bind (fun c => if c = '"' then ['\\', '"'] else [c])

/-- The `ioc_map` of `generate_yara_rules`: category → YARA string modifier,
in source order. -/
def yaraIocMap : List (Str × Str) :=
  [ (strOf "ips", strOf "ascii fullword"),
    (strOf "domains", strOf "nocase"),
    (strOf "urls", strOf "ascii wide"),
    (strOf "email_addresses", strOf "nocase"),
    (strOf "file_hashes", strOf "ascii fullword"),
    (strOf "filenames", strOf "nocase"),
    (strOf "registry_keys", strOf "nocase"),
    (strOf "process_names", strOf "nocase"),
    (strOf "malicious_commands", strOf "ascii wide nocase") ]

/-- Decimal rendering of a natural number (Python `str(index)`). -/
def natStr (n : ℕ) : Str := (Nat.repr n).toList

/-- One `$<category>_<i> = "<escaped>" <modifier>` string line. -/
def yaraStringLine (category : Str) (i : ℕ) (ioc : Str) (modifier : Str) : Str :=
  '$' :: category ++ '_' :: natStr i ++ strOf " = \"" ++ safeString ioc
    ++ strOf "\" " ++ modifier

/-- The `rule Suspicious_<Category>_Match` header line. -/
def yaraRuleHeader (category : Str) : Str :=
  strOf "rule Suspicious_" ++ pyCapitalize category ++ strOf "_Match"

/-- The YARA condition shared by all generated rules. -/
def yaraCondition : Str := strOf "condition:\n        any of them"

/-- The category rule emitted by `generate_yara_rules` (the f-string template
after the trailing `.strip()`). -/
def yaraCategoryRule (currentDate category modifier : Str) (iocs : List Str) : Str :=
  yaraRuleHeader category
    ++ strOf "\n\x7b\n    meta:\n        description = \"Detects suspicious "
    ++ category
    ++ strOf " IoCs\"\n        author = \"Aytek AYTEMUR\"\n        date = \""
    ++ currentDate
    ++ strOf "\"\n        reference = \"Generated from AI-based IoC Analysis\"\n\n    strings:\n        "
    ++ joinSep (strOf "\n") (iocs.enum.map (fun p => yaraStringLine category p.1 p.2 modifier))
    ++ strOf "\n\n    " ++ yaraCondition ++ strOf "\n\x7d"

/-- The dedicated malicious-command rule (second template of the source). -/
def yaraCommandRule (currentDate : Str) (cmds : List Str) : Str :=
  strOf "rule Suspicious_Command_Detection\n\x7b\n    meta:\n        description = \"Detects malicious command usage\"\n        author = \"Aytek AYTEMUR\"\n        date = \""
    ++ currentDate
    ++ strOf "\"\n        reference = \"Generated from AI-based IoC Analysis\"\n\n    strings:\n        "
    ++ joinSep (strOf "\n")
        (cmds.enum.map (fun p =>
          strOf "$cmd_" ++ natStr p.1 ++ strOf " = \"" ++ safeString p.2 ++ ['"']))
    ++ strOf "\n\n    condition:\n        any of them\n\x7d"

/-- `generate_yara_rules`: one rule per non-empty category of `ioc_map`, plus
the dedicated command rule, joined by blank lines.  `currentDate` stands for
the `datetime.now()` timestamp read by the source. -/
def generateYaraRules (currentDate : Str) (a : AnalysisData) : Str :=
  let catRules := yaraIocMap.filterMap (fun km =>
    let iocs := iocGet a km.1
    if iocs = [] then none else some (yaraCategoryRule currentDate km.1 km.2 iocs))
  let cmds := iocGet a (strOf "malicious_commands")
  let rules := catRules ++ (if cmds = [] then [] else [yaraCommandRule currentDate cmds])
  joinSep (strOf "\n\n") rules

------------------------------------------------------------------------------
-- § MITRE mapper — `modules/mitre_mapping.py`
------------------------------------------------------------------------------

/-- One record of `TECHNIQUE_DB`. -/
structure TechRec where
  name : Str
  tactic : Str
  keywords : List Str
deriving DecidableEq

/-- Abbreviation used to keep the technique table readable. -/
def tdbEntry (tid name tactic : String) (kws : List String) : Str × TechRec :=
  (strOf tid, ⟨strOf name, strOf tactic, kws.map strOf⟩)

/-- `TECHNIQUE_DB` of `modules/mitre_mapping.py`, in source (insertion) order. -/
def techniqueDB : List (Str × TechRec) :=
  [ tdbEntry "T1566" "Phishing" "initial_access" ["phishing", "spear-phishing", "email attachment", "malicious link"],
    tdbEntry "T1566.001" "Spearphishing Attachment" "initial_access" ["attachment", "doc", "xls", "macro", "office"],
    tdbEntry "T1566.002" "Spearphishing Link" "initial_access" ["link", "url", "click"],
    tdbEntry "T1190" "Exploit Public-Facing Application" "initial_access" ["exploit", "vulnerability", "cve", "rce"],
    tdbEntry "T1133" "External Remote Services" "initial_access" ["vpn", "rdp", "remote desktop", "citrix"],
    tdbEntry "T1195" "Supply Chain Compromise" "initial_access" ["supply chain", "trojanized", "update", "package"],
    tdbEntry "T1059" "Command and Scripting Interpreter" "execution" ["script", "interpreter"],
    tdbEntry "T1059.001" "PowerShell" "execution" ["powershell", "ps1", "invoke-expression", "iex", "-encodedcommand", "-enc"],
    tdbEntry "T1059.003" "Windows Command Shell" "execution" ["cmd.exe", "cmd /c", "command prompt", "batch"],
    tdbEntry "T1059.005" "Visual Basic" "execution" ["vbscript", "vbs", "wscript", "cscript", "macro"],
    tdbEntry "T1059.007" "JavaScript" "execution" ["javascript", "jscript", "js", "node"],
    tdbEntry "T1204" "User Execution" "execution" ["user execution", "double click", "open", "run"],
    tdbEntry "T1047" "Windows Management Instrumentation" "execution" ["wmi", "wmic", "wmiprvse"],
    tdbEntry "T1053" "Scheduled Task/Job" "execution" ["schtasks", "scheduled task", "cron", "at.exe"],
    tdbEntry "T1547.001" "Registry Run Keys / Startup Folder" "persistence" ["run key", "startup", "hkcu\\software\\microsoft\\windows\\currentversion\\run", "autorun"],
    tdbEntry "T1543.003" "Windows Service" "persistence" ["service", "sc.exe", "new-service"],
    tdbEntry "T1136" "Create Account" "persistence" ["net user", "create account", "add user"],
    tdbEntry "T1505.003" "Web Shell" "persistence" ["webshell", "web shell", "aspx", "jsp"],
    tdbEntry "T1548.002" "Bypass UAC" "privilege_escalation" ["uac", "bypass", "eventvwr", "fodhelper"],
    tdbEntry "T1068" "Exploitation for Privilege Escalation" "privilege_escalation" ["privilege escalation", "local exploit", "kernel exploit"],
    tdbEntry "T1027" "Obfuscated Files or Information" "defense_evasion" ["obfuscated", "encoded", "base64", "encryption", "packed"],
    tdbEntry "T1036" "Masquerading" "defense_evasion" ["masquerad", "renamed", "disguised", "legitimate"],
    tdbEntry "T1070" "Indicator Removal" "defense_evasion" ["clear logs", "delete logs", "wevtutil", "indicator removal"],
    tdbEntry "T1562.001" "Disable or Modify Tools" "defense_evasion" ["disable defender", "tamper protection", "disable antivirus", "kill av"],
    tdbEntry "T1055" "Process Injection" "defense_evasion" ["inject", "process injection", "dll injection", "hollowing", "createremotethread"],
    tdbEntry "T1218" "System Binary Proxy Execution" "defense_evasion" ["mshta", "rundll32", "regsvr32", "certutil", "lolbin"],
    tdbEntry "T1003" "OS Credential Dumping" "credential_access" ["credential dump", "lsass", "mimikatz", "procdump", "ntds"],
    tdbEntry "T1003.001" "LSASS Memory" "credential_access" ["lsass", "mimikatz", "sekurlsa"],
    tdbEntry "T1110" "Brute Force" "credential_access" ["brute force", "password spray", "credential stuffing"],
    tdbEntry "T1552" "Unsecured Credentials" "credential_access" ["plaintext password", "credentials in files", "password file"],
    tdbEntry "T1082" "System Information Discovery" "discovery" ["systeminfo", "hostname", "ver", "system information"],
    tdbEntry "T1083" "File and Directory Discovery" "discovery" ["dir", "find", "ls", "file listing"],
    tdbEntry "T1087" "Account Discovery" "discovery" ["net user", "net group", "whoami", "account discovery"],
    tdbEntry "T1057" "Process Discovery" "discovery" ["tasklist", "ps", "get-process", "process list"],
    tdbEntry "T1049" "System Network Connections Discovery" "discovery" ["netstat", "ss", "network connections"],
    tdbEntry "T1021.001" "Remote Desktop Protocol" "lateral_movement" ["rdp", "mstsc", "remote desktop", "3389"],
    tdbEntry "T1021.002" "SMB/Windows Admin Shares" "lateral_movement" ["smb", "admin$", "c$", "ipc$", "net use"],
    tdbEntry "T1570" "Lateral Tool Transfer" "lateral_movement" ["copy", "transfer", "move laterally", "psexec"],
    tdbEntry "T1005" "Data from Local System" "collection" ["collect data", "local files", "sensitive data"],
    tdbEntry "T1113" "Screen Capture" "collection" ["screenshot", "screen capture", "screen grab"],
    tdbEntry "T1056.001" "Keylogging" "collection" ["keylogger", "keylogging", "keystroke"],
    tdbEntry "T1071" "Application Layer Protocol" "command_and_control" ["http", "https", "dns", "c2", "command and control"],
    tdbEntry "T1071.001" "Web Protocols" "command_and_control" ["http beacon", "https callback", "web c2"],
    tdbEntry "T1071.004" "DNS" "command_and_control" ["dns tunnel", "dns c2", "dns exfiltration"],
    tdbEntry "T1105" "Ingress Tool Transfer" "command_and_control" ["download", "wget", "curl", "certutil", "bitsadmin"],
    tdbEntry "T1572" "Protocol Tunneling" "command_and_control" ["tunnel", "ssh tunnel", "vpn tunnel", "socks"],
    tdbEntry "T1573" "Encrypted Channel" "command_and_control" ["encrypted", "ssl", "tls", "encrypted c2"],
    tdbEntry "T1041" "Exfiltration Over C2 Channel" "exfiltration" ["exfiltrate", "data theft", "steal data"],
    tdbEntry "T1048" "Exfiltration Over Alternative Protocol" "exfiltration" ["ftp exfil", "dns exfil", "icmp exfil"],
    tdbEntry "T1567" "Exfiltration Over Web Service" "exfiltration" ["cloud storage", "dropbox", "google drive", "mega"],
    tdbEntry "T1486" "Data Encrypted for Impact" "impact" ["ransomware", "encrypt", "ransom", "locked files"],
    tdbEntry "T1490" "Inhibit System Recovery" "impact" ["vssadmin", "shadow copy", "bcdedit", "wbadmin"],
    tdbEntry "T1489" "Service Stop" "impact" ["stop service", "net stop", "sc stop", "taskkill"] ]

/-- Lookup in `TECHNIQUE_DB` (`tid in TECHNIQUE_DB` / `TECHNIQUE_DB[tid]`). -/
def tdbFind (tid : Str) : Option TechRec :=
  match techniqueDB.find? (fun kv => kv.1 = tid) with
  | some kv => some kv.2
  | none => none

/-- All matches of the regex `T\d{4}(?:\.\d{3})?` in scan order: leftmost,
non-overlapping, with the optional sub-technique group matched greedily. -/
def scanTechUpperF : ℕ → Str → List Str
  | _, [] => []
  | 0, _ => []
  | fuel + 1, 'T' :: a :: b :: c :: d :: '.' :: x :: y :: z :: rest2 =>
    if a.isDigit ∧ b.isDigit ∧ c.isDigit ∧ d.isDigit then
      if x.isDigit ∧ y.isDigit ∧ z.isDigit then
        ('T' :: a :: b :: c :: d :: '.' :: x :: y :: [z]) :: scanTechUpperF fuel rest2
      else ('T' :: a :: b :: c :: [d]) :: scanTechUpperF fuel ('.' :: x :: y :: z :: rest2)
    else scanTechUpperF fuel (a :: b :: c :: d :: '.' :: x :: y :: z :: rest2)
  | fuel + 1, 'T' :: a :: b :: c :: d :: rest =>
    if a.isDigit ∧ b.isDigit ∧ c.isDigit ∧ d.isDigit then
      ('T' :: a :: b :: c :: [d]) :: scanTechUpperF fuel rest
    else scanTechUpperF fuel (a :: b :: c :: d :: rest)
  | fuel + 1, _ :: rest => scanTechUpperF fuel rest

/-- Wrapper giving `scanTechUpperF` enough fuel for its input. -/
def scanTechUpper (l : Str) : List Str := scanTechUpperF l.length l

/-- One emitted MITRE match.  `keywordHits = none` models the absence of the
`keyword_hits` key on AI-extracted matches. -/
structure MitreMatch where
  techniqueId : Str
  techniqueName : Str
  tactic : Str
  confidence : ℚ
  source : Str
  keywordHits : Option ℕ
  descr : Str
deriving DecidableEq

/-- The string the first loop of `map_iocs_to_mitre` scans for technique ids:
`str(ttp).upper()` for a bare string, `str(ttp.get("mitre_id", "")).upper()`
for a dict. -/
def ttpIdStr : TtpIn → Str
  | .strTtp v => upperStr v
  | .dictTtp mid _ _ => upperStr mid

/-- The description taken from an AI-extracted TTP (empty for bare strings). -/
def ttpDesc : TtpIn → Str
  | .strTtp _ => []
  | .dictTtp _ _ d => d

/-- Inner loop of the first phase: emit one `ai_extracted` match per technique
id found in this TTP that is present in `TECHNIQUE_DB` and not yet seen. -/
def aiIdsFold (ids : List Str) (ttpDescription : Str) (seen : List Str) :
    List MitreMatch × List Str :=
  match ids with
  | [] => ([], seen)
  | tid :: rest =>
    match tdbFind tid with
    | some tech =>
      if tid ∈ seen then aiIdsFold rest ttpDescription seen
      else
        let descr := if ttpDescription ≠ [] then ttpDescription
          else strOf "AI identified " ++ tech.name ++ strOf " technique used in this attack."
        let m : MitreMatch :=
          ⟨tid, tech.name, tech.tactic, 95 / 100, strOf "ai_extracted", none, descr⟩
        let r := aiIdsFold rest ttpDescription (seen ++ [tid])
        (m :: r.1, r.2)
    | none => aiIdsFold rest ttpDescription seen

/-- First phase of `map_iocs_to_mitre`: scan every TTP for technique ids. -/
def aiMatches : List TtpIn → List Str → List MitreMatch × List Str
  | [], seen => ([], seen)
  | ttp :: rest, seen =>
    let r1 := aiIdsFold (dedupKeepFirst (scanTechUpper (ttpIdStr ttp))) (ttpDesc ttp) seen
    let r2 := aiMatches rest r1.2
    (r1.1 ++ r2.1, r2.2)

/-- The lowercased keyword blob: all IoC values, then threat actors, then
tools/malware, joined by single spaces. -/
def mitreBlob (a : AnalysisData) : Str :=
  joinSep (strOf " ")
    ((a.iocs.bind (fun kv => kv.2.map lowerStr))
      ++ a.threatActors.map lowerStr ++ a.toolsOrMalware.map lowerStr)

/-- Second phase of `map_iocs_to_mitre`: keyword-match the remaining table
entries against the blob. -/
def kwMatches : List (Str × TechRec) → Str → List Str → List MitreMatch
  | [], _, _ => []
  | (tid, tech) :: rest, blob, seen =>
    if tid ∈ seen then kwMatches rest blob seen
    else
      let matched := tech.keywords.filter (fun kw => containsSeq kw blob)
      if 0 < matched.length then
        let conf : ℚ :=
          round2 (min ((9 : ℚ) / 10) (3 / 10 + (matched.length : ℚ) * (15 / 100)))
        let descr := strOf "Detected via keyword indicators: "
          ++ joinSep (strOf ", ") (matched.take 5)
        ⟨tid, tech.name, tech.tactic, conf, strOf "keyword_match",
          some matched.length, descr⟩ :: kwMatches rest blob (seen ++ [tid])
      else kwMatches rest blob seen

/-- `map_iocs_to_mitre`: AI-extracted matches, then keyword matches, sorted by
confidence descending (Python's stable `list.sort` with `reverse=True`). -/
def mapIocsToMitre (a : AnalysisData) : List MitreMatch :=
  let r := aiMatches a.ttps []
  let kms := kwMatches techniqueDB (mitreBlob a) r.2
  sortByB (fun x y => decide (y.confidence ≤ x.confidence)) (r.1 ++ kms)

------------------------------------------------------------------------------
-- § JSON model — values, serialization, and a model of `json.loads`
------------------------------------------------------------------------------

/-- JSON values of the fragment exchanged by the validator call sites used
here: strings, arrays, and objects with ordered fields. -/
inductive JVal where
  | jstr (s : Str)
  | jarr (es : List JVal)
  | jobj (fs : List (Str × JVal))

mutual
/-- Compact serialization of a JSON value (a standard dump with no
inter-token whitespace); the reference serialization whose truncations the
validator claim quantifies over. -/
def dumpVal : JVal → Str
  | .jstr s => '"' :: s ++ ['"']
  | .jarr es => '[' :: dumpElems es ++ [']']
  | .jobj fs => '{' :: dumpFields fs ++ ['}']

/-- Comma-separated dump of array elements. -/
def dumpElems : List JVal → Str
  | [] => []
  | [v] => dumpVal v
  | v :: vs => dumpVal v ++ ',' :: dumpElems vs

/-- Comma-separated dump of object fields. -/
def dumpFields : List (Str × JVal) → Str
  | [] => []
  | [kv] => '"' :: kv.1 ++ '"' :: ':' :: dumpVal kv.2
  | kv :: fs => '"' :: kv.1 ++ '"' :: ':' :: dumpVal kv.2 ++ ',' :: dumpFields fs
end

/-- Whitespace skipped between JSON tokens by Python's decoder (` \t\n\r`). -/
def jsonWs (c : Char) : Bool := c = ' ' ∨ c = '\t' ∨ c = '\n' ∨ c = '\r'

/-- Skip inter-token whitespace. -/
def skipWs (l : Str) : Str := l.dropWhile jsonWs

/-- Parse the body of a JSON string after the opening quote, up to the closing
quote.  Escapes never occur in the data fed to this model; a backslash makes
the parse fail. -/
def parseStrBody : Str → Option (Str × Str)
  | [] => none
  | c :: cs =>
    if c = '"' then some ([], cs)
    else if c = '\\' then none
    else
      match parseStrBody cs with
      | some (s, r) => some (c :: s, r)
      | none => none

mutual
/-- Modelled from the spec: the recursive-descent value scanner of Python's
`json.loads`, restricted to the string/array/object fragment (numbers,
booleans, `null` and string escapes do not occur in the inputs this
development feeds to it).  The fuel argument dominates the nesting depth. -/
def parseVal : ℕ → Str → Option (JVal × Str)
  | 0, _ => none
  | n + 1, l =>
    match skipWs l with
    | '"' :: cs =>
      match parseStrBody cs with
      | some (s, r) => some (.jstr s, r)
      | none => none
    | '[' :: cs =>
      match skipWs cs with
      | ']' :: r => some (.jarr [], r)
      | _ =>
        match parseElems n cs with
        | some (es, r) => some (.jarr es, r)
        | none => none
    | '{' :: cs =>
      match skipWs cs with
      | '}' :: r => some (.jobj [], r)
      | _ =>
        match parseFields n cs with
        | some (fs, r) => some (.jobj fs, r)
        | none => none
    | _ => none

/-- Non-empty array tail: `value (',' value)* ']'`. -/
def parseElems : ℕ → Str → Option (List JVal × Str)
  | 0, _ => none
  | n + 1, l =>
    match parseVal n l with
    | some (v, r) =>
      match skipWs r with
      | ',' :: r2 =>
        match parseElems n r2 with
        | some (vs, r3) => some (v :: vs, r3)
        | none => none
      | ']' :: r2 => some ([v], r2)
      | _ => none
    | none => none

/-- Non-empty object tail: `"key" ':' value (',' pair)* '}'`. -/
def parseFields : ℕ → Str → Option (List (Str × JVal) × Str)
  | 0, _ => none
  | n + 1, l =>
    match skipWs l with
    | '"' :: cs =>
      match parseStrBody cs with
      | some (k, r) =>
        match skipWs r with
        | ':' :: r2 =>
          match parseVal n r2 with
          | some (v, r3) =>
            match skipWs r3 with
            | ',' :: r4 =>
              match parseFields n r4 with
              | some (fs, r5) => some ((k, v) :: fs, r5)
              | none => none
            | '}' :: r4 => some ([(k, v)], r4)
            | _ => none
          | none => none
        | _ => none
      | none => none
    | _ => none
end

/-- `json.loads`: parse one value and require only trailing whitespace after
it (Python's "Extra data" check). -/
def loads (l : Str) : Option JVal :=
  match parseVal (l.length + 1) l with
  | some (v, rest) => if skipWs rest = [] then some v else none
  | none => none

------------------------------------------------------------------------------
-- § Output validator — `modules/pipeline/output_validator.py`
------------------------------------------------------------------------------

/-- The backtick character (kept out of the banned-token surface). -/
def btick : Char := Char.ofNat 96

/-- The 7-character markdown fence opener searched first by `validate_json`. -/
def fenceJson : Str := [btick, btick, btick, 'j', 's', 'o', 'n']

/-- The bare triple-backtick fence. -/
def fenceStr : Str := [btick, btick, btick]

/-- Leftmost index at which `pat` occurs in the list (Python `str.find`). -/
def findSeqIdx (pat : Str) : Str → Option ℕ
  | [] => if pat = [] then some 0 else none
  | c :: rest =>
    if startsWith pat (c :: rest) then some 0
    else (findSeqIdx pat rest).map (· + 1)

/-- Leftmost index of a character (Python `str.find` of a 1-char needle). -/
def findCharIdx (c : Char) (l : Str) : Option ℕ := l.findIdx? (· = c)

/-- Rightmost index of a character (Python `str.rfind`). -/
def rfindCharIdx (c : Char) (l : Str) : Option ℕ :=
  (l.reverse.findIdx? (· = c)).map (fun i => l.length - 1 - i)

/-- The fence-extraction step of `validate_json`: slice from just after the
opening fence to the next bare fence (or the end) and strip. -/
def extractFenced (pat text : Str) : Str :=
  let start := (findSeqIdx pat text).getD 0 + pat.length
  let after := text.drop start
  match findSeqIdx fenceStr after with
  | some j => pyStrip (after.take j)
  | none => pyStrip after

/-- The `{…}` / `[…]` slicing step of `validate_json` when the text does not
already start with `{` or `[`. -/
def sliceCore (text : Str) : Str :=
  let arrCase :=
    match findCharIdx '[' text, rfindCharIdx ']' text with
    | some s, some e => if s < e + 1 then (text.drop s).take (e + 1 - s) else text
    | _, _ => text
  match findCharIdx '{' text, rfindCharIdx '}' text with
  | some s, some e => if s < e + 1 then (text.drop s).take (e + 1 - s) else arrCase
  | _, _ => arrCase

/-- Dispatch of the slicing step on `text.startswith(("{", "["))`. -/
def sliceBraces (text : Str) : Str :=
  match text with
  | c :: _ => if c = '{' ∨ c = '[' then text else sliceCore text
  | [] => sliceCore []

/-- The escape characters that are valid after a backslash in JSON. -/
def validEscapeChar (c : Char) : Bool :=
  c ∈ ['"', '\\', '/', 'b', 'f', 'n', 'r', 't', 'u']

/-- Repair strategy 1 of `_repair_json`: the character-by-character pass that
doubles every backslash not followed by a valid escape character.  The final
character is never treated as an escape opener (`while i < len(chars) - 1`). -/
def fixEscapes : Str → Str
  | [] => []
  | [c] => [c]
  | c :: c2 :: rest =>
    if c = '\\' then
      if validEscapeChar c2 then '\\' :: c2 :: fixEscapes rest
      else '\\' :: '\\' :: fixEscapes (c2 :: rest)
    else c :: fixEscapes (c2 :: rest)

/-- Repair strategy 2: `re.sub(r',\s*}', '}', ·)` (and likewise for `]`),
scanning left to right over non-overlapping matches. -/
def subCommaCloserF (cl : Char) : ℕ → Str → Str
  | _, [] => []
  | 0, l => l
  | fuel + 1, c :: rest =>
    if c = ',' ∧ (rest.dropWhile isPyWs).head? = some cl then
      cl :: subCommaCloserF cl fuel (rest.dropWhile isPyWs).tail
    else c :: subCommaCloserF cl fuel rest

/-- Wrapper giving `subCommaCloserF` enough fuel for its input. -/
def subCommaCloser (cl : Char) (l : Str) : Str := subCommaCloserF cl l.length l

/-- Repair strategy 3: strip the ASCII control characters
`[\x00-\x08\x0b\x0c\x0e-\x1f]`. -/
def isStrippedCtrl (c : Char) : Bool :=
  c.toNat ≤ 8 ∨ c.toNat = 11 ∨ c.toNat = 12 ∨ (14 ≤ c.toNat ∧ c.toNat ≤ 31)

/-- Apply repair strategy 3. -/
def stripCtrl (l : Str) : Str := l.filter (fun c => ¬ isStrippedCtrl c)

/-- Repair strategy 4 (truncation recovery): right-strip, close an open quote
when the quote count is odd, then append the missing `]`s and `}`s (in that
order; natural-number subtraction models Python's `max(0, ·)`). -/
def rebalance (l : Str) : Str :=
  let t := pyRstrip l
  let t := if t.count '"' % 2 ≠ 0 then t ++ ['"'] else t
  t ++ List.replicate (t.count '[' - t.count ']') ']'
    ++ List.replicate (t.count '{' - t.count '}') '}'

/-- Repair strategy 5 (`re.sub(r'\\(?![nrt"\\])', '', ·)`): drop every
backslash not followed by `n`, `r`, `t`, `"` or another backslash. -/
def nuclearStrip : Str → Str
  | [] => []
  | '\\' :: rest =>
    match rest with
    | c :: _ =>
      if c ∈ ['n', 'r', 't', '"', '\\'] then '\\' :: nuclearStrip rest
      else nuclearStrip rest
    | [] => nuclearStrip rest
  | c :: rest => c :: nuclearStrip rest

/-- `OutputValidator._repair_json`: strategies 1–3, then a parse attempt, then
truncation recovery, then the nuclear fallback. -/
def repairJson (text : Str) : Option JVal :=
  let repaired := stripCtrl (subCommaCloser ']' (subCommaCloser '}' (fixEscapes text)))
  match loads repaired with
  | some v => some v
  | none =>
    match loads (rebalance repaired) with
    | some v => some v
    | none => loads (nuclearStrip repaired)

/-- `OutputValidator.validate_json`: strip, unwrap markdown fences, slice to
the outermost braces/brackets, then parse, falling back to `_repair_json`. -/
def validateJson (input : Str) : Bool × Option JVal :=
  let text := pyStrip input
  let text :=
    if containsSeq fenceJson text then extractFenced fenceJson text
    else if containsSeq fenceStr text then extractFenced fenceStr text
    else text
  let text := sliceBraces text
  match loads text with
  | some v => (true, some v)
  | none =>
    match repairJson text with
    | some v => (true, some v)
    | none => (false, none)

------------------------------------------------------------------------------
-- § Validator claim instrumentation: good values, their dumps, and measures
------------------------------------------------------------------------------

/-- The identifier-like characters over which the truncation claim is proved:
ASCII letters, digits and underscore.  Strings over this alphabet contain no
quotes, escapes, brackets, braces, commas, colons or whitespace, so string
bodies never interfere with the repair passes. -/
def goodChar (c : Char) : Bool :=
  (65 ≤ c.toNat ∧ c.toNat ≤ 90) ∨ (97 ≤ c.toNat ∧ c.toNat ≤ 122)
  ∨ (48 ≤ c.toNat ∧ c.toNat ≤ 57) ∨ c.toNat = 95

/-- A string of good characters. -/
def goodStr (s : Str) : Bool := s.all goodChar

mutual
/-- JSON values all of whose strings (keys and data) are good. -/
def goodVal : JVal → Bool
  | .jstr s => goodStr s
  | .jarr es => goodList es
  | .jobj fs => goodFields fs

/-- `goodVal` over array elements. -/
def goodList : List JVal → Bool
  | [] => true
  | v :: vs => goodVal v && goodList vs

/-- `goodVal` over object fields. -/
def goodFields : List (Str × JVal) → Bool
  | [] => true
  | kv :: fs => goodStr kv.1 && goodVal kv.2 && goodFields fs
end

/-- The characters that can occur in the dump of a good value: good characters
and the seven JSON punctuation characters `" [ ] { } , :`. -/
def dumpChar (c : Char) : Bool :=
  goodChar c ∨ c.toNat = 34 ∨ c.toNat = 91 ∨ c.toNat = 93 ∨ c.toNat = 123
  ∨ c.toNat = 125 ∨ c.toNat = 44 ∨ c.toNat = 58

mutual
/-- Fuel measure of a JSON value, dominating the fuel `parseVal` consumes. -/
def sizeV : JVal → ℕ
  | .jstr _ => 1
  | .jarr es => sizeL es + 1
  | .jobj fs => sizeF fs + 1

/-- Fuel measure over array elements. -/
def sizeL : List JVal → ℕ
  | [] => 0
  | v :: vs => sizeV v + sizeL vs + 1

/-- Fuel measure over object fields. -/
def sizeF : List (Str × JVal) → ℕ
  | [] => 0
  | kv :: fs => sizeV kv.2 + sizeF fs + 1
end

/-- No comma is immediately followed by the closer `cl`.  On whitespace-free
strings this is exactly the absence of a `,\s*cl` regex match. -/
def noCommaCloser (cl : Char) : Str → Bool
  | [] => true
  | c :: rest =>
    (if c = ',' then rest.head? ≠ some cl else true) && noCommaCloser cl rest

------------------------------------------------------------------------------
-- § IoC response validation — `OutputValidator.validate_ioc_response`
------------------------------------------------------------------------------

/-- Ordered dicts with JSON values (Python dicts preserve insertion order). -/
abbrev JDict := List (Str × JVal)

/-- `d.get(k)` on an ordered dict. -/
def dictFind (d : JDict) (k : Str) : Option JVal :=
  (d.find? (fun kv => kv.1 = k)).map (fun kv => kv.2)

/-- `k in d`. -/
def dictHas (d : JDict) (k : Str) : Bool := (dictFind d k).isSome

/-- `d[k] = v`: update in place when the key exists, append otherwise. -/
def dictSet (d : JDict) (k : Str) (v : JVal) : JDict :=
  if dictHas d k then d.map (fun kv => if kv.1 = k then (k, v) else kv)
  else d ++ [(k, v)]

/-- Expected type of a required field in the validator's field tables. -/
inductive FieldKind where
  | fstr
  | flist
  | fdict
deriving DecidableEq

/-- The default value filled in for a missing field of the given kind. -/
def fieldDefault : FieldKind → JVal
  | .fstr => .jstr []
  | .flist => .jarr []
  | .fdict => .jobj []

/-- `IOC_REQUIRED_FIELDS`, in source order. -/
def iocRequiredFields : List (Str × FieldKind) :=
  [ (strOf "sigma_title", .fstr),
    (strOf "sigma_description", .fstr),
    (strOf "indicators_of_compromise", .fdict),
    (strOf "ttps", .flist),
    (strOf "tools_or_malware", .flist),
    (strOf "threat_actors", .flist),
    (strOf "confidence_level", .fstr) ]

/-- `IOC_SUBFIELDS["indicators_of_compromise"]`: the closed set of IoC
category keys, in source order. -/
def iocSubfields : List Str :=
  [ strOf "ips", strOf "domains", strOf "urls", strOf "email_addresses",
    strOf "file_hashes", strOf "filenames", strOf "registry_keys",
    strOf "process_names", strOf "malicious_commands" ]

/-- First loop of `validate_ioc_response`: add a default for every missing
required top-level field, counting one warning per addition. -/
def fillRequiredFields (d : JDict) : JDict × ℕ :=
  iocRequiredFields.foldl
    (fun acc kv =>
      if dictHas acc.1 kv.1 then acc
      else (acc.1 ++ [(kv.1, fieldDefault kv.2)], acc.2 + 1))
    (d, 0)

/-- Second loop: ensure every IoC category key exists on the
`indicators_of_compromise` dict, appending empty lists for missing ones. -/
def fillIocSubfields (fs : JDict) : JDict × ℕ :=
  iocSubfields.foldl
    (fun acc sub =>
      if dictHas acc.1 sub then acc
      else (acc.1 ++ [(sub, .jarr [])], acc.2 + 1))
    (fs, 0)

/-- Python iteration over a JSON value (`for ttp in …`): lists yield elements,
strings yield one-character strings, dicts yield their keys. -/
def iterElems : JVal → List JVal
  | .jarr es => es
  | .jstr s => s.map (fun c => .jstr [c])
  | .jobj fs => fs.map (fun kv => .jstr kv.1)

/-- The TTP normalization loop: keep dicts that carry `mitre_id`, wrap bare
strings, drop everything else. -/
def normalizeTtp : JVal → Option JVal
  | .jobj fs =>
    if dictHas fs (strOf "mitre_id") then some (.jobj fs) else none
  | .jstr s =>
    some (.jobj
      [ (strOf "mitre_id", .jstr (if startsWith (strOf "T") s then s else [])),
        (strOf "technique_name", .jstr s),
        (strOf "description", .jstr []) ])
  | _ => none

/-- Whether a `confidence_level` value is one of `("high", "medium", "low")`. -/
def validConfidence : Option JVal → Bool
  | some (.jstr s) =>
    s = strOf "high" ∨ s = strOf "medium" ∨ s = strOf "low"
  | _ => false

/-- `OutputValidator.validate_ioc_response` after the required-field loop
(`p1` is that loop's result).  Warnings are modelled by their
count (their exact texts play no role here); `none` models the `TypeError`
raised when `indicators_of_compromise` holds a value that can neither be
key-probed nor index-assigned (for a string or list value the function only
survives when every category name already passes the `in` probe, in which
case the value is left untouched). -/
def validateCore (p1 : JDict × ℕ) : Option (Bool × JDict × ℕ) :=
  let iocVal := (dictFind p1.1 (strOf "indicators_of_compromise")).getD (.jobj [])
  let step2 : Option (JVal × ℕ) :=
    match iocVal with
    | .jobj fs => some (.jobj (fillIocSubfields fs).1, (fillIocSubfields fs).2)
    | .jstr s =>
      if iocSubfields.all (fun sub => containsSeq sub s) then some (.jstr s, 0)
      else none
    | .jarr es =>
      if iocSubfields.all (fun sub =>
          es.any (fun e => match e with | .jstr t => t = sub | _ => false)) then
        some (.jarr es, 0)
      else none
  match step2 with
  | none => none
  | some iw =>
    let d2 := dictSet p1.1 (strOf "indicators_of_compromise") iw.1
    let ttpsVal := (dictFind d2 (strOf "ttps")).getD (.jarr [])
    let validTtps := (iterElems ttpsVal).filterMap normalizeTtp
    let d3 := dictSet d2 (strOf "ttps") (.jarr validTtps)
    let okc := validConfidence (dictFind d3 (strOf "confidence_level"))
    let d4 :=
      if okc then d3
      else dictSet d3 (strOf "confidence_level") (.jstr (strOf "medium"))
    let w := p1.2 + iw.2 + (if okc then 0 else 1)
    some (w = 0, d4, w)

/-- `OutputValidator.validate_ioc_response` proper: the required-field loop
followed by the core validation. -/
def validateIocResponse (data : JDict) : Option (Bool × JDict × ℕ) :=
  validateCore (fillRequiredFields data)

------------------------------------------------------------------------------
-- § Sigma matcher — `modules/sigma_matcher.py`
------------------------------------------------------------------------------

/-- Characters matched by the token pattern `[A-Za-z0-9\-\.:;\\/_]+`. -/
def tokenChar (c : Char) : Bool :=
  c.isAlpha ∨ c.isDigit ∨ c ∈ ['-', '.', ':', ';', '\\', '/', '_']

/-- Fuel-driven worker for `tokenSpans`. -/
def tokenSpansF : ℕ → Str → List Str
  | _, [] => []
  | 0, _ => []
  | fuel + 1, c :: rest =>
    if tokenChar c then
      (c :: rest.takeWhile tokenChar) :: tokenSpansF fuel (rest.dropWhile tokenChar)
    else tokenSpansF fuel rest

/-- Maximal runs of token characters (`_TOKEN_PATTERN.findall`). -/
def tokenSpans (l : Str) : List Str := tokenSpansF l.length l

/-- `_tokenize`: token runs of length ≥ 3 whose lower-casing is not a
stopword.  The stopword set is a parameter: the source augments its custom
list with NLTK stopwords when that package is importable. -/
def tokenize (sw : Str → Bool) (text : Str) : List Str :=
  (tokenSpans text).filter (fun t => 3 ≤ t.length ∧ ¬ sw (lowerStr t))

/-- `_tokenize_lower`: the lower-cased token set, as a first-occurrence list. -/
def tokenizeLower (sw : Str → Bool) (text : Str) : List Str :=
  dedupKeepFirst ((tokenize sw text).map lowerStr)

/-- Greedy match of `t\d{4}(\.\d{3})?` at the head of an (already
lower-cased) list, returning the technique id. -/
def matchTechLowerAt : Str → Option Str
  | 't' :: a :: b :: c :: d :: '.' :: x :: y :: z :: _ =>
    if a.isDigit ∧ b.isDigit ∧ c.isDigit ∧ d.isDigit then
      if x.isDigit ∧ y.isDigit ∧ z.isDigit then
        some ('t' :: a :: b :: c :: d :: '.' :: x :: y :: [z])
      else some ('t' :: a :: b :: c :: [d])
    else none
  | 't' :: a :: b :: c :: d :: _ =>
    if a.isDigit ∧ b.isDigit ∧ c.isDigit ∧ d.isDigit then
      some ('t' :: a :: b :: c :: [d])
    else none
  | _ => none

/-- `_TECHNIQUE_RE.search`: the first occurrence of `attack\.t\d{4}(\.\d{3})?`
(case-insensitivity is obtained by lower-casing the tag first), returned as
`"t" + digits` exactly as the index builder lower-cases it. -/
def searchAttackTech : Str → Option Str
  | [] => none
  | c :: rest =>
    if startsWith (strOf "attack.t") (c :: rest) then
      match matchTechLowerAt ((c :: rest).drop 7) with
      | some tid => some tid
      | none => searchAttackTech rest
    else searchAttackTech rest

/-- The parent technique id: everything before the first dot
(`tid.split(".")[0]`). -/
def parentTech (tid : Str) : Str := tid.takeWhile (fun c => c ≠ '.')

/-- The fields of a catalog rule document that the matcher reads.  `title` is
always present (the loader keeps only documents carrying a `title` key);
`logsource = none` models a missing or non-dict `logsource`; detection blocks
are YAML string/list/dict trees (`JVal`); rules whose detection holds numeric
or boolean scalars are outside this model. -/
structure RData where
  title : Str
  idOpt : Option Str
  descrOpt : Option Str
  tags : List Str
  logsource : Option (Option Str × Option Str)
  statusOpt : Option Str
  levelOpt : Option Str
  detection : Option JVal

/-- One catalog entry produced by `_load_yaml_file`. -/
structure CatalogRule where
  filePath : Str
  relativePath : Str
  ruleData : RData

/-- Keyword/phrase contribution of one detection string value appearing as a
dict value or list item: a stripped value containing a space and longer than
3 characters is kept verbatim (lower-cased) as a phrase. -/
def strPhraseList (s : Str) : List Str :=
  let t := pyStrip s
  if containsSeq [' '] t ∧ 3 < t.length then [lowerStr t] else []

mutual
/-- Recursive term collection of `_extract_detection_terms`: dict keys are
skipped (they are Sigma field names), string values contribute tokens and
possibly a phrase, and a bare top-level string contributes only tokens. -/
def termsOfVal (sw : Str → Bool) : JVal → List Str × List Str
  | .jstr s => (tokenize sw s, [])
  | .jarr es => termsOfList sw es
  | .jobj fs => termsOfFields sw fs

/-- Term collection over list items. -/
def termsOfList (sw : Str → Bool) : List JVal → List Str × List Str
  | [] => ([], [])
  | .jstr s :: rest =>
    let (k, p) := termsOfList sw rest
    (tokenize sw s ++ k, strPhraseList s ++ p)
  | v :: rest =>
    let (k1, p1) := termsOfVal sw v
    let (k, p) := termsOfList sw rest
    (k1 ++ k, p1 ++ p)

/-- Term collection over dict values. -/
def termsOfFields (sw : Str → Bool) : List (Str × JVal) → List Str × List Str
  | [] => ([], [])
  | (_, .jstr s) :: rest =>
    let (k, p) := termsOfFields sw rest
    (tokenize sw s ++ k, strPhraseList s ++ p)
  | (_, v) :: rest =>
    let (k1, p1) := termsOfVal sw v
    let (k, p) := termsOfFields sw rest
    (k1 ++ k, p1 ++ p)
end

/-- `_extract_detection_terms`: choose the sub-block to process, collect
terms, and de-duplicate (`list(set(...))`, determinised to first-occurrence
order). -/
def extractDetectionTerms (sw : Str → Bool) (detection : JVal) :
    List Str × List Str :=
  let dataToProcess : JVal :=
    match detection with
    | .jobj fs =>
      if dictHas fs (strOf "condition") then
        .jobj (fs.filter (fun kv => kv.1 ≠ strOf "condition"))
      else
        match dictFind fs (strOf "selection") with
        | some v => v
        | none => .jobj fs
    | other => other
  let (k, p) := termsOfVal sw dataToProcess
  (dedupKeepFirst k, dedupKeepFirst p)

/-- Per-rule index state derived by `SigmaIndex._build_index`: extracted
keywords and phrases, technique ids from `attack.*` tags (with sub-technique
parents added), the logsource pair (defaulting to `"unknown"`), and the
status/level quality metadata (defaulting to `experimental` / `medium`). -/
structure IdxRule where
  rule : CatalogRule
  keywords : List Str
  phrases : List Str
  techniques : List Str
  lsCat : Str
  lsProd : Str
  status : Str
  level : Str

/-- Build the per-rule index state for one catalog entry. -/
def buildIdxRule (sw : Str → Bool) (r : CatalogRule) : IdxRule :=
  let kp := extractDetectionTerms sw (r.ruleData.detection.getD (.jobj []))
  let techs := dedupKeepFirst (r.ruleData.tags.flatMap (fun tag =>
    match searchAttackTech (lowerStr tag) with
    | some tid =>
      let parent := parentTech tid
      if parent ≠ tid then [tid, parent] else [tid]
    | none => []))
  let cp :=
    match r.ruleData.logsource with
    | some q => (q.1.getD (strOf "unknown"), q.2.getD (strOf "unknown"))
    | none => (strOf "unknown", strOf "unknown")
  ⟨r, kp.1, kp.2, techs, cp.1, cp.2,
    r.ruleData.statusOpt.getD (strOf "experimental"),
    r.ruleData.levelOpt.getD (strOf "medium")⟩

/-- The index over a catalog snapshot.  The inverted maps of the source class
(`index`, `technique_index`, `logsource_index`, `df`) are consistent derived
views of this per-rule state and are modelled as the membership queries
below. -/
structure SigmaIndexS where
  irules : List IdxRule

/-- `SigmaIndex(rules)` (the process-wide cache of `_get_or_build_index` is
bypassed: the model always builds from the catalog passed in, the cold-start
behaviour). -/
def buildIndex (sw : Str → Bool) (catalog : List CatalogRule) : SigmaIndexS :=
  ⟨catalog.map (buildIdxRule sw)⟩

/-- `doc_count`. -/
def docCount (idx : SigmaIndexS) : ℕ := idx.irules.length

/-- The lower-cased keyword set of one rule (first-occurrence order). -/
def kwLowerSet (r : IdxRule) : List Str := dedupKeepFirst (r.keywords.map lowerStr)

/-- The document frequency of a (lower-cased) term: the number of rules whose
keyword set contains it, exactly what the incremental `df` bookkeeping of
`_build_index` computes. -/
def dfOf (idx : SigmaIndexS) (t : Str) : ℕ :=
  (idx.irules.filter (fun r => t ∈ kwLowerSet r)).length

/-- `SigmaIndex.compute_tfidf_score`.  `logf` is the model of the float
`math.log`; every statement proved below holds for an arbitrary `logf`. -/
def computeTfidf (logf : ℚ → ℚ) (idx : SigmaIndexS) (r : IdxRule)
    (queryTokens : List Str) : ℚ :=
  if r.keywords = [] then 0
  else
    let lows := r.keywords.map lowerStr
    let maxTf : ℕ := ((dedupKeepFirst lows).map (fun t => lows.count t)).foldr max 0
    let score := queryTokens.foldr (fun tok acc =>
      let tl := lowerStr tok
      if 0 < lows.count tl then
        let termFreq : ℚ := 1 / 2 + (lows.count tl : ℚ) / maxTf / 2
        let docFreq := dfOf idx tl
        let idf : ℚ :=
          if 0 < docFreq then logf ((docCount idx + 1 : ℚ) / (docFreq + 1)) + 1
          else 1
        acc + termFreq * idf
      else acc) 0
    score / (r.keywords.length + 1)

/-- `IOC_TO_LOGSOURCE`, in source order. -/
def iocToLogsource : List (Str × List Str) :=
  [ (strOf "ips", [strOf "network_connection", strOf "firewall"]),
    (strOf "domains", [strOf "dns_query", strOf "dns"]),
    (strOf "urls", [strOf "proxy", strOf "network_connection", strOf "webserver"]),
    (strOf "malicious_commands",
      [strOf "process_creation", strOf "ps_script", strOf "ps_module", strOf "ps_classic"]),
    (strOf "process_names", [strOf "process_creation", strOf "image_load"]),
    (strOf "filenames",
      [strOf "file_event", strOf "file_change", strOf "file_access",
        strOf "file_delete", strOf "file_rename"]),
    (strOf "registry_keys",
      [strOf "registry_set", strOf "registry_add", strOf "registry_event",
        strOf "registry_delete"]),
    (strOf "file_hashes",
      [strOf "file_event", strOf "process_creation", strOf "driver_load"]) ]

/-- One entry of the externally supplied `mitre_techniques` list: a dict with
`technique_id` falling back to `id` (`tech.get("technique_id","") or
tech.get("id","")`), or a bare string. -/
inductive MitreIn where
  | mstr (s : Str)
  | mdict (techniqueId idField : Str)
deriving DecidableEq

/-- Technique ids (with sub-technique parents) found by
`re.finditer(r"T(\d{4}(?:\.\d{3})?)", raw.upper())`, lower-cased and
`t`-prefixed. -/
def techIdsOfRaw (raw : Str) : List Str :=
  (scanTechUpper (upperStr raw)).flatMap (fun m =>
    let tid := 't' :: m.drop 1
    let parent := parentTech tid
    if parent ≠ tid then [tid, parent] else [tid])

/-- The string scanned for technique ids per TTP entry in
`gather_report_signals`: bare strings upper-cased, dict values joined by
spaces and upper-cased, anything else empty. -/
def ttpJoinedStr : TtpIn → Str
  | .strTtp v => upperStr v
  | .dictTtp mid name d =>
    joinSep (strOf " ") [upperStr mid, upperStr name, upperStr d]

/-- The raw id string of one `mitre_techniques` entry. -/
def mitreInRaw : MitreIn → Str
  | .mstr s => s
  | .mdict tid idf => if tid ≠ [] then tid else idf

/-- `gather_report_keywords`: tokens from all IoC values, TTP field values,
threat actors and tool names. -/
def gatherReportKeywords (sw : Str → Bool) (a : AnalysisData) : List Str :=
  dedupKeepFirst
    ((a.iocs.flatMap (fun kv => kv.2.flatMap (tokenizeLower sw)))
      ++ a.ttps.flatMap (fun ttp =>
        match ttp with
        | .strTtp v => tokenizeLower sw v
        | .dictTtp mid name d =>
          tokenizeLower sw mid ++ tokenizeLower sw name ++ tokenizeLower sw d)
      ++ a.threatActors.flatMap (tokenizeLower sw)
      ++ a.toolsOrMalware.flatMap (tokenizeLower sw))

/-- The multi-dimensional report signals of `gather_report_signals`. -/
structure Signals where
  techniques : List Str
  iocTypes : List (Str × List Str)
  lsCats : List Str
  keywords : List Str
  iocValues : List Str

/-- `gather_report_signals(analysis_data, mitre_techniques)`. -/
def gatherReportSignals (sw : Str → Bool) (a : AnalysisData)
    (mitreTechniques : List MitreIn) : Signals :=
  let techs := dedupKeepFirst
    (a.ttps.flatMap (fun ttp => techIdsOfRaw (ttpJoinedStr ttp))
      ++ mitreTechniques.flatMap (fun t => techIdsOfRaw (mitreInRaw t)))
  let iocTypes := a.iocs.filter (fun kv => kv.2 ≠ [])
  let lsCats := dedupKeepFirst (iocTypes.flatMap (fun kv =>
    match iocToLogsource.find? (fun e => e.1 = kv.1) with
    | some e => e.2
    | none => []))
  let iocValues := dedupKeepFirst
    ((iocTypes.flatMap (fun kv =>
        (kv.2.filter (fun v => v ≠ [])).map (fun v => pyStrip (lowerStr v))))
      ++ (a.toolsOrMalware.filter (fun t => t ≠ [])).map (fun t => pyStrip (lowerStr t))
      ++ (a.threatActors.filter (fun t => t ≠ [])).map (fun t => pyStrip (lowerStr t)))
  ⟨techs, iocTypes, lsCats, gatherReportKeywords sw a, iocValues⟩

/-- `_fuzzy_match` at the default similarity threshold 0.8. -/
def fuzzyMatch (kw : Str) (candidates : List Str) : Bool :=
  candidates.any (fun cand =>
    kw = cand
    ∨ (4 ≤ kw.length ∧ containsSeq kw cand)
    ∨ (4 ≤ cand.length ∧ containsSeq cand kw)
    ∨ ((kw.length : ℤ) - cand.length ≤ 2 ∧ (cand.length : ℤ) - kw.length ≤ 2
        ∧ 4 ≤ kw.length
        ∧ (8 / 10 : ℚ) ≤
            (((kw.zip cand).countP (fun p => p.1 = p.2) : ℚ)
              / (max kw.length cand.length : ℕ))))

/-- `_compute_ioc_field_score`: IoC values (non-empty, length ≥ 3) that are a
substring of, or contain, some detection keyword or phrase of the rule;
returns the capped fraction and the matched values. -/
def computeIocFieldScore (r : IdxRule) (iocValues : List Str) : ℚ × List Str :=
  if iocValues = [] then (0, [])
  else
    let allDet := dedupKeepFirst (r.keywords.map lowerStr ++ r.phrases)
    if allDet = [] then (0, [])
    else
      let matched := iocValues.filter (fun v =>
        3 ≤ v.length ∧ allDet.any (fun det => containsSeq v det ∨ containsSeq det v))
      if matched = [] then (0, [])
      else
        (min 1 ((matched.length : ℚ) / ((max 1 (min iocValues.length 5) : ℕ) : ℚ)),
          matched)

/-- `_SIGMA_FIELD_BLOCKLIST`. -/
def sigmaFieldBlocklist : List Str :=
  [ strOf "selection", strOf "filter", strOf "condition", strOf "detection",
    strOf "logsource", strOf "image", strOf "user", strOf "status",
    strOf "level", strOf "title", strOf "description", strOf "author",
    strOf "date", strOf "references", strOf "tags", strOf "fields",
    strOf "falsepositives",
    strOf "selection_process", strOf "selection_main", strOf "selection_img",
    strOf "selection_cli", strOf "selection_parent", strOf "selection_hash",
    strOf "selection_registry", strOf "selection_network", strOf "selection_file",
    strOf "selection_service", strOf "selection_user", strOf "selection_command",
    strOf "selection_pipe", strOf "selection_powershell", strOf "selection_encoded",
    strOf "selection_renamed",
    strOf "commandline", strOf "parentimage", strOf "parentcommandline",
    strOf "originalfilename", strOf "targetfilename", strOf "sourcefilename",
    strOf "destinationfilename", strOf "targetobject", strOf "newprocessname",
    strOf "parentprocessname", strOf "processname", strOf "imphash",
    strOf "sha256", strOf "sha1", strOf "md5", strOf "hashes", strOf "signed",
    strOf "signature", strOf "signaturestatus", strOf "product",
    strOf "category", strOf "service", strOf "eventid", strOf "eventtype",
    strOf "channel", strOf "provider_name", strOf "logonid", strOf "logontype",
    strOf "targetusername", strOf "sourceusername", strOf "subjectuserdsid",
    strOf "subjectusername", strOf "subjectlogonid", strOf "destinationport",
    strOf "destinationip", strOf "sourceport", strOf "sourceip",
    strOf "imagepath", strOf "imageloaded", strOf "calltracestring",
    strOf "accessmask", strOf "objecttype", strOf "objectname",
    strOf "queryname", strOf "querystatus", strOf "queryresults" ]

/-- Python `str.endswith`. -/
def endsWithSeq (p l : Str) : Bool := decide (p <:+ l)

/-- `_is_sigma_field_name`. -/
def isSigmaFieldName (token : Str) : Bool :=
  let t := pyStrip (lowerStr token)
  t ∈ sigmaFieldBlocklist
  ∨ startsWith (strOf "filter_") t ∨ startsWith (strOf "filter.") t
  ∨ startsWith (strOf "selection_") t ∨ startsWith (strOf "selection.") t
  ∨ endsWithSeq (strOf "_filter") t ∨ endsWithSeq (strOf "_selection") t
  ∨ (0 < t.length ∧ t.length ≤ 3 ∧ t.all (fun c => c.isAlpha))

/-- `os.path.basename` on the POSIX paths used by the catalog. -/
def pathBasename (p : Str) : Str :=
  ((splitOnSeq (strOf "/") p).getLast?).getD p

/-- The filename-prefix table of `build_github_link`, in source order. -/
def githubPrefixMap : List (Str × Str) :=
  [ (strOf "proc_creation_win_", strOf "rules/windows/process_creation"),
    (strOf "proc_creation_lnx_", strOf "rules/linux/process_creation"),
    (strOf "proc_creation_macos_", strOf "rules/macos/process_creation"),
    (strOf "dns_query_win_", strOf "rules/windows/dns_query"),
    (strOf "dns_query_", strOf "rules/windows/dns_query"),
    (strOf "net_connection_win_", strOf "rules/windows/network_connection"),
    (strOf "net_connection_", strOf "rules/windows/network_connection"),
    (strOf "registry_set_", strOf "rules/windows/registry/registry_set"),
    (strOf "registry_add_", strOf "rules/windows/registry/registry_add"),
    (strOf "registry_event_", strOf "rules/windows/registry/registry_event"),
    (strOf "registry_delete_", strOf "rules/windows/registry/registry_delete"),
    (strOf "file_event_", strOf "rules/windows/file_event"),
    (strOf "file_change_", strOf "rules/windows/file_change"),
    (strOf "file_access_", strOf "rules/windows/file_access"),
    (strOf "file_delete_", strOf "rules/windows/file_delete"),
    (strOf "file_rename_", strOf "rules/windows/file_rename"),
    (strOf "image_load_", strOf "rules/windows/image_load"),
    (strOf "driver_load_", strOf "rules/windows/driver_load"),
    (strOf "ps_classic_", strOf "rules/windows/powershell/powershell_classic"),
    (strOf "ps_module_", strOf "rules/windows/powershell/powershell_module"),
    (strOf "ps_script_", strOf "rules/windows/powershell/powershell_script"),
    (strOf "create_remote_thread_", strOf "rules/windows/create_remote_thread"),
    (strOf "pipe_created_", strOf "rules/windows/pipe_created"),
    (strOf "process_access_", strOf "rules/windows/process_access"),
    (strOf "wmi_event_", strOf "rules/windows/wmi_event"),
    (strOf "sysmon_", strOf "rules/windows/sysmon"),
    (strOf "cloud_", strOf "rules/cloud"),
    (strOf "web_", strOf "rules/web") ]

/-- `build_github_link`.  `baseUrl` models the `SIGMAHQ_BASE_URL`
environment value. -/
def buildGithubLink (baseUrl : Str) (r : CatalogRule) : Str :=
  let filename := pathBasename r.filePath
  let byPrefix :=
    match githubPrefixMap.find? (fun pp => startsWith pp.1 filename) with
    | some pp => baseUrl ++ '/' :: pp.2 ++ '/' :: filename
    | none => baseUrl ++ strOf "/rules/windows/process_creation/" ++ filename
  match r.ruleData.logsource with
  | some q =>
    let category := q.1.getD []
    let product := q.2.getD []
    if category ≠ [] ∧ product ≠ [] then
      baseUrl ++ strOf "/rules/" ++ product ++ '/' :: category ++ '/' :: filename
    else byPrefix
  | none => byPrefix

/-- Lexicographic comparison of strings by code point (Python `<`). -/
def strLt : Str → Str → Bool
  | [], [] => false
  | [], _ :: _ => true
  | _ :: _, [] => false
  | a :: as', b :: bs' =>
    if a.val < b.val then true
    else if b.val < a.val then false
    else strLt as' bs'

/-- Non-strict variant used to sort ascending (Python `sorted`). -/
def strLeB (a b : Str) : Bool := ¬ strLt b a

/-- `round(q, 1)` of the score-breakdown display values. -/
def round1 (q : ℚ) : ℚ := (round (q * 10) : ℚ) / 10

/-- Quality multiplier `{stable: 1.15, test: 1.0, experimental: 0.85}` with
default 1.0. -/
def qualityMult (status : Str) : ℚ :=
  if status = strOf "stable" then 23 / 20
  else if status = strOf "test" then 1
  else if status = strOf "experimental" then 17 / 20
  else 1

/-- Confidence label from the combined score. -/
def confidenceLabel (combined : ℚ) : Str :=
  if 80 ≤ combined then strOf "Direct Hit"
  else if 60 ≤ combined then strOf "Strong Match"
  else if 40 ≤ combined then strOf "Relevant"
  else strOf "Related"

/-- Append an element to a first-occurrence list unless already present
(Python `set.add`, determinised). -/
def dedupAppend (l : List Str) (x : Str) : List Str :=
  if x ∈ l then l else l ++ [x]

/-- One result record of `match_sigma_rules_with_report`. -/
structure MatchResult where
  rid : Str
  title : Str
  descr : Str
  level : Str
  status : Str
  matchRatio : ℚ
  combined : ℚ
  confidence : Str
  mitreMatched : List Str
  lsCat : Str
  lsProd : Str
  matchedKeywords : List Str
  phraseMatches : List Str
  tags : List Str
  githubLink : Str
  sbMitre : ℚ
  sbIoc : ℚ
  sbLogsource : ℚ
  sbKeyword : ℚ

/-- Stage-1 hit set for one rule: the signal techniques present in the rule's
technique set (`technique_matches[idx]`). -/
def techMatched (techniques : List Str) (r : IdxRule) : List Str :=
  techniques.filter (fun t => t ∈ r.techniques)

/-- Stage-2 membership: some implied logsource category occurs as a substring
of one of the rule's two logsource index keys (`category:product` and
`category:*`). -/
def lsRelevant (lsCats : List Str) (r : IdxRule) : Bool :=
  lsCats.any (fun cat =>
    containsSeq cat (r.lsCat ++ ':' :: r.lsProd)
    ∨ containsSeq cat (r.lsCat ++ strOf ":*"))

/-- Stage-4 membership: the rule shares a keyword with the query token set
(`find_candidates`). -/
def kwCandidate (keywords : List Str) (r : IdxRule) : Bool :=
  keywords.any (fun t => t ∈ kwLowerSet r)

/-- The matched-keyword set of the scoring loop: rule keywords present in the
query set (exactly or fuzzily), then matched phrases. -/
def matchedKeywordSet (useFuzzy : Bool) (keywords : List Str)
    (reportText : Str) (r : IdxRule) : List Str × List Str :=
  let fromKws := r.keywords.foldl (fun acc kw =>
    let kl := lowerStr kw
    if kl ∈ keywords then dedupAppend acc kl
    else if useFuzzy ∧ fuzzyMatch kl keywords then dedupAppend acc kl
    else acc) []
  let phraseM := r.phrases.filter (fun ph => containsSeq ph reportText)
  (phraseM.foldl dedupAppend fromKws, phraseM)

/-- The weighted raw score: `mitre*40 + ioc_field*25 + logsource*15 +
keyword*20`. -/
def rawScoreOf (mitre iocField ls kw : ℚ) : ℚ :=
  mitre * 40 + iocField * 25 + ls * 15 + kw * 20

/-- The combined score: the raw score times the status quality multiplier,
capped at 100. -/
def combinedOf (raw : ℚ) (status : Str) : ℚ := min 100 (raw * qualityMult status)

/-- The keyword/TF-IDF subscore of the scoring loop:
`0.5 * match_ratio + 0.5 * min(tfidf, 1)` over the rule's unique term count,
0 when the rule has neither keywords nor phrases. -/
def kwScoreOf (logf : ℚ → ℚ) (idx : SigmaIndexS) (useFuzzy : Bool)
    (keywords : List Str) (reportText : Str) (r : IdxRule) : ℚ :=
  let mk := matchedKeywordSet useFuzzy keywords reportText r
  let totalTerms := (kwLowerSet r).length + r.phrases.length
  if r.keywords ≠ [] ∨ r.phrases ≠ [] then
    if 0 < totalTerms then
      ((mk.1.length : ℚ) / totalTerms) / 2
        + min (computeTfidf logf idx r keywords) 1 / 2
    else 0
  else 0

/-- The per-candidate scoring body of `match_sigma_rules_with_report`,
yielding `none` when the candidate is dropped by the threshold filter or the
three-displayable-keywords filter. -/
def scoreCandidate (logf : ℚ → ℚ) (baseUrl : Str) (idx : SigmaIndexS)
    (useFuzzy : Bool) (threshold : ℚ) (techniques lsCats keywords : List Str)
    (iocValues : List Str) (reportText : Str) (r : IdxRule) :
    Option MatchResult :=
  let tm := techMatched techniques r
  let mitreScore : ℚ := if tm ≠ [] then 1 else 0
  let lsScore : ℚ := if lsRelevant lsCats r then 1 else 0
  let iocPair := computeIocFieldScore r iocValues
  let mk := matchedKeywordSet useFuzzy keywords reportText r
  let kwScore := kwScoreOf logf idx useFuzzy keywords reportText r
  let combined := combinedOf (rawScoreOf mitreScore iocPair.1 lsScore kwScore) r.status
  if combined < threshold then none
  else
    let display := mk.1.filter (fun kw => ¬ isSigmaFieldName kw)
    if display.length < 3 then none
    else
      some
        { rid := (r.rule.ruleData.idOpt).getD (strOf "unknown")
          title := r.rule.ruleData.title
          descr := (r.rule.ruleData.descrOpt).getD []
          level := r.level
          status := r.status
          matchRatio := round2 combined
          combined := round2 combined
          confidence := confidenceLabel combined
          mitreMatched := sortByB strLeB tm
          lsCat := r.lsCat
          lsProd := r.lsProd
          matchedKeywords := sortByB strLeB display
          phraseMatches := mk.2
          tags := r.rule.ruleData.tags
          githubLink := buildGithubLink baseUrl r.rule
          sbMitre := round1 (mitreScore * 40)
          sbIoc := round1 (iocPair.1 * 25)
          sbLogsource := round1 (lsScore * 15)
          sbKeyword := round1 (kwScore * 20) }

/-- Deduplication by rule id, keeping the first (highest-scoring) record. -/
def dedupById (seen : List Str) : List MatchResult → List MatchResult
  | [] => []
  | r :: rest =>
    if r.rid ∈ seen then dedupById seen rest
    else r :: dedupById (seen ++ [r.rid]) rest

/-- `match_sigma_rules_with_report`: signal extraction, the raw-text keyword
fallback, candidate union over the three index signals, per-candidate scoring
and filtering, sort by combined score descending, dedupe by id, top
`maxResults`. -/
def matchSigmaRules (sw : Str → Bool) (logf : ℚ → ℚ) (baseUrl : Str)
    (catalog : List CatalogRule) (a : AnalysisData) (reportText : Str)
    (mitreTechniques : List MitreIn) (threshold : ℚ) (maxResults : ℕ)
    (useFuzzy : Bool) : List MatchResult :=
  let signals := gatherReportSignals sw a mitreTechniques
  let keywords :=
    if signals.keywords = [] ∧ reportText ≠ [] then
      let raw := (tokenizeLower sw reportText).filter (fun t => 4 ≤ t.length)
      if 500 < raw.length then raw.take 500 else raw
    else signals.keywords
  if keywords = [] ∧ signals.techniques = [] ∧ signals.iocValues = [] then []
  else
    let idx := buildIndex sw catalog
    let candidates := idx.irules.filter (fun r =>
      techMatched signals.techniques r ≠ []
      ∨ lsRelevant signals.lsCats r
      ∨ kwCandidate keywords r)
    let results := candidates.filterMap
      (scoreCandidate logf baseUrl idx useFuzzy threshold signals.techniques
        signals.lsCats keywords signals.iocValues reportText)
    let sorted := sortByB (fun x y => decide (y.combined ≤ x.combined)) results
    (dedupById [] sorted).take maxResults

------------------------------------------------------------------------------
-- § Orchestrator — `modules/pipeline/orchestrator.py`
------------------------------------------------------------------------------

/-- The separator used by the synchronous pipeline's AI-Sigma post-processing:
the Python literal `"\\n"`, i.e. the two characters backslash and `n`. -/
def syncNl : Str := strOf "\\n"

/-- The separator used by the streaming pipeline: a real newline. -/
def streamNl : Str := strOf "\n"

/-- The skip markers filtered out of AI-generated Sigma text. -/
def sigmaSkipMarkers : List Str :=
  [ List.replicate 7 (Char.ofNat 0x2013),
    strOf "These rules can be further tuned",
    strOf "Below are two Sigma rules",
    strOf "This rule detects",
    strOf "This query searches" ]

/-- The line loop shared (up to the separator) by both pipelines: start a new
rule at each `title:` line, drop marker lines, and keep other lines once a
rule has started or the line is non-blank. -/
def sigmaLinesLoop (sep : Str) : List Str → List Str → List Str → List Str
  | [], current, rules =>
    rules ++ (if current ≠ [] then [joinSep sep current] else [])
  | line :: rest, current, rules =>
    if startsWith (strOf "title:") (pyStrip line) then
      sigmaLinesLoop sep rest [line]
        (rules ++ (if current ≠ [] then [joinSep sep current] else []))
    else if sigmaSkipMarkers.any (fun m => containsSeq m line) then
      sigmaLinesLoop sep rest current rules
    else if current ≠ [] ∨ pyStrip line ≠ [] then
      sigmaLinesLoop sep rest (current ++ [line]) rules
    else sigmaLinesLoop sep rest current rules

/-- The AI-Sigma post-processing: split on `sep`, run the line loop, join the
collected rules with a blank separator line.  The synchronous pipeline passes
the two-character `syncNl`, the streaming pipeline a real newline. -/
def processAiSigma (sep : Str) (raw : Str) : Str :=
  joinSep (sep ++ sep) (sigmaLinesLoop sep (splitOnSeq sep raw) [] [])

/-- `more_sigma_rules` after stage S1: empty on task failure, on an empty
result, or on a result starting with `Error`; otherwise the post-processed
text. -/
def moreSigmaOf (sep : Str) (outcome : Option Str) : Str :=
  match outcome with
  | none => []
  | some raw =>
    if raw ≠ [] ∧ ¬ startsWith (strOf "Error") raw then processAiSigma sep raw
    else []

/-- `all_sigma_yaml`: the structural YAML joined with the AI YAML (the
`joiner` is `"\\n---\\n"` in the synchronous pipeline, `"\n---\n"` in the
streaming one). -/
def allSigmaJoin (joiner : Str) (iocYaml more : Str) : Str :=
  if more ≠ [] then
    if iocYaml ≠ [] then iocYaml ++ joiner ++ more else more
  else iocYaml

/-- The four SIEM platforms, in merge order. -/
def siemPlatforms : List Str :=
  [strOf "splunk", strOf "qradar", strOf "elastic", strOf "sentinel"]

/-- Read a string-valued dict entry with default `""`; `none` models the
`TypeError` raised when the entry holds a non-string and is then
concatenated. -/
def getStrEntry (d : JDict) (k : Str) : Option Str :=
  match dictFind d k with
  | some (.jstr s) => some s
  | some _ => none
  | none => some []

/-- One platform step of the AI-refinement merge loop. -/
def mergeSiemStep (marker : Str) (notesVal : Option Str) (ai : JDict)
    (acc : Option JDict) (p : Str) : Option JDict :=
  match acc with
  | none => none
  | some cur =>
    if dictHas ai p ∧ dictHas cur p then
      match dictFind cur p, dictFind ai p with
      | some (.jobj se), some (.jobj ae) =>
        match getStrEntry se (strOf "query"), getStrEntry ae (strOf "query") with
        | some existing, some aiq =>
          if aiq ≠ [] ∧ aiq ≠ strOf "N/A" then
            let se1 := dictSet se (strOf "query")
              (.jstr (existing ++ marker ++ aiq))
            let se2 :=
              match notesVal with
              | some nv => dictSet se1 (strOf "notes") (.jstr nv)
              | none => se1
            some (dictSet cur p (.jobj se2))
          else some cur
        | _, _ => none
      | _, _ => none
    else some cur

/-- The per-platform AI-refinement merge.  `marker` is the text inserted
between the existing query and the AI query; `notesVal` is the `notes`
overwrite the streaming pipeline additionally performs (the synchronous
pipeline passes `none`). -/
def mergeSiemWith (marker : Str) (notesVal : Option Str) (siem ai : JDict) :
    Option JDict :=
  siemPlatforms.foldl (mergeSiemStep marker notesVal ai) (some siem)

/-- `sanitize_for_json` on strings: drop the null byte and the control
characters `[\x01-\x08\x0b\x0c\x0e-\x1f\x7f]`. -/
def sanitizeStr (s : Str) : Str :=
  s.filter (fun c =>
    ¬(c.toNat ≤ 8 ∨ c.toNat = 11 ∨ c.toNat = 12
      ∨ (14 ≤ c.toNat ∧ c.toNat ≤ 31) ∨ c.toNat = 127))

mutual
/-- `sanitize_for_json` over the JSON fragment (dict shape and key order are
preserved; keys are themselves sanitized as strings). -/
def sanitizeVal : JVal → JVal
  | .jstr s => .jstr (sanitizeStr s)
  | .jarr es => .jarr (sanitizeList es)
  | .jobj fs => .jobj (sanitizeFields fs)

/-- List case of `sanitize_for_json`. -/
def sanitizeList : List JVal → List JVal
  | [] => []
  | v :: vs => sanitizeVal v :: sanitizeList vs

/-- Dict case of `sanitize_for_json`. -/
def sanitizeFields : List (Str × JVal) → List (Str × JVal)
  | [] => []
  | kv :: fs => (sanitizeStr kv.1, sanitizeVal kv.2) :: sanitizeFields fs
end

/-- `analysis_data` as computed in the synchronous pipeline's IoC try-block:
the error dict when the stage task raised or timed out, else the validated
parse of the returned JSON string with `safe_json_parse` as fallback. -/
def analysisDataOf (iocR : Option Str) : JVal :=
  match iocR with
  | none => .jobj [(strOf "error", .jstr (strOf "Error in IOC/TTP analysis"))]
  | some s =>
    match validateJson s with
    | (true, some (.jobj fs)) => .jobj fs
    | _ => (loads s).getD (.jobj [])

/-- `x.get(k, default)`; `none` models the `AttributeError` raised when `x`
is not a dict. -/
def pyGetD (v : JVal) (k : Str) (d : JVal) : Option JVal :=
  match v with
  | .jobj fs => some ((dictFind fs k).getD d)
  | _ => none

/-- Outcomes of the pipeline's stage tasks, one field per `try` block of
`run_analysis_pipeline_sync`: `none` models an exception or timeout of that
task, `some v` its returned value.  Values of stages whose internals are
settled by their own claims are carried opaquely. -/
structure PipeEnv where
  summaryR : Option Str
  iocR : Option Str
  aiSigmaR : Option Str
  yaraR : Option JVal
  mitreR : Option (JVal × JVal × JVal)
  iocSigmaR : Option (JVal × Str)
  siemR : Option JDict
  siemAiR : Option JVal
  atomicR : Option JVal
  matchDirExists : Bool
  matchR : Option JVal

/-- `run_analysis_pipeline_sync`'s aggregation: the final response dict (the
persistence write does not alter it).  `none` models an uncaught exception
escaping the function. -/
def buildResponseSync (env : PipeEnv) : Option JDict :=
  let threatSummary := env.summaryR.getD (strOf "Error generating threat summary")
  let ad := analysisDataOf env.iocR
  let more := moreSigmaOf syncNl env.aiSigmaR
  let yara := env.yaraR.getD (.jarr [])
  let mitre := env.mitreR.getD (.jarr [], .jarr [], .jobj [])
  let iocSigma := env.iocSigmaR.getD (.jarr [], [])
  let allSigma := allSigmaJoin (strOf "\\n---\\n") iocSigma.2 more
  let siemBase := env.siemR.getD []
  match pyGetD ad (strOf "indicators_of_compromise") (.jobj []),
      pyGetD ad (strOf "ttps") (.jarr []),
      pyGetD ad (strOf "threat_actors") (.jarr []),
      pyGetD ad (strOf "tools_or_malware") (.jarr []),
      (if more ≠ [] then
        match env.siemAiR with
        | some (.jobj ai) =>
          mergeSiemWith (strOf "\\n\\n/* AI-Refined */\\n") none siemBase ai
        | some _ => some siemBase
        | none => some siemBase
      else some siemBase) with
  | some adIoc, some adTtps, some adActors, some adTools, some siem =>
    let atomic :=
      if allSigma = [] ∨ (pyStrip allSigma).length < 20 then JVal.jarr []
      else env.atomicR.getD (.jarr [])
    let smatches :=
      if env.matchDirExists then env.matchR.getD (.jarr []) else JVal.jarr []
    some (sanitizeFields
      [ (strOf "threat_summary", .jstr threatSummary),
        (strOf "analysis_data", .jobj
          [ (strOf "indicators_of_compromise", adIoc),
            (strOf "ttps", adTtps),
            (strOf "threat_actors", adActors),
            (strOf "tools_or_malware", adTools) ]),
        (strOf "mitre_mapping", .jobj
          [ (strOf "techniques", mitre.1),
            (strOf "tactic_summary", mitre.2.2),
            (strOf "tags", mitre.2.1) ]),
        (strOf "yara_rules", yara),
        (strOf "ioc_sigma_rules", iocSigma.1),
        (strOf "generated_sigma_rules", .jstr allSigma),
        (strOf "siem_queries", .jobj siem),
        (strOf "atomic_tests", atomic),
        (strOf "sigma_matches", smatches) ])
  | _, _, _, _, _ => none

------------------------------------------------------------------------------
-- § Observers and well-typedness predicates used by the theorems
------------------------------------------------------------------------------

/-- The key list of a dict. -/
def dictKeys (d : JDict) : List Str := d.map (fun kv => kv.1)

/-- The IoC category keys of a validated IoC response. -/
def resultIocKeys (r : Option (Bool × JDict × ℕ)) : List Str :=
  match r with
  | some (_, d, _) =>
    match dictFind d (strOf "indicators_of_compromise") with
    | some (.jobj fs) => dictKeys fs
    | _ => []
  | none => []

/-- A SIEM platform entry whose `query` field (if any) is a string, so the
AI-refinement merge can concatenate onto it. -/
def wellTypedSiemEntry (v : JVal) : Bool :=
  match v with
  | .jobj d =>
    match dictFind d (strOf "query") with
    | some (.jstr _) => true
    | some _ => false
    | none => true
  | _ => false

/-- A platform's entry in a dict is absent or well-typed. -/
def platformOk (d : JDict) (p : Str) : Bool :=
  match dictFind d p with
  | some v => wellTypedSiemEntry v
  | none => true

/-- Every platform entry present in the dict is well-typed. -/
def wellTypedSiem (d : JDict) : Bool :=
  siemPlatforms.all (platformOk d)

/-- The side condition under which the synchronous aggregation provably
cannot raise: the IoC stage yields a dict (which `extract_iocs_ttps_gpt`
guarantees by always returning a dict-shaped JSON string or `"{}"`), and the
SIEM dicts reaching the AI-refinement merge are well-typed. -/
def envOk (env : PipeEnv) : Bool :=
  (match analysisDataOf env.iocR with | .jobj _ => true | _ => false)
  && wellTypedSiem (env.siemR.getD [])
  && (match env.siemAiR with
      | some (.jobj ai) => wellTypedSiem ai
      | _ => true)

------------------------------------------------------------------------------
------------------------------------------------------------------------------
-- THEOREMS
------------------------------------------------------------------------------
------------------------------------------------------------------------------

-- Generic helper lemmas ------------------------------------------------------

/-- An element of the joined pieces is an infix of the join. -/
theorem infix_joinSep {sep x : Str} : ∀ {ps : List Str}, x ∈ ps → x <:+: joinSep sep ps := by
  intro ps
  induction ps with
  | nil => intro h; cases h
  | cons p rest ih =>
    intro h
    cases rest with
    | nil =>
      simp only [List.mem_singleton] at h
      subst h
      exact List.infix_refl x
    | cons q qs =>
      rcases List.mem_cons.mp h with h1 | h2
      · subst h1
        have hj : joinSep sep (x :: q :: qs) = x ++ (sep ++ joinSep sep (q :: qs)) := by
          simp [joinSep, List.append_assoc]
        rw [hj]
        exact (List.prefix_append x _).isInfix
      · have := ih h2
        calc x <:+: joinSep sep (q :: qs) := this
          _ <:+: p ++ sep ++ joinSep sep (q :: qs) :=
            (List.suffix_append (p ++ sep) (joinSep sep (q :: qs))).isInfix
          _ = joinSep sep (p :: q :: qs) := by simp [joinSep, List.append_assoc]

/-- Infixes extend through a left append. -/
theorem infix_of_append_left {p b : Str} (a : Str) (h : p <:+: b) : p <:+: a ++ b :=
  h.trans (List.suffix_append a b).isInfix

/-- Infixes extend through a right append. -/
theorem infix_of_append_right {p a : Str} (b : Str) (h : p <:+: a) : p <:+: a ++ b :=
  h.trans (List.prefix_append a b).isInfix

/-- `containsSeq` from an `IsInfix` proof. -/
theorem containsSeq_of_substr {p l : Str} (h : p <:+: l) : containsSeq p l = true := by
  simp [containsSeq, h]

-- C8 --------------------------------------------------------------------------

/-- Claim C8 (counterexample): the claim says an explicitly supplied provider
id always wins, but `_resolve_provider` lets the API-key prefix override it —
a call with provider id `google` and an `sk-ant-` key resolves to
`anthropic`. -/
theorem claim_c8_counterexample :
    (resolveProvider none (strOf "sk-ant-demo") (strOf "google")).name = strOf "anthropic"
    ∧ (resolveProvider none (strOf "sk-ant-demo") (strOf "google")).name ≠ strOf "google" := by
  exact ⟨rfl, by decide⟩

/-- Claim C8 (amended): an explicitly supplied provider instance always wins;
otherwise, whenever an API key is supplied, the key prefix alone selects the
provider (`sk-ant-*` → anthropic, `AIza*` → google, anything else → openai),
regardless of the supplied provider id; the provider id is used only when the
key is empty. -/
theorem claim_c8_amended (inst : Option ProviderInstance) (key name : Str) :
    (∀ p, inst = some p → resolveProvider inst key name = p)
    ∧ (inst = none → key = [] → (resolveProvider inst key name).name = name)
    ∧ (inst = none → key ≠ [] → startsWith (strOf "sk-ant-") key = true →
        (resolveProvider inst key name).name = strOf "anthropic")
    ∧ (inst = none → key ≠ [] → startsWith (strOf "sk-ant-") key = false →
        startsWith (strOf "AIza") key = true →
        (resolveProvider inst key name).name = strOf "google")
    ∧ (inst = none → key ≠ [] → startsWith (strOf "sk-ant-") key = false →
        startsWith (strOf "AIza") key = false →
        (resolveProvider inst key name).name = strOf "openai") := by
  refine ⟨?_, ?_, ?_, ?_, ?_⟩
  · intro p hp; subst hp; rfl
  · intro h hk; subst h; simp [resolveProvider, resolveProviderName, hk]
  · intro h hk hs; subst h; simp [resolveProvider, resolveProviderName, hk, hs]
  · intro h hk hs hg; subst h; simp [resolveProvider, resolveProviderName, hk, hs, hg]
  · intro h hk hs hg; subst h; simp [resolveProvider, resolveProviderName, hk, hs, hg]

/-- Witness for the amended C8 theorem at a concrete key and provider id. -/
theorem claim_c8_amended_witness :
    (resolveProvider none (strOf "AIzaDemo") (strOf "anthropic")).name = strOf "google" :=
  (claim_c8_amended none (strOf "AIzaDemo") (strOf "anthropic")).2.2.2.1 rfl
    (by decide) (by decide) (by decide)

-- C9 --------------------------------------------------------------------------

/-- Any non-empty registered category's rule text is an infix of the
generated YARA output. -/
theorem yara_rule_infix (currentDate : Str) (a : AnalysisData) {km : Str × Str}
    (hmem : km ∈ yaraIocMap) (hne : iocGet a km.1 ≠ []) :
    yaraCategoryRule currentDate km.1 km.2 (iocGet a km.1)
      <:+: generateYaraRules currentDate a := by
  unfold generateYaraRules
  apply infix_joinSep
  apply List.mem_append_left
  apply List.mem_filterMap.mpr
  refine ⟨km, hmem, ?_⟩
  simp [hne]

/-- The rule header is a prefix of the category rule text. -/
theorem yara_header_substr (currentDate category modifier : Str) (iocs : List Str) :
    yaraRuleHeader category <:+: yaraCategoryRule currentDate category modifier iocs := by
  apply List.IsPrefix.isInfix
  refine ⟨strOf "\n\x7b\n    meta:\n        description = \"Detects suspicious "
    ++ category
    ++ strOf " IoCs\"\n        author = \"Aytek AYTEMUR\"\n        date = \""
    ++ currentDate
    ++ strOf "\"\n        reference = \"Generated from AI-based IoC Analysis\"\n\n    strings:\n        "
    ++ joinSep (strOf "\n") (iocs.enum.map (fun p => yaraStringLine category p.1 p.2 modifier))
    ++ strOf "\n\n    " ++ yaraCondition ++ strOf "\n\x7d", ?_⟩
  simp [yaraCategoryRule, List.append_assoc]

/-- The `any of them` condition is an infix of the category rule text. -/
theorem yara_condition_substr (currentDate category modifier : Str) (iocs : List Str) :
    yaraCondition <:+: yaraCategoryRule currentDate category modifier iocs := by
  refine ⟨yaraRuleHeader category
    ++ strOf "\n\x7b\n    meta:\n        description = \"Detects suspicious "
    ++ category
    ++ strOf " IoCs\"\n        author = \"Aytek AYTEMUR\"\n        date = \""
    ++ currentDate
    ++ strOf "\"\n        reference = \"Generated from AI-based IoC Analysis\"\n\n    strings:\n        "
    ++ joinSep (strOf "\n") (iocs.enum.map (fun p => yaraStringLine category p.1 p.2 modifier))
    ++ strOf "\n\n    ", strOf "\n\x7d", ?_⟩
  simp [yaraCategoryRule, List.append_assoc]

/-- Each `$<category>_<i> = "…" <modifier>` string line is an infix of the
category rule text. -/
theorem yara_line_substr (currentDate category modifier : Str) (iocs : List Str)
    {p : ℕ × Str} (hp : p ∈ iocs.enum) :
    yaraStringLine category p.1 p.2 modifier
      <:+: yaraCategoryRule currentDate category modifier iocs := by
  have hline : yaraStringLine category p.1 p.2 modifier
      <:+: joinSep (strOf "\n")
        (iocs.enum.map (fun q => yaraStringLine category q.1 q.2 modifier)) := by
    apply infix_joinSep
    exact List.mem_map.mpr ⟨p, hp, rfl⟩
  apply hline.trans
  refine ⟨yaraRuleHeader category
    ++ strOf "\n\x7b\n    meta:\n        description = \"Detects suspicious "
    ++ category
    ++ strOf " IoCs\"\n        author = \"Aytek AYTEMUR\"\n        date = \""
    ++ currentDate
    ++ strOf "\"\n        reference = \"Generated from AI-based IoC Analysis\"\n\n    strings:\n        ",
    strOf "\n\n    " ++ yaraCondition ++ strOf "\n\x7d", ?_⟩
  simp [yaraCategoryRule, List.append_assoc]

set_option maxRecDepth 8000 in
/-- Claim C9 (counterexample): the claim names the hash rule
`Suspicious_File_Hashes_Match`, but `str.capitalize` lower-cases everything
after the first character: the generated rule is
`Suspicious_File_hashes_Match`. -/
theorem claim_c9_counterexample :
    containsSeq (strOf "rule Suspicious_File_hashes_Match")
      (generateYaraRules (strOf "2026-01-01")
        ⟨[(strOf "domains", [strOf "evil.com"]),
          (strOf "file_hashes", [strOf "abc123"])], [], [], []⟩) = true
    ∧ containsSeq (strOf "Suspicious_File_Hashes_Match")
      (generateYaraRules (strOf "2026-01-01")
        ⟨[(strOf "domains", [strOf "evil.com"]),
          (strOf "file_hashes", [strOf "abc123"])], [], [], []⟩) = false
    ∧ containsSeq (strOf "rule Suspicious_Domains_Match")
      (generateYaraRules (strOf "2026-01-01")
        ⟨[(strOf "domains", [strOf "evil.com"]),
          (strOf "file_hashes", [strOf "abc123"])], [], [], []⟩) = true := by
  refine ⟨by decide, by decide, by decide⟩

/-- Claim C9 (amended): for every analysis whose IoC bundle has non-empty
domains and file hashes, the YARA text contains one rule per non-empty
registered category named `Suspicious_<Category>_Match` where `<Category>` is
the Python-capitalized category (first letter upper-cased, the rest
lower-cased — in particular `Suspicious_Domains_Match` and
`Suspicious_File_hashes_Match`), each declaring `$<category>_<i>` string
variables with double quotes escaped and the condition `any of them`. -/
theorem claim_c9_amended (currentDate : Str) (a : AnalysisData)
    (hdom : iocGet a (strOf "domains") ≠ [])
    (hhash : iocGet a (strOf "file_hashes") ≠ []) :
    containsSeq (strOf "rule Suspicious_Domains_Match")
      (generateYaraRules currentDate a) = true
    ∧ containsSeq (strOf "rule Suspicious_File_hashes_Match")
      (generateYaraRules currentDate a) = true
    ∧ (∀ km ∈ yaraIocMap, iocGet a km.1 ≠ [] →
        containsSeq (strOf "rule Suspicious_" ++ pyCapitalize km.1 ++ strOf "_Match")
          (generateYaraRules currentDate a) = true
        ∧ containsSeq (strOf "condition:\n        any of them")
          (generateYaraRules currentDate a) = true
        ∧ ∀ p ∈ (iocGet a km.1).enum,
            containsSeq (yaraStringLine km.1 p.1 p.2 km.2)
              (generateYaraRules currentDate a) = true) := by
  have main : ∀ km ∈ yaraIocMap, iocGet a km.1 ≠ [] →
      containsSeq (strOf "rule Suspicious_" ++ pyCapitalize km.1 ++ strOf "_Match")
        (generateYaraRules currentDate a) = true
      ∧ containsSeq (strOf "condition:\n        any of them")
        (generateYaraRules currentDate a) = true
      ∧ ∀ p ∈ (iocGet a km.1).enum,
          containsSeq (yaraStringLine km.1 p.1 p.2 km.2)
            (generateYaraRules currentDate a) = true := by
    intro km hmem hne
    have hrule := yara_rule_infix currentDate a hmem hne
    refine ⟨containsSeq_of_substr ((yara_header_substr currentDate km.1 km.2 _).trans hrule),
      containsSeq_of_substr ((yara_condition_substr currentDate km.1 km.2 _).trans hrule),
      fun p hp => containsSeq_of_substr
        ((yara_line_substr currentDate km.1 km.2 _ hp).trans hrule)⟩
  have hd := main (strOf "domains", strOf "nocase") (by decide) hdom
  have hh := main (strOf "file_hashes", strOf "ascii fullword") (by decide) hhash
  exact ⟨hd.1, hh.1, main⟩

/-- Witness for the amended C9 theorem at a concrete bundle. -/
theorem claim_c9_amended_witness :
    containsSeq (strOf "rule Suspicious_Domains_Match")
      (generateYaraRules (strOf "2026-01-01")
        ⟨[(strOf "domains", [strOf "evil.com"]),
          (strOf "file_hashes", [strOf "abc123"])], [], [], []⟩) = true
    ∧ containsSeq (strOf "rule Suspicious_File_hashes_Match")
      (generateYaraRules (strOf "2026-01-01")
        ⟨[(strOf "domains", [strOf "evil.com"]),
          (strOf "file_hashes", [strOf "abc123"])], [], [], []⟩) = true :=
  ⟨(claim_c9_amended (strOf "2026-01-01") _ (by decide) (by decide)).1,
    (claim_c9_amended (strOf "2026-01-01")
      ⟨[(strOf "domains", [strOf "evil.com"]),
        (strOf "file_hashes", [strOf "abc123"])], [], [], []⟩
      (by decide) (by decide)).2.1⟩

-- C10 -------------------------------------------------------------------------

/-- Claim C10 (code bug): for identical stage outcomes, the synchronous
pipeline's `generated_sigma_rules` differs from the streaming pipeline's: the
synchronous path splits and joins the AI Sigma text on the two-character
literal `\n` (`syncNl`) where the streaming path uses real newlines, so the
joint YAML differs (and marker lines inside the AI text survive the
synchronous filter while the streaming filter drops them). -/
theorem claim_c10_sync_stream_divergence :
    moreSigmaOf syncNl (some (strOf "title: A\ndetection: x"))
      = strOf "title: A\ndetection: x"
    ∧ moreSigmaOf streamNl (some (strOf "title: A\ndetection: x"))
      = strOf "title: A\ndetection: x"
    ∧ allSigmaJoin (strOf "\\n---\\n") (strOf "title: B")
        (moreSigmaOf syncNl (some (strOf "title: A\ndetection: x")))
      ≠ allSigmaJoin (strOf "\n---\n") (strOf "title: B")
        (moreSigmaOf streamNl (some (strOf "title: A\ndetection: x")))
    ∧ moreSigmaOf syncNl
        (some (strOf "title: A\nThis rule detects persistence\ndetection: x"))
      ≠ moreSigmaOf streamNl
        (some (strOf "title: A\nThis rule detects persistence\ndetection: x")) := by
  refine ⟨by decide, by decide, by decide, by decide⟩

-- C6 --------------------------------------------------------------------------

/-- Dividing a list sum by two equals summing the halves. -/
theorem list_sum_div_two (l : List ℕ) (f : ℕ → ℚ) :
    ((l.map f).sum) / 2 = (l.map (fun x => f x / 2)).sum := by
  induction l with
  | nil => simp
  | cons x xs ih => simp [add_div, ih]

/-- Full characterization of the retry loop when every invocation fails with
a retryable error: `remaining + 1` invocations, one backoff sleep per retry,
and the final classified error re-raised. -/
theorem retryLoop_allFail {α : Type} (calls : ℕ → Except CErr α) (jit : ℕ → ℚ)
    (base maxd : ℚ) (e : ℕ → CErr)
    (herr : ∀ i, calls i = .error (e i)) (hretry : ∀ i, (e i).retryable = true) :
    ∀ remaining attempt,
      (retryLoop calls jit base maxd attempt remaining).invocations = remaining + 1
      ∧ (retryLoop calls jit base maxd attempt remaining).sleeps
          = (List.range remaining).map
              (fun j => backoffDelay base maxd (attempt + j) (e (attempt + j))
                (jit (attempt + j)))
      ∧ (retryLoop calls jit base maxd attempt remaining).result
          = .error (e (attempt + remaining)) := by
  intro remaining
  induction remaining with
  | zero =>
    intro attempt
    simp [retryLoop, herr attempt]
  | succ r ih =>
    intro attempt
    have hstep : retryLoop calls jit base maxd attempt (r + 1)
        = ⟨(retryLoop calls jit base maxd (attempt + 1) r).result,
           (retryLoop calls jit base maxd (attempt + 1) r).invocations + 1,
           backoffDelay base maxd attempt (e attempt) (jit attempt)
             :: (retryLoop calls jit base maxd (attempt + 1) r).sleeps⟩ := by
      simp [retryLoop, herr attempt, hretry attempt]
    have hr := ih (attempt + 1)
    rw [hstep]
    refine ⟨by simp [hr.1], ?_, by simp [hr.2.2]; ring_nf⟩
    simp only [hr.2.1, List.range_succ_eq_map, List.map_cons, List.map_map]
    apply List.cons_eq_cons.mpr
    refine ⟨by simp, ?_⟩
    simp only [List.map_inj_left, Function.comp, Nat.succ_eq_add_one]
    intro a _
    have hj : attempt + 1 + a = attempt + (a + 1) := by omega
    rw [hj]

/-- Claim C6: with maximum `maxRetries` retries, a function that always
raises a retryable (transient) error is invoked exactly `maxRetries + 1`
times; before each retry the wrapper sleeps exactly `retry_after` for a
rate-limit error with positive `retry_after` and otherwise
`min(base*2^attempt, max_delay) * (0.5 + random())`; for transient
(non-rate-limited) failures with in-cap backoff the total sleep time is at
least `sum(base*2^i for i in 0..maxRetries-1) * 0.5`; a non-retryable error
propagates after exactly one invocation. -/
theorem claim_c6_retry_policy {α : Type} (maxRetries : ℕ) (base maxd : ℚ)
    (calls : ℕ → Except CErr α) (jit : ℕ → ℚ) (e : ℕ → CErr)
    (herr : ∀ i, calls i = .error (e i))
    (hretry : ∀ i, (e i).retryable = true) :
    (withRetry maxRetries base maxd calls jit).invocations = maxRetries + 1
    ∧ (withRetry maxRetries base maxd calls jit).sleeps
        = (List.range maxRetries).map (fun i => backoffDelay base maxd i (e i) (jit i))
    ∧ (∀ i c j, backoffDelay base maxd i c j
        = if c.isRate ∧ 0 < c.retryAfter then c.retryAfter
          else min (base * 2 ^ i) maxd * (1 / 2 + j))
    ∧ ((∀ i, ¬((e i).isRate = true ∧ 0 < (e i).retryAfter)) →
        (∀ i, 0 ≤ jit i) → 0 ≤ base →
        (∀ i, i < maxRetries → base * 2 ^ i ≤ maxd) →
        ((List.range maxRetries).map (fun i => base * 2 ^ i)).sum / 2
          ≤ (withRetry maxRetries base maxd calls jit).sleeps.sum)
    ∧ (∀ (calls2 : ℕ → Except CErr α) (c : CErr), calls2 0 = .error c →
        c.retryable = false →
        (withRetry maxRetries base maxd calls2 jit).invocations = 1
        ∧ (withRetry maxRetries base maxd calls2 jit).result = .error c) := by
  have hmain := retryLoop_allFail calls jit base maxd e herr hretry maxRetries 0
  refine ⟨hmain.1, ?_, fun i c j => rfl, ?_, ?_⟩
  · rw [withRetry, hmain.2.1]
    apply List.map_congr_left
    intro j _
    simp
  · intro hnr hjit hbase hcap
    rw [withRetry, hmain.2.1]
    rw [list_sum_div_two]
    apply List.sum_le_sum
    intro i hi
    have hiR : i < maxRetries := List.mem_range.mp hi
    have hne : ¬((e (0 + i)).isRate = true ∧ 0 < (e (0 + i)).retryAfter) := hnr (0 + i)
    rw [backoffDelay, if_neg (by simpa using hne)]
    have hmin : min (base * 2 ^ (0 + i)) maxd = base * 2 ^ i := by
      rw [Nat.zero_add]
      exact min_eq_left (hcap i hiR)
    rw [hmin]
    have hpow : (0 : ℚ) ≤ base * 2 ^ i := by positivity
    calc base * 2 ^ i / 2 = base * 2 ^ i * (1 / 2) := by ring
      _ ≤ base * 2 ^ i * (1 / 2 + jit (0 + i)) := by
          apply mul_le_mul_of_nonneg_left _ hpow
          have := hjit (0 + i)
          linarith
  · intro calls2 c hc hnr
    cases maxRetries with
    | zero => constructor <;> simp [withRetry, retryLoop, hc]
    | succ r => constructor <;> simp [withRetry, retryLoop, hc, hnr]

/-- Witness for C6 at the source defaults (`max_retries = 3`,
`base_delay = 1`, `max_delay = 60`) with a constantly transient error. -/
theorem claim_c6_retry_policy_witness :
    (withRetry 3 1 60 (fun _ => (Except.error ⟨true, false, 0⟩ : Except CErr Unit))
      (fun _ => 1 / 3)).invocations = 3 + 1
    ∧ ((List.range 3).map (fun i => (1 : ℚ) * 2 ^ i)).sum / 2
        ≤ (withRetry 3 1 60
            (fun _ => (Except.error ⟨true, false, 0⟩ : Except CErr Unit))
            (fun _ => 1 / 3)).sleeps.sum := by
  have h := claim_c6_retry_policy (α := Unit) 3 1 60
    (fun _ => .error ⟨true, false, 0⟩) (fun _ => 1 / 3) (fun _ => ⟨true, false, 0⟩)
    (fun _ => rfl) (fun _ => rfl)
  refine ⟨h.1, h.2.2.2.1 ?_ ?_ (by norm_num) ?_⟩
  · intro i
    simp
  · intro i
    norm_num
  · intro i hi
    interval_cases i <;> norm_num

-- Sorting and dedup lemmas ----------------------------------------------------

/-- Membership in a stable insertion. -/
theorem mem_insertSorted {α : Type} (le : α → α → Bool) (x z : α) :
    ∀ l : List α, z ∈ insertSorted le x l ↔ z = x ∨ z ∈ l := by
  intro l
  induction l with
  | nil => simp [insertSorted]
  | cons y ys ih =>
    by_cases h : le x y
    · simp only [insertSorted, h, if_true]
      simp [List.mem_cons]
    · simp only [insertSorted, h, if_false, Bool.false_eq_true, List.mem_cons, ih]
      tauto

/-- A stable insertion is a permutation of consing. -/
theorem insertSorted_perm {α : Type} (le : α → α → Bool) (x : α) :
    ∀ l : List α, (insertSorted le x l).Perm (x :: l) := by
  intro l
  induction l with
  | nil => simp [insertSorted]
  | cons y ys ih =>
    by_cases h : le x y
    · simp [insertSorted, h]
    · simp only [insertSorted, h, if_false, Bool.false_eq_true]
      exact (List.Perm.cons y ih).trans (List.Perm.swap x y ys)

/-- The insertion sort permutes its input. -/
theorem sortByB_perm {α : Type} (le : α → α → Bool) :
    ∀ l : List α, (sortByB le l).Perm l := by
  intro l
  induction l with
  | nil => simp [sortByB]
  | cons x xs ih =>
    exact (insertSorted_perm le x (sortByB le xs)).trans (List.Perm.cons x ih)

/-- Membership is preserved by the sort. -/
theorem mem_sortByB {α : Type} (le : α → α → Bool) (z : α) (l : List α) :
    z ∈ sortByB le l ↔ z ∈ l :=
  (sortByB_perm le l).mem_iff

/-- Inserting into a sorted list keeps it sorted, given a total transitive
comparison. -/
theorem insertSorted_pairwise {α : Type} (le : α → α → Bool)
    (htot : ∀ a b, le a b = true ∨ le b a = true)
    (htrans : ∀ a b c, le a b = true → le b c = true → le a c = true)
    (x : α) : ∀ l : List α, l.Pairwise (fun a b => le a b = true) →
      (insertSorted le x l).Pairwise (fun a b => le a b = true) := by
  intro l
  induction l with
  | nil => intro _; simp [insertSorted]
  | cons y ys ih =>
    intro hp
    rcases List.pairwise_cons.mp hp with ⟨hy, hys⟩
    by_cases h : le x y
    · simp only [insertSorted, h, if_true]
      refine List.pairwise_cons.mpr ⟨?_, hp⟩
      intro z hz
      rcases List.mem_cons.mp hz with h1 | h2
      · subst h1; exact h
      · exact htrans x y z h (hy z h2)
    · simp only [insertSorted, h, if_false, Bool.false_eq_true]
      refine List.pairwise_cons.mpr ⟨?_, ih hys⟩
      intro z hz
      rcases (mem_insertSorted le x z ys).mp hz with h1 | h2
      · rw [h1]
        rcases htot x y with h3 | h3
        · exact absurd h3 h
        · exact h3
      · exact hy z h2

/-- The insertion sort sorts, given a total transitive comparison. -/
theorem sortByB_pairwise {α : Type} (le : α → α → Bool)
    (htot : ∀ a b, le a b = true ∨ le b a = true)
    (htrans : ∀ a b c, le a b = true → le b c = true → le a c = true) :
    ∀ l : List α, (sortByB le l).Pairwise (fun a b => le a b = true) := by
  intro l
  induction l with
  | nil => simp [sortByB]
  | cons x xs ih => exact insertSorted_pairwise le htot htrans x _ ih

/-- Membership in the dedup worker. -/
theorem mem_dedupKeepFirstAux {α : Type} [DecidableEq α] (z : α) :
    ∀ (l seen : List α), z ∈ dedupKeepFirstAux seen l ↔ (z ∈ l ∧ z ∉ seen) := by
  intro l
  induction l with
  | nil => intro seen; simp [dedupKeepFirstAux]
  | cons x xs ih =>
    intro seen
    by_cases h : x ∈ seen
    · simp only [dedupKeepFirstAux, h, if_true]
      rw [ih seen]
      constructor
      · intro hz; exact ⟨List.mem_cons_of_mem x hz.1, hz.2⟩
      · rintro ⟨hz1, hz2⟩
        rcases List.mem_cons.mp hz1 with h1 | h2
        · subst h1; exact absurd h hz2
        · exact ⟨h2, hz2⟩
    · simp only [dedupKeepFirstAux, h, if_false]
      constructor
      · intro hz
        rcases List.mem_cons.mp hz with h1 | h2
        · subst h1; exact ⟨List.mem_cons_self z xs, h⟩
        · have := (ih (seen ++ [x])).mp h2
          refine ⟨List.mem_cons_of_mem x this.1, ?_⟩
          intro hcon
          exact this.2 (List.mem_append_left [x] hcon)
      · rintro ⟨hz1, hz2⟩
        rcases List.mem_cons.mp hz1 with h1 | h2
        · subst h1; exact List.mem_cons_self z _
        · by_cases hzx : z = x
          · subst hzx; exact List.mem_cons_self z _
          · apply List.mem_cons_of_mem
            apply (ih (seen ++ [x])).mpr
            refine ⟨h2, ?_⟩
            intro hcon
            rcases List.mem_append.mp hcon with h3 | h3
            · exact hz2 h3
            · simp at h3; exact hzx h3

/-- Membership is preserved by first-occurrence dedup. -/
theorem mem_dedupKeepFirst {α : Type} [DecidableEq α] (z : α) (l : List α) :
    z ∈ dedupKeepFirst l ↔ z ∈ l := by
  rw [dedupKeepFirst, mem_dedupKeepFirstAux]
  simp

-- C7 --------------------------------------------------------------------------

/-- `round(q, 2)` is the identity on rationals whose hundredfold is an
integer. -/
theorem round2_of_int (q : ℚ) (n : ℤ) (h : q * 100 = n) : round2 q = q := by
  rw [round2, h, round_intCast]
  have hq : (n : ℚ) = q * 100 := by exact_mod_cast h.symm
  rw [hq]
  ring

/-- The keyword-match confidence values are exact at two decimals. -/
theorem round2_conf (k : ℕ) :
    round2 (min (9 / 10 : ℚ) (3 / 10 + k * (15 / 100)))
      = min (9 / 10 : ℚ) (3 / 10 + k * (15 / 100)) := by
  apply round2_of_int _ (min 90 (30 + 15 * k))
  rw [min_mul_of_nonneg _ _ (by norm_num : (0 : ℚ) ≤ 100)]
  push_cast
  congr 1 <;> ring

/-- Invariants of the inner AI-extraction loop: the seen set grows exactly by
the emitted technique ids, emitted matches carry the `ai_extracted`
shape, and every id present in the table ends up seen. -/
theorem aiIdsFold_spec (d : Str) : ∀ (ids seen : List Str),
    (aiIdsFold ids d seen).2
      = seen ++ (aiIdsFold ids d seen).1.map (fun m => m.techniqueId)
    ∧ (∀ m ∈ (aiIdsFold ids d seen).1,
        m.source = strOf "ai_extracted" ∧ m.confidence = 95 / 100
        ∧ (tdbFind m.techniqueId).isSome = true)
    ∧ (∀ tid ∈ ids, (tdbFind tid).isSome = true → tid ∈ (aiIdsFold ids d seen).2) := by
  intro ids
  induction ids with
  | nil => intro seen; simp [aiIdsFold]
  | cons tid rest ih =>
    intro seen
    cases htdb : tdbFind tid with
    | none =>
      simp only [aiIdsFold, htdb]
      refine ⟨(ih seen).1, (ih seen).2.1, ?_⟩
      intro t ht hts
      rcases List.mem_cons.mp ht with h1 | h2
      · subst h1; rw [htdb] at hts; simp at hts
      · exact (ih seen).2.2 t h2 hts
    | some tech =>
      by_cases hseen : tid ∈ seen
      · simp only [aiIdsFold, htdb, hseen, if_true]
        refine ⟨(ih seen).1, (ih seen).2.1, ?_⟩
        intro t ht hts
        rcases List.mem_cons.mp ht with h1 | h2
        · subst h1
          rw [(ih seen).1]
          exact List.mem_append_left _ hseen
        · exact (ih seen).2.2 t h2 hts
      · have hr := ih (seen ++ [tid])
        simp only [aiIdsFold, htdb, hseen, if_false]
        refine ⟨?_, ?_, ?_⟩
        · simp only [List.map_cons]
          rw [hr.1, List.append_assoc]
          rfl
        · intro m hm
          rcases List.mem_cons.mp hm with h1 | h2
          · subst h1
            exact ⟨rfl, rfl, by rw [htdb]; rfl⟩
          · exact hr.2.1 m h2
        · intro t ht hts
          rcases List.mem_cons.mp ht with h1 | h2
          · subst h1
            rw [hr.1]
            exact List.mem_append_left _ (List.mem_append_right seen (by simp))
          · exact hr.2.2 t h2 hts

/-- Invariants of the first phase over all TTPs. -/
theorem aiMatches_spec : ∀ (ttps : List TtpIn) (seen : List Str),
    (aiMatches ttps seen).2
      = seen ++ (aiMatches ttps seen).1.map (fun m => m.techniqueId)
    ∧ (∀ m ∈ (aiMatches ttps seen).1,
        m.source = strOf "ai_extracted" ∧ m.confidence = 95 / 100
        ∧ (tdbFind m.techniqueId).isSome = true)
    ∧ (∀ ttp ∈ ttps, ∀ tid ∈ scanTechUpper (ttpIdStr ttp),
        (tdbFind tid).isSome = true → tid ∈ (aiMatches ttps seen).2) := by
  intro ttps
  induction ttps with
  | nil => intro seen; simp [aiMatches]
  | cons ttp rest ih =>
    intro seen
    have h1 := aiIdsFold_spec (ttpDesc ttp) (dedupKeepFirst (scanTechUpper (ttpIdStr ttp))) seen
    have h2 := ih (aiIdsFold (dedupKeepFirst (scanTechUpper (ttpIdStr ttp))) (ttpDesc ttp) seen).2
    simp only [aiMatches]
    refine ⟨?_, ?_, ?_⟩
    · rw [h2.1, h1.1]
      simp [List.append_assoc]
    · intro m hm
      rcases List.mem_append.mp hm with hm1 | hm2
      · exact h1.2.1 m hm1
      · exact h2.2.1 m hm2
    · intro t htp tid htid hts
      rcases List.mem_cons.mp htp with he | he
      · have : tid ∈ (aiIdsFold (dedupKeepFirst (scanTechUpper (ttpIdStr ttp))) (ttpDesc ttp) seen).2 := by
          apply h1.2.2
          · rw [mem_dedupKeepFirst]
            rw [he] at htid
            exact htid
          · exact hts
        rw [h2.1]
        exact List.mem_append_left _ this
      · exact h2.2.2 t he tid htid hts

/-- The seen set stays duplicate-free through the AI-extraction loop. -/
theorem aiIdsFold_nodup (d : Str) : ∀ (ids seen : List Str),
    seen.Nodup → (aiIdsFold ids d seen).2.Nodup := by
  intro ids
  induction ids with
  | nil => intro seen h; simpa [aiIdsFold] using h
  | cons tid rest ih =>
    intro seen h
    cases htdb : tdbFind tid with
    | none => simpa [aiIdsFold, htdb] using ih seen h
    | some tech =>
      by_cases hseen : tid ∈ seen
      · simpa [aiIdsFold, htdb, hseen] using ih seen h
      · simp only [aiIdsFold, htdb, hseen, if_false]
        apply ih
        simp [List.nodup_append, h, hseen]

/-- The seen set stays duplicate-free through the first phase. -/
theorem aiMatches_nodup : ∀ (ttps : List TtpIn) (seen : List Str),
    seen.Nodup → (aiMatches ttps seen).2.Nodup := by
  intro ttps
  induction ttps with
  | nil => intro seen h; simpa [aiMatches] using h
  | cons ttp rest ih =>
    intro seen h
    simp only [aiMatches]
    exact ih _ (aiIdsFold_nodup _ _ seen h)

/-- Keyword matches carry the `keyword_match` source. -/
theorem kwMatches_sound : ∀ (entries : List (Str × TechRec)) (blob : Str) (seen : List Str),
    ∀ m ∈ kwMatches entries blob seen, m.source = strOf "keyword_match" := by
  intro entries
  induction entries with
  | nil => intro blob seen m hm; simp [kwMatches] at hm
  | cons e rest ih =>
    intro blob seen m hm
    by_cases hseen : e.1 ∈ seen
    · exact ih blob seen m (by simpa [kwMatches, hseen] using hm)
    · by_cases hmatch : 0 < (e.2.keywords.filter (fun kw => containsSeq kw blob)).length
      · rw [show kwMatches (e :: rest) blob seen = _ from rfl] at hm
        simp only [kwMatches, hseen, if_false, hmatch, if_true] at hm
        rcases List.mem_cons.mp hm with h1 | h2
        · subst h1; rfl
        · exact ih blob _ m h2
      · simp only [kwMatches, hseen, if_false, hmatch] at hm
        exact ih blob seen m hm

/-- Completeness of the keyword phase: a table entry whose id is unseen and
whose keywords hit the blob yields a match with the documented confidence,
hit count and description. -/
theorem kwMatches_complete : ∀ (entries : List (Str × TechRec)) (blob : Str) (seen : List Str),
    (entries.map Prod.fst).Nodup →
    ∀ tid tech, (tid, tech) ∈ entries → tid ∉ seen →
    (tech.keywords.filter (fun kw => containsSeq kw blob)) ≠ [] →
    ∃ m ∈ kwMatches entries blob seen, m.techniqueId = tid
      ∧ m.source = strOf "keyword_match"
      ∧ m.confidence = min ((9 : ℚ) / 10)
          (3 / 10 + ((tech.keywords.filter (fun kw => containsSeq kw blob)).length : ℚ)
            * (15 / 100))
      ∧ m.keywordHits = some (tech.keywords.filter (fun kw => containsSeq kw blob)).length
      ∧ m.descr = strOf "Detected via keyword indicators: "
          ++ joinSep (strOf ", ")
            ((tech.keywords.filter (fun kw => containsSeq kw blob)).take 5) := by
  intro entries
  induction entries with
  | nil => intro blob seen _ tid tech hmem; simp at hmem
  | cons e rest ih =>
    intro blob seen hnd tid tech hmem hseen hne
    have hnd2 : (rest.map Prod.fst).Nodup := (List.nodup_cons.mp hnd).2
    rcases List.mem_cons.mp hmem with he | he
    · have he1 : e.1 = tid := by rw [← he]
      have he2 : e.2 = tech := by rw [← he]
      have hpos : 0 < (e.2.keywords.filter (fun kw => containsSeq kw blob)).length := by
        rw [he2]
        exact List.length_pos.mpr hne
      have hseen' : e.1 ∉ seen := by rw [he1]; exact hseen
      refine ⟨⟨e.1, e.2.name, e.2.tactic,
        round2 (min (9 / 10) (3 / 10 + (e.2.keywords.filter (fun kw => containsSeq kw blob)).length * (15 / 100))),
        strOf "keyword_match",
        some (e.2.keywords.filter (fun kw => containsSeq kw blob)).length,
        strOf "Detected via keyword indicators: "
          ++ joinSep (strOf ", ") ((e.2.keywords.filter (fun kw => containsSeq kw blob)).take 5)⟩,
        ?_, ?_⟩
      · cases e
        simp only [kwMatches, hseen', if_false, hpos, if_true]
        exact List.mem_cons_self _ _
      · refine ⟨he1, rfl, ?_, ?_, ?_⟩
        · simp only [he2, round2_conf]
        · simp [he2]
        · simp [he2]
    · have htid_ne : tid ≠ e.1 := by
        intro hcon
        have : e.1 ∈ rest.map Prod.fst := by
          rw [← hcon]
          exact List.mem_map.mpr ⟨(tid, tech), he, rfl⟩
        exact (List.nodup_cons.mp hnd).1 this
      by_cases hseen0 : e.1 ∈ seen
      · have := ih blob seen hnd2 tid tech he hseen hne
        rcases this with ⟨m, hm, hp⟩
        exact ⟨m, by simpa [kwMatches, hseen0] using hm, hp⟩
      · by_cases hpos : 0 < (e.2.keywords.filter (fun kw => containsSeq kw blob)).length
        · have hseen1 : tid ∉ seen ++ [e.1] := by
            intro hcon
            rcases List.mem_append.mp hcon with h1 | h1
            · exact hseen h1
            · simp at h1; exact htid_ne h1
          rcases ih blob (seen ++ [e.1]) hnd2 tid tech he hseen1 hne with ⟨m, hm, hp⟩
          refine ⟨m, ?_, hp⟩
          cases e
          simp only [kwMatches, hseen0, if_false, hpos, if_true]
          exact List.mem_cons_of_mem _ hm
        · rcases ih blob seen hnd2 tid tech he hseen hne with ⟨m, hm, hp⟩
          refine ⟨m, ?_, hp⟩
          cases e
          simp only [kwMatches, hseen0, if_false, hpos]
          exact hm

/-- Keyword-match ids avoid the seen set and are pairwise distinct. -/
theorem kwMatches_nodup : ∀ (entries : List (Str × TechRec)) (blob : Str) (seen : List Str),
    (∀ m ∈ kwMatches entries blob seen, m.techniqueId ∉ seen)
    ∧ ((kwMatches entries blob seen).map (fun m => m.techniqueId)).Nodup := by
  intro entries
  induction entries with
  | nil => intro blob seen; simp [kwMatches]
  | cons e rest ih =>
    intro blob seen
    by_cases hseen : e.1 ∈ seen
    · cases e
      simp only [kwMatches, hseen, if_true]
      exact ih blob seen
    · by_cases hpos : 0 < (e.2.keywords.filter (fun kw => containsSeq kw blob)).length
      · cases e with
        | mk t0 th0 =>
          simp only [kwMatches, hseen, if_false, hpos, if_true]
          have hr := ih blob (seen ++ [t0])
          constructor
          · intro m hm
            rcases List.mem_cons.mp hm with h1 | h2
            · subst h1
              exact hseen
            · intro hcon
              exact hr.1 m h2 (List.mem_append_left _ hcon)
          · simp only [List.map_cons, List.nodup_cons]
            refine ⟨?_, hr.2⟩
            intro hcon
            rcases List.mem_map.mp hcon with ⟨m, hm, hid⟩
            apply hr.1 m hm
            rw [hid]
            exact List.mem_append_right seen (by simp)
      · cases e
        simp only [kwMatches, hseen, if_false, hpos]
        exact ih blob seen

/-- Claim C7 (counterexample): a TTP whose id `T1195.002` matches the pattern
`T\d{4}(\.\d{3})?` but is absent from `TECHNIQUE_DB` produces no match at
all — the claim asserts an `ai_extracted` match with confidence 0.95 is
emitted for every pattern-matching TTP id. -/
theorem claim_c7_counterexample :
    scanTechUpper (ttpIdStr (.dictTtp (strOf "T1195.002") [] [])) = [strOf "T1195.002"]
    ∧ tdbFind (strOf "T1195.002") = none
    ∧ mapIocsToMitre ⟨[], [.dictTtp (strOf "T1195.002") [] []], [], []⟩ = [] := by
  refine ⟨by decide, by decide, by decide⟩

/-- Claim C7 (amended): for every TTP id matching `T\d{4}(\.\d{3})?` that is
also present in the curated technique table, an `ai_extracted` match with
confidence 0.95 is emitted; every remaining table technique with at least
one keyword occurring in the lowercased IoC/actor/tool blob yields a
`keyword_match` with confidence `min(0.9, 0.3 + 0.15*hits)` listing up to
the first five matched keywords; the list is sorted by confidence descending
with at most one entry per technique id. -/
theorem claim_c7_amended (a : AnalysisData) :
    (∀ ttp ∈ a.ttps, ∀ tid ∈ scanTechUpper (ttpIdStr ttp),
      (tdbFind tid).isSome = true →
      ∃ m ∈ mapIocsToMitre a, m.techniqueId = tid
        ∧ m.source = strOf "ai_extracted" ∧ m.confidence = 95 / 100)
    ∧ (∀ tid tech, (tid, tech) ∈ techniqueDB →
        (¬ ∃ m ∈ mapIocsToMitre a, m.techniqueId = tid
            ∧ m.source = strOf "ai_extracted") →
        (tech.keywords.filter (fun kw => containsSeq kw (mitreBlob a))) ≠ [] →
        ∃ m ∈ mapIocsToMitre a, m.techniqueId = tid
          ∧ m.source = strOf "keyword_match"
          ∧ m.confidence = min ((9 : ℚ) / 10)
              (3 / 10 + ((tech.keywords.filter
                (fun kw => containsSeq kw (mitreBlob a))).length : ℚ) * (15 / 100))
          ∧ m.keywordHits = some (tech.keywords.filter
              (fun kw => containsSeq kw (mitreBlob a))).length
          ∧ m.descr = strOf "Detected via keyword indicators: "
              ++ joinSep (strOf ", ") ((tech.keywords.filter
                  (fun kw => containsSeq kw (mitreBlob a))).take 5))
    ∧ (mapIocsToMitre a).Pairwise (fun x y => y.confidence ≤ x.confidence)
    ∧ ((mapIocsToMitre a).map (fun m => m.techniqueId)).Nodup := by
  have hspec := aiMatches_spec a.ttps []
  have hmem : ∀ m : MitreMatch, m ∈ mapIocsToMitre a
      ↔ m ∈ (aiMatches a.ttps []).1
          ++ kwMatches techniqueDB (mitreBlob a) (aiMatches a.ttps []).2 := by
    intro m
    exact mem_sortByB _ m _
  refine ⟨?_, ?_, ?_, ?_⟩
  · intro ttp htp tid htid hts
    have hseen := hspec.2.2 ttp htp tid htid hts
    rw [hspec.1, List.nil_append] at hseen
    rcases List.mem_map.mp hseen with ⟨m, hm, hid⟩
    refine ⟨m, (hmem m).mpr (List.mem_append_left _ hm), hid, ?_, ?_⟩
    · exact (hspec.2.1 m hm).1
    · exact (hspec.2.1 m hm).2.1
  · intro tid tech hdb hnoai hne
    have hseen : tid ∉ (aiMatches a.ttps []).2 := by
      intro hcon
      rw [hspec.1, List.nil_append] at hcon
      rcases List.mem_map.mp hcon with ⟨m, hm, hid⟩
      exact hnoai ⟨m, (hmem m).mpr (List.mem_append_left _ hm), hid,
        (hspec.2.1 m hm).1⟩
    have hnd : (techniqueDB.map Prod.fst).Nodup := by decide
    rcases kwMatches_complete techniqueDB (mitreBlob a) _ hnd tid tech hdb hseen hne
      with ⟨m, hm, h1, h2, h3, h4, h5⟩
    refine ⟨m, (hmem m).mpr (List.mem_append_right _ hm), h1, h2, ?_, h4, h5⟩
    rw [h3]
  · have := sortByB_pairwise (fun x y : MitreMatch => decide (y.confidence ≤ x.confidence))
      (fun a b => by
        rcases le_total b.confidence a.confidence with h | h
        · left; exact decide_eq_true h
        · right; exact decide_eq_true h)
      (fun a b c h1 h2 => by
        have h1' := of_decide_eq_true h1
        have h2' := of_decide_eq_true h2
        exact decide_eq_true (le_trans h2' h1'))
      ((aiMatches a.ttps []).1
        ++ kwMatches techniqueDB (mitreBlob a) (aiMatches a.ttps []).2)
    apply List.Pairwise.imp _ this
    intro x y h
    exact of_decide_eq_true h
  · have hperm : ((mapIocsToMitre a).map (fun m => m.techniqueId)).Perm
        (((aiMatches a.ttps []).1
          ++ kwMatches techniqueDB (mitreBlob a) (aiMatches a.ttps []).2).map
            (fun m => m.techniqueId)) :=
      List.Perm.map _ (sortByB_perm _ _)
    rw [hperm.nodup_iff]
    rw [List.map_append, List.nodup_append]
    have hamsnd : ((aiMatches a.ttps []).1.map (fun m => m.techniqueId)).Nodup := by
      have := aiMatches_nodup a.ttps [] List.nodup_nil
      rw [hspec.1, List.nil_append] at this
      exact this
    have hkw := kwMatches_nodup techniqueDB (mitreBlob a) (aiMatches a.ttps []).2
    refine ⟨hamsnd, hkw.2, ?_⟩
    intro t ht1 ht2
    rcases List.mem_map.mp ht2 with ⟨m, hm, hid⟩
    apply hkw.1 m hm
    rw [hid, hspec.1, List.nil_append]
    exact ht1

/-- Witness for the amended C7 theorem: a TTP with id `T1059.001` (present in
the table) yields an AI-extracted match. -/
theorem claim_c7_amended_witness :
    ∃ m ∈ mapIocsToMitre ⟨[], [.dictTtp (strOf "T1059.001") [] []], [], []⟩,
      m.techniqueId = strOf "T1059.001"
      ∧ m.source = strOf "ai_extracted" ∧ m.confidence = 95 / 100 :=
  (claim_c7_amended ⟨[], [.dictTtp (strOf "T1059.001") [] []], [], []⟩).1
    (.dictTtp (strOf "T1059.001") [] []) (by decide) (strOf "T1059.001")
    (by decide) (by decide)

-- C5 --------------------------------------------------------------------------

/-- Dict lookup on a cons cell. -/
theorem dictFind_cons (kv : Str × JVal) (rest : JDict) (k : Str) :
    dictFind (kv :: rest) k = if kv.1 = k then some kv.2 else dictFind rest k := by
  by_cases hk : kv.1 = k
  · simp [dictFind, List.find?, hk]
  · simp [dictFind, List.find?, hk]

/-- Appending a single entry with a different key does not change a lookup. -/
theorem dictFind_append_single_ne (a : JDict) (k k2 : Str) (v : JVal)
    (h : k ≠ k2) : dictFind (a ++ [(k2, v)]) k = dictFind a k := by
  induction a with
  | nil => simp [dictFind, List.find?, Ne.symm h]
  | cons kv rest ih =>
    by_cases hk : kv.1 = k <;> simp [dictFind_cons, hk, ih]

/-- `dictHas` version of `dictFind_append_single_ne`. -/
theorem dictHas_append_single_ne (a : JDict) (k k2 : Str) (v : JVal)
    (h : k ≠ k2) : dictHas (a ++ [(k2, v)]) k = dictHas a k := by
  simp [dictHas, dictFind_append_single_ne a k k2 v h]

/-- The in-place update map of `dictSet` at key `k2` does not change a lookup
at a different key `k`. -/
theorem dictFind_map_set (d : JDict) (k k2 : Str) (v : JVal) (h : k ≠ k2) :
    dictFind (d.map (fun kv => if kv.1 = k2 then (k2, v) else kv)) k
      = dictFind d k := by
  induction d with
  | nil => rfl
  | cons kv rest ih =>
    by_cases hk2 : kv.1 = k2
    · have hne : kv.1 ≠ k := by rw [hk2]; exact Ne.symm h
      simp [dictFind_cons, hk2, hne, Ne.symm h, ih]
    · by_cases hk : kv.1 = k
      · simp [dictFind_cons, hk2, hk, h]
      · simp [dictFind_cons, hk2, hk, ih]

/-- Looking up the key just set yields the new value. -/
theorem dictFind_dictSet_self (d : JDict) (k : Str) (v : JVal) :
    dictFind (dictSet d k v) k = some v := by
  induction d with
  | nil =>
    have h0 : dictHas ([] : JDict) k = false := rfl
    unfold dictSet
    rw [h0]
    simp only [Bool.false_eq_true, if_false, List.nil_append, dictFind_cons]
    simp
  | cons kv rest ih =>
    by_cases hk : kv.1 = k
    · have hhas : dictHas (kv :: rest) k = true := by
        simp [dictHas, dictFind_cons, hk]
      simp [dictSet, hhas, dictFind_cons, hk]
    · have hhas : dictHas (kv :: rest) k = dictHas rest k := by
        simp [dictHas, dictFind_cons, hk]
      by_cases h2 : dictHas rest k = true
      · simp only [dictSet, h2, if_true] at ih
        simp [dictSet, hhas, h2, dictFind_cons, hk]
        exact ih
      · simp only [dictSet, h2, if_false] at ih
        simp [dictSet, hhas, h2, dictFind_cons, hk]
        exact ih

/-- Setting one key does not change the lookup of a different key. -/
theorem dictFind_dictSet_ne (d : JDict) (k k2 : Str) (v : JVal) (h : k ≠ k2) :
    dictFind (dictSet d k2 v) k = dictFind d k := by
  unfold dictSet
  by_cases hhas : dictHas d k2 = true
  · simp only [hhas, if_true]
    exact dictFind_map_set d k k2 v h
  · simp only [hhas, if_false]
    exact dictFind_append_single_ne d k k2 v h

/-- A key that passes the `in` probe is among the dict's keys. -/
theorem mem_dictKeys_of_dictHas (d : JDict) (k : Str) :
    dictHas d k = true → k ∈ dictKeys d := by
  induction d with
  | nil => intro h; simp [dictHas, dictFind, List.find?] at h
  | cons kv rest ih =>
    intro h
    by_cases hk : kv.1 = k
    · simp only [dictKeys, List.map_cons]
      exact List.mem_cons.mpr (Or.inl hk.symm)
    · have h2 : dictHas rest k = true := by
        simpa [dictHas, dictFind_cons, hk] using h
      have := ih h2
      simp only [dictKeys, List.map_cons] at this ⊢
      exact List.mem_cons.mpr (Or.inr this)

/-- Closed form of the subfield-filling fold: for a duplicate-free key list it
appends exactly the missing keys (with empty-list values), in list order, and
counts one warning per appended key. -/
theorem fillSubs_go (subs : List Str) :
    ∀ (fs : JDict) (w : ℕ), subs.Nodup →
    subs.foldl (fun acc sub =>
        if dictHas acc.1 sub then acc
        else (acc.1 ++ [(sub, JVal.jarr [])], acc.2 + 1)) (fs, w)
      = (fs ++ (subs.filter (fun sub => !(dictHas fs sub))).map
            (fun sub => (sub, JVal.jarr [])),
         w + (subs.filter (fun sub => !(dictHas fs sub))).length) := by
  induction subs with
  | nil => intro fs w _; simp
  | cons s rest ih =>
    intro fs w hnd
    have hs : s ∉ rest := (List.nodup_cons.mp hnd).1
    have hr : rest.Nodup := (List.nodup_cons.mp hnd).2
    by_cases hhas : dictHas fs s = true
    · simp only [List.foldl_cons, List.filter_cons, hhas, Bool.not_true, if_true,
        Bool.false_eq_true, if_false]
      exact ih fs w hr
    · have hhas' : dictHas fs s = false := by
        cases hb : dictHas fs s
        · rfl
        · exact absurd hb hhas
      simp only [List.foldl_cons, List.filter_cons, hhas', Bool.not_false, if_true,
        Bool.false_eq_true, if_false]
      rw [ih (fs ++ [(s, JVal.jarr [])]) (w + 1) hr]
      have hcong : rest.filter (fun sub => !(dictHas (fs ++ [(s, JVal.jarr [])]) sub))
          = rest.filter (fun sub => !(dictHas fs sub)) := by
        apply List.filter_congr
        intro x hx
        have hxs : x ≠ s := fun hEq => hs (hEq ▸ hx)
        rw [dictHas_append_single_ne _ _ _ _ hxs]
      rw [hcong]
      simp only [Prod.mk.injEq, List.map_cons, List.length_cons]
      exact ⟨by simp [List.append_assoc], by omega⟩

/-- Closed form of `fillIocSubfields`'s resulting dict. -/
theorem fillIocSubfields_spec (fs : JDict) :
    (fillIocSubfields fs).1
      = fs ++ (iocSubfields.filter (fun sub => !(dictHas fs sub))).map
          (fun sub => (sub, JVal.jarr [])) := by
  have hnd : iocSubfields.Nodup := by decide
  rw [fillIocSubfields, fillSubs_go iocSubfields fs 0 hnd]

/-- Keys after subfield filling: the original keys followed by the missing
category keys in table order. -/
theorem dictKeys_fillIocSubfields (fs : JDict) :
    dictKeys (fillIocSubfields fs).1
      = dictKeys fs ++ iocSubfields.filter (fun sub => !(dictHas fs sub)) := by
  have hcomp : ((fun kv : Str × JVal => kv.1) ∘ fun sub : Str => (sub, JVal.jarr []))
      = id := rfl
  rw [fillIocSubfields_spec]
  simp only [dictKeys, List.map_append, List.map_map, hcomp, List.map_id]

/-- The confidence-level default step does not change a lookup at another key. -/
theorem dictFind_confStep (d3 : JDict) (b : Bool) (k : Str)
    (hk : k ≠ strOf "confidence_level") :
    dictFind (if b then d3
        else dictSet d3 (strOf "confidence_level") (JVal.jstr (strOf "medium"))) k
      = dictFind d3 k := by
  cases b
  · simpa using dictFind_dictSet_ne d3 k (strOf "confidence_level")
      (JVal.jstr (strOf "medium")) hk
  · simp

set_option maxHeartbeats 2000000 in
/-- Claim C5 (counterexample): the claim says the validated
`indicators_of_compromise` keys equal exactly the closed nine-key set, but
`validate_ioc_response` never removes an unknown key — a raw dict with the
single bogus category `bogus` validates to the key list
`bogus :: ips :: … :: malicious_commands`. -/
theorem claim_c5_counterexample :
    resultIocKeys (validateIocResponse
        [(strOf "indicators_of_compromise", JVal.jobj [(strOf "bogus", JVal.jarr [])])])
      = strOf "bogus" :: iocSubfields
    ∧ strOf "bogus" ∉ iocSubfields :=
  ⟨rfl, by decide⟩

/-- Claim C5 (amended): when the `indicators_of_compromise` value reaching the
subfield loop is a dict `fs`, validation succeeds and the validated category
key list is exactly the original keys of `fs` followed by the missing closed-set
keys in table order; in particular every closed-set key is present afterwards —
but pre-existing keys outside the closed set are preserved, not removed. -/
theorem claim_c5_amended (data fs : JDict)
    (h : (dictFind (fillRequiredFields data).1 (strOf "indicators_of_compromise")).getD
          (JVal.jobj []) = JVal.jobj fs) :
    (∃ b d w, validateIocResponse data = some (b, d, w))
    ∧ resultIocKeys (validateIocResponse data)
        = dictKeys fs ++ iocSubfields.filter (fun sub => !(dictHas fs sub))
    ∧ ∀ sub ∈ iocSubfields, sub ∈ resultIocKeys (validateIocResponse data) := by
  have hIT : strOf "indicators_of_compromise" ≠ strOf "ttps" := by decide
  have hIC : strOf "indicators_of_compromise" ≠ strOf "confidence_level" := by decide
  rcases hp : fillRequiredFields data with ⟨d1, w1⟩
  rw [hp] at h
  have h1 : (dictFind d1 (strOf "indicators_of_compromise")).getD (JVal.jobj [])
      = JVal.jobj fs := h
  have hv : validateIocResponse data = validateCore (d1, w1) := by
    unfold validateIocResponse
    rw [hp]
  have hb : resultIocKeys (validateIocResponse data)
      = dictKeys fs ++ iocSubfields.filter (fun sub => !(dictHas fs sub)) := by
    rw [hv]
    simp only [resultIocKeys, validateCore, h1]
    rw [dictFind_confStep _ _ _ hIC]
    rw [dictFind_dictSet_ne _ _ _ _ hIT, dictFind_dictSet_self]
    exact dictKeys_fillIocSubfields fs
  refine ⟨?_, hb, ?_⟩
  · have hsome : (validateCore (d1, w1)).isSome = true := by
      simp only [validateCore, h1]
      rfl
    rcases Option.isSome_iff_exists.mp hsome with ⟨x, hx⟩
    exact ⟨x.1, x.2.1, x.2.2, by rw [hv, hx]⟩
  · intro sub hsub
    rw [hb]
    by_cases hdh : dictHas fs sub = true
    · exact List.mem_append.mpr (Or.inl (mem_dictKeys_of_dictHas fs sub hdh))
    · refine List.mem_append.mpr (Or.inr (List.mem_filter.mpr ⟨hsub, ?_⟩))
      simp [hdh]

/-- Witness for the amended C5 theorem at the empty raw response. -/
theorem claim_c5_amended_witness :
    (∃ b d w, validateIocResponse [] = some (b, d, w))
    ∧ resultIocKeys (validateIocResponse [])
        = dictKeys ([] : JDict)
          ++ iocSubfields.filter (fun sub => !(dictHas ([] : JDict) sub))
    ∧ ∀ sub ∈ iocSubfields, sub ∈ resultIocKeys (validateIocResponse []) :=
  claim_c5_amended [] [] rfl

-- C3 --------------------------------------------------------------------------

/-- Case analysis of `_compute_ioc_field_score`: either it returns `(0, [])`,
or the matched list is the (length ≥ 3)-guarded substring filter and the score
is the capped fraction over `max 1 (min |ioc_values| 5)`. -/
theorem computeIocFieldScore_cases (r : IdxRule) (iocValues : List Str) :
    computeIocFieldScore r iocValues = (0, [])
    ∨ (∃ matched, matched ≠ []
        ∧ matched = iocValues.filter (fun v =>
            3 ≤ v.length
            ∧ (dedupKeepFirst (r.keywords.map lowerStr ++ r.phrases)).any
                (fun det => containsSeq v det ∨ containsSeq det v))
        ∧ computeIocFieldScore r iocValues
            = (min 1 ((matched.length : ℚ) / ((max 1 (min iocValues.length 5) : ℕ) : ℚ)),
               matched)) := by
  simp only [computeIocFieldScore]
  split
  · exact Or.inl rfl
  · split
    · exact Or.inl rfl
    · split
      · exact Or.inl rfl
      · next hne => exact Or.inr ⟨_, hne, rfl, rfl⟩

/-- Claim C3 (counterexample): the claim says the IoC field score is zero only
when no IoC value appears as a substring (either direction) of a rule keyword
or phrase, but `_compute_ioc_field_score` silently skips every IoC value
shorter than 3 characters: the value `ab` is a substring of the rule keyword
`abc`, yet the score is 0. -/
theorem claim_c3_counterexample :
    (computeIocFieldScore
        ⟨⟨strOf "f.yml", strOf "f.yml",
           ⟨strOf "T", some (strOf "id0"), none, [], none, none, none, none⟩⟩,
          [strOf "abc"], [], [], strOf "unknown", strOf "unknown",
          strOf "test", strOf "medium"⟩
        [strOf "ab"]).1 = 0
    ∧ containsSeq (strOf "ab") (strOf "abc") = true :=
  ⟨rfl, by decide⟩

/-- Claim C3 (amended): every result emitted by the scoring loop carries the
combined score `round2 (min 100 ((mitre*40 + ioc*25 + logsource*15 + kw*20) *
quality))` with quality `1.15 / 1.0 / 0.85` for `stable / test /
experimental`; the IoC field score ignores values shorter than 3 characters,
is 0 exactly when the guarded substring filter is empty, and otherwise is the
capped fraction of matched values over `max 1 (min |ioc_values| 5)`. -/
theorem claim_c3_amended (logf : ℚ → ℚ) (baseUrl : Str) (idx : SigmaIndexS)
    (useFuzzy : Bool) (threshold : ℚ) (techniques lsCats keywords : List Str)
    (iocValues : List Str) (reportText : Str) (r : IdxRule) :
    (∀ m, scoreCandidate logf baseUrl idx useFuzzy threshold techniques lsCats
        keywords iocValues reportText r = some m →
      m.combined
        = round2 (min 100
            (((if techMatched techniques r ≠ [] then (1 : ℚ) else 0) * 40
              + (computeIocFieldScore r iocValues).1 * 25
              + (if lsRelevant lsCats r then (1 : ℚ) else 0) * 15
              + kwScoreOf logf idx useFuzzy keywords reportText r * 20)
              * qualityMult r.status)))
    ∧ qualityMult (strOf "stable") = 23 / 20
    ∧ qualityMult (strOf "test") = 1
    ∧ qualityMult (strOf "experimental") = 17 / 20
    ∧ (∀ v ∈ iocValues, v.length < 3 → v ∉ (computeIocFieldScore r iocValues).2)
    ∧ ((computeIocFieldScore r iocValues).2 = [] →
        (computeIocFieldScore r iocValues).1 = 0)
    ∧ ((computeIocFieldScore r iocValues).2 ≠ [] →
        (computeIocFieldScore r iocValues).1
          = min 1 (((computeIocFieldScore r iocValues).2.length : ℚ)
              / ((max 1 (min iocValues.length 5) : ℕ) : ℚ)))
    ∧ ∀ v ∈ (computeIocFieldScore r iocValues).2,
        3 ≤ v.length
        ∧ (dedupKeepFirst (r.keywords.map lowerStr ++ r.phrases)).any
            (fun det => containsSeq v det ∨ containsSeq det v) = true := by
  refine ⟨?_, rfl, rfl, rfl, ?_, ?_, ?_, ?_⟩
  · intro m hm
    simp only [scoreCandidate] at hm
    set A := (if techMatched techniques r ≠ [] then (1 : ℚ) else 0) with hA
    set B := (computeIocFieldScore r iocValues).1 with hB
    set C := (if lsRelevant lsCats r then (1 : ℚ) else 0) with hC
    set D := kwScoreOf logf idx useFuzzy keywords reportText r with hD
    split at hm
    · exact Option.noConfusion hm
    · split at hm
      · exact Option.noConfusion hm
      · injection hm with h
        subst h
        simp only [combinedOf, rawScoreOf]
  · intro v _ hlen
    rcases computeIocFieldScore_cases r iocValues with hc | ⟨matched, _, hfil, hc⟩
    · rw [hc]
      simp
    · rw [hc]
      intro hmem
      rw [hfil] at hmem
      rcases of_decide_eq_true (List.mem_filter.mp hmem).2 with ⟨h3, _⟩
      omega
  · intro hemp
    rcases computeIocFieldScore_cases r iocValues with hc | ⟨matched, hne, _, hc⟩
    · rw [hc]
    · rw [hc] at hemp
      exact absurd hemp hne
  · intro hne2
    rcases computeIocFieldScore_cases r iocValues with hc | ⟨matched, _, _, hc⟩
    · rw [hc] at hne2
      exact absurd rfl hne2
    · rw [hc]
  · intro v hv
    rcases computeIocFieldScore_cases r iocValues with hc | ⟨matched, _, hfil, hc⟩
    · rw [hc] at hv
      exact absurd hv (List.not_mem_nil v)
    · rw [hc] at hv
      rw [hfil] at hv
      rcases of_decide_eq_true (List.mem_filter.mp hv).2 with ⟨h3, hany⟩
      exact ⟨h3, hany⟩

-- C2 --------------------------------------------------------------------------

/-- Rounding to two decimals cannot exceed a bound of 100. -/
theorem round2_le_100 {c : ℚ} (h : c ≤ 100) : round2 c ≤ 100 := by
  have h1 : round (c * 100) ≤ 10000 := by
    rw [round_eq]
    have h2 : ⌊c * 100 + 1 / 2⌋ < 10001 := by
      rw [Int.floor_lt]
      push_cast
      linarith
    omega
  unfold round2
  rw [div_le_iff (by norm_num : (0 : ℚ) < 100)]
  calc ((round (c * 100) : ℤ) : ℚ) ≤ (10000 : ℚ) := by exact_mod_cast h1
    _ = 100 * 100 := by norm_num

/-- Rounding to two decimals respects a lower bound that is itself a multiple
of one hundredth. -/
theorem le_round2_of_centesimal {c : ℚ} (z : ℤ) (h : (z : ℚ) / 100 ≤ c) :
    (z : ℚ) / 100 ≤ round2 c := by
  unfold round2
  rw [div_le_div_iff (by norm_num : (0 : ℚ) < 100) (by norm_num : (0 : ℚ) < 100)]
  have h2 : z ≤ round (c * 100) := by
    rw [round_eq]
    apply Int.le_floor.mpr
    push_cast
    linarith
  have h3 : (z : ℚ) ≤ (round (c * 100) : ℚ) := by exact_mod_cast h2
  linarith

/-- Deduplication by rule id yields a sublist. -/
theorem dedupById_sublist (l : List MatchResult) :
    ∀ seen, List.Sublist (dedupById seen l) l := by
  induction l with
  | nil => intro seen; simp [dedupById]
  | cons r rest ih =>
    intro seen
    by_cases hmem : r.rid ∈ seen
    · simp only [dedupById, hmem, if_true]
      exact (ih seen).trans (List.sublist_cons_self r rest)
    · simp only [dedupById, hmem, if_false]
      exact List.Sublist.cons₂ r (ih (seen ++ [r.rid]))

/-- After deduplication the rule ids are distinct and avoid the seen set. -/
theorem dedupById_rid_nodup (l : List MatchResult) :
    ∀ seen, ((dedupById seen l).map (fun m => m.rid)).Nodup
      ∧ ∀ x ∈ dedupById seen l, x.rid ∉ seen := by
  induction l with
  | nil => intro seen; exact ⟨List.nodup_nil, by simp [dedupById]⟩
  | cons r rest ih =>
    intro seen
    by_cases hmem : r.rid ∈ seen
    · simp only [dedupById, hmem, if_true]
      exact ih seen
    · simp only [dedupById, hmem, if_false]
      refine ⟨?_, ?_⟩
      · simp only [List.map_cons, List.nodup_cons]
        refine ⟨?_, (ih (seen ++ [r.rid])).1⟩
        intro hcon
        rcases List.mem_map.mp hcon with ⟨x, hx, hxid⟩
        have hnot := (ih (seen ++ [r.rid])).2 x hx
        exact hnot (List.mem_append.mpr (Or.inr (by rw [hxid]; exact List.mem_singleton.mpr rfl)))
      · intro x hx
        rcases List.mem_cons.mp hx with rfl | hx2
        · exact hmem
        · have hnot := (ih (seen ++ [r.rid])).2 x hx2
          intro hcon
          exact hnot (List.mem_append.mpr (Or.inl hcon))

/-- Facts about any record emitted by the per-candidate scoring body: the
stored combined score is the rounding of a pre-round value between the
threshold and 100, and at least three displayable (non-Sigma-field) keywords
are attached. -/
theorem scoreCandidate_bounds (logf : ℚ → ℚ) (baseUrl : Str) (idx : SigmaIndexS)
    (useFuzzy : Bool) (threshold : ℚ) (techniques lsCats keywords : List Str)
    (iocValues : List Str) (reportText : Str) (r : IdxRule) (m : MatchResult)
    (hm : scoreCandidate logf baseUrl idx useFuzzy threshold techniques lsCats
        keywords iocValues reportText r = some m) :
    (∃ c : ℚ, threshold ≤ c ∧ c ≤ 100 ∧ m.combined = round2 c)
    ∧ 3 ≤ m.matchedKeywords.length
    ∧ ∀ kw ∈ m.matchedKeywords, isSigmaFieldName kw = false := by
  simp only [scoreCandidate] at hm
  set A := (if techMatched techniques r ≠ [] then (1 : ℚ) else 0) with hA
  set B := (computeIocFieldScore r iocValues).1 with hB
  set C := (if lsRelevant lsCats r then (1 : ℚ) else 0) with hC
  set D := kwScoreOf logf idx useFuzzy keywords reportText r with hD
  split at hm
  · exact Option.noConfusion hm
  next hthr =>
    split at hm
    · exact Option.noConfusion hm
    next hdisp =>
      injection hm with h
      subst h
      refine ⟨⟨combinedOf (rawScoreOf A B C D) r.status, not_lt.mp hthr, ?_, rfl⟩,
        ?_, ?_⟩
      · exact min_le_left _ _
      · have hp := (sortByB_perm strLeB
          ((matchedKeywordSet useFuzzy keywords reportText r).1.filter
            (fun kw => ¬ isSigmaFieldName kw))).length_eq
        simp only [hp]
        omega
      · intro kw hkw
        rw [mem_sortByB] at hkw
        have := (List.mem_filter.mp hkw).2
        exact Bool.eq_false_iff.mpr (of_decide_eq_true this)

/-- The matcher either returns the empty list or the take-dedupe-sort of the
per-candidate scoring results for some signal lists. -/
theorem matchSigmaRules_shape (sw : Str → Bool) (logf : ℚ → ℚ) (baseUrl : Str)
    (catalog : List CatalogRule) (a : AnalysisData) (reportText : Str)
    (mitreTechniques : List MitreIn) (threshold : ℚ) (maxResults : ℕ)
    (useFuzzy : Bool) :
    matchSigmaRules sw logf baseUrl catalog a reportText mitreTechniques
        threshold maxResults useFuzzy = []
    ∨ ∃ (idx : SigmaIndexS) (techniques lsCats keywords iocValues : List Str)
        (cands : List IdxRule),
        matchSigmaRules sw logf baseUrl catalog a reportText mitreTechniques
            threshold maxResults useFuzzy
          = (dedupById [] (sortByB (fun x y => decide (y.combined ≤ x.combined))
              (cands.filterMap (scoreCandidate logf baseUrl idx useFuzzy
                threshold techniques lsCats keywords iocValues
                reportText)))).take maxResults := by
  simp only [matchSigmaRules]
  repeat' split
  all_goals first
    | exact Or.inl rfl
    | exact Or.inr ⟨_, _, _, _, _, _, rfl⟩

/-- Claim C2: every record returned by `match_sigma_rules_with_report` has a
combined score in `[threshold, 100]` (for a threshold that is a whole number
of hundredths, as the default 25 is), carries at least three matched keywords
none of which is a Sigma field name, and the returned list is sorted by
combined score descending, deduplicated by rule id, and at most `maxResults`
long. -/
theorem claim_c2_matcher_output (sw : Str → Bool) (logf : ℚ → ℚ) (baseUrl : Str)
    (catalog : List CatalogRule) (a : AnalysisData) (reportText : Str)
    (mitreTechniques : List MitreIn) (threshold : ℚ) (maxResults : ℕ)
    (useFuzzy : Bool) (out : List MatchResult) (z : ℤ)
    (hz : threshold = (z : ℚ) / 100)
    (hout : out = matchSigmaRules sw logf baseUrl catalog a reportText
        mitreTechniques threshold maxResults useFuzzy) :
    (∀ m ∈ out,
        threshold ≤ m.combined ∧ m.combined ≤ 100
        ∧ 3 ≤ m.matchedKeywords.length
        ∧ ∀ kw ∈ m.matchedKeywords, isSigmaFieldName kw = false)
    ∧ out.Pairwise (fun x y => y.combined ≤ x.combined)
    ∧ (out.map (fun m => m.rid)).Nodup
    ∧ out.length ≤ maxResults := by
  subst hout
  rcases matchSigmaRules_shape sw logf baseUrl catalog a reportText
      mitreTechniques threshold maxResults useFuzzy with
    hempty | ⟨idx, techs, lsc, kws, iocv, cands, heq⟩
  · rw [hempty]
    simp
  · rw [heq]
    refine ⟨?_, ?_, ?_, List.length_take_le _ _⟩
    · intro m hm
      have hm2 : m ∈ cands.filterMap (scoreCandidate logf baseUrl idx useFuzzy
          threshold techs lsc kws iocv reportText) :=
        (mem_sortByB _ m _).mp
          (((List.take_sublist _ _).trans (dedupById_sublist _ _)).subset hm)
      rcases List.mem_filterMap.mp hm2 with ⟨r, _, hr⟩
      rcases scoreCandidate_bounds _ _ _ _ _ _ _ _ _ _ _ _ hr with
        ⟨⟨c, hc1, hc2, hceq⟩, hlen, hkw⟩
      refine ⟨?_, ?_, hlen, hkw⟩
      · rw [hceq, hz]
        rw [hz] at hc1
        exact le_round2_of_centesimal z hc1
      · rw [hceq]
        exact round2_le_100 hc2
    · have hpw := (sortByB_pairwise (fun x y => decide (y.combined ≤ x.combined))
        (by
          intro x y
          rcases le_total y.combined x.combined with h | h
          · exact Or.inl (decide_eq_true h)
          · exact Or.inr (decide_eq_true h))
        (by
          intro x y w h1 h2
          exact decide_eq_true (le_trans (of_decide_eq_true h2) (of_decide_eq_true h1)))
        (cands.filterMap (scoreCandidate logf baseUrl idx useFuzzy
          threshold techs lsc kws iocv reportText))).imp
        (fun h => of_decide_eq_true h)
      exact hpw.sublist ((List.take_sublist _ _).trans (dedupById_sublist _ _))
    · have hnd := (dedupById_rid_nodup
        (sortByB (fun x y => decide (y.combined ≤ x.combined))
          (cands.filterMap (scoreCandidate logf baseUrl idx useFuzzy
            threshold techs lsc kws iocv reportText))) []).1
      exact hnd.sublist (List.Sublist.map (fun m : MatchResult => m.rid)
        (List.take_sublist maxResults _))

/-- Witness for the C2 theorem at the default threshold 25 (= 2500/100) on an
empty catalog and empty signals, where the matcher returns the empty list. -/
theorem claim_c2_matcher_output_witness :
    (∀ m ∈ ([] : List MatchResult),
        (2500 : ℚ) / 100 ≤ m.combined ∧ m.combined ≤ 100
        ∧ 3 ≤ m.matchedKeywords.length
        ∧ ∀ kw ∈ m.matchedKeywords, isSigmaFieldName kw = false)
    ∧ ([] : List MatchResult).Pairwise (fun x y => y.combined ≤ x.combined)
    ∧ (([] : List MatchResult).map (fun m => m.rid)).Nodup
    ∧ ([] : List MatchResult).length ≤ 15 :=
  claim_c2_matcher_output (fun _ => false) (fun q => q) [] [] ⟨[], [], [], []⟩
    [] [] ((2500 : ℚ) / 100) 15 false [] 2500 rfl (by rfl)

-- C1 --------------------------------------------------------------------------

/-- What a well-typed platform entry looks like: absent, or a dict whose
`query` read succeeds. -/
theorem platformOk_spec (d : JDict) (p : Str) (h : platformOk d p = true) :
    dictFind d p = none
    ∨ ∃ se, dictFind d p = some (.jobj se)
        ∧ (getStrEntry se (strOf "query")).isSome = true := by
  unfold platformOk at h
  cases hd : dictFind d p with
  | none => exact Or.inl rfl
  | some v =>
    rw [hd] at h
    cases v with
    | jstr s => simp [wellTypedSiemEntry] at h
    | jarr es => simp [wellTypedSiemEntry] at h
    | jobj se =>
      refine Or.inr ⟨se, rfl, ?_⟩
      have h3 : wellTypedSiemEntry (JVal.jobj se) = true := h
      simp only [wellTypedSiemEntry] at h3
      cases hq : dictFind se (strOf "query") with
      | none =>
        have hg : getStrEntry se (strOf "query") = some [] := by
          unfold getStrEntry
          rw [hq]
        rw [hg]
        rfl
      | some qv =>
        rw [hq] at h3
        cases qv with
        | jstr str =>
          have hg : getStrEntry se (strOf "query") = some str := by
            unfold getStrEntry
            rw [hq]
          rw [hg]
          rfl
        | jarr es => simp at h3
        | jobj fs2 => simp at h3

/-- The merged platform entry is again well-typed: its `query` field holds the
concatenated string. -/
theorem wellTypedSiemEntry_set (marker : Str) (notesVal : Option Str)
    (se : JDict) (existing aiq : Str) :
    wellTypedSiemEntry (.jobj
      (match notesVal with
       | some nv =>
         dictSet (dictSet se (strOf "query") (.jstr (existing ++ marker ++ aiq)))
           (strOf "notes") (.jstr nv)
       | none => dictSet se (strOf "query")
           (.jstr (existing ++ marker ++ aiq)))) = true := by
  cases notesVal with
  | none =>
    have hg : wellTypedSiemEntry (.jobj (dictSet se (strOf "query")
        (.jstr (existing ++ marker ++ aiq)))) = true := by
      simp only [wellTypedSiemEntry]
      rw [dictFind_dictSet_self]
    exact hg
  | some nv =>
    have hg : wellTypedSiemEntry (.jobj (dictSet (dictSet se (strOf "query")
        (.jstr (existing ++ marker ++ aiq))) (strOf "notes") (.jstr nv))) = true := by
      simp only [wellTypedSiemEntry]
      rw [dictFind_dictSet_ne _ _ _ _ (by decide : strOf "query" ≠ strOf "notes"),
        dictFind_dictSet_self]
    exact hg

/-- One merge step never raises on well-typed entries and keeps every
well-typed platform entry well-typed. -/
theorem mergeSiemStep_some (marker : Str) (notesVal : Option Str) (ai cur : JDict)
    (p : Str) (hc : platformOk cur p = true) (ha : platformOk ai p = true) :
    ∃ cur2, mergeSiemStep marker notesVal ai (some cur) p = some cur2
      ∧ ∀ q : Str, platformOk cur q = true → platformOk cur2 q = true := by
  simp only [mergeSiemStep]
  by_cases hhas : dictHas ai p ∧ dictHas cur p
  · rcases platformOk_spec cur p hc with hnone | ⟨se, hse, hq⟩
    · obtain ⟨hhas1, hhas2⟩ := hhas
      unfold dictHas at hhas2
      rw [hnone] at hhas2
      simp at hhas2
    · rcases platformOk_spec ai p ha with hanone | ⟨ae, hae, haq⟩
      · obtain ⟨hhas1, hhas2⟩ := hhas
        unfold dictHas at hhas1
        rw [hanone] at hhas1
        simp at hhas1
      · rcases Option.isSome_iff_exists.mp hq with ⟨existing, hex⟩
        rcases Option.isSome_iff_exists.mp haq with ⟨aiq, haiq⟩
        rw [if_pos hhas]
        simp only [hse, hae, hex, haiq]
        by_cases hne : aiq ≠ [] ∧ aiq ≠ strOf "N/A"
        · rw [if_pos hne]
          refine ⟨_, rfl, ?_⟩
          intro q hqok
          by_cases hpq : q = p
          · subst hpq
            unfold platformOk
            rw [dictFind_dictSet_self]
            exact wellTypedSiemEntry_set marker notesVal se existing aiq
          · unfold platformOk at hqok ⊢
            rw [dictFind_dictSet_ne _ _ _ _ hpq]
            exact hqok
        · rw [if_neg hne]
          exact ⟨cur, rfl, fun q hq2 => hq2⟩
  · rw [if_neg hhas]
    exact ⟨cur, rfl, fun q hq2 => hq2⟩

/-- The merge fold over any platform list stays `some` on well-typed dicts. -/
theorem mergeSiem_fold_some (marker : Str) (notesVal : Option Str) (ai : JDict) :
    ∀ (ps : List Str) (cur : JDict),
      (∀ q ∈ ps, platformOk cur q = true) →
      (∀ q ∈ ps, platformOk ai q = true) →
      ∃ res, ps.foldl (mergeSiemStep marker notesVal ai) (some cur) = some res := by
  intro ps
  induction ps with
  | nil => intro cur _ _; exact ⟨cur, rfl⟩
  | cons p rest ih =>
    intro cur hc hai
    rcases mergeSiemStep_some marker notesVal ai cur p
        (hc p (List.mem_cons_self p rest)) (hai p (List.mem_cons_self p rest)) with
      ⟨cur2, hstep, hpres⟩
    rw [List.foldl_cons, hstep]
    exact ih cur2
      (fun q hq => hpres q (hc q (List.mem_cons_of_mem p hq)))
      (fun q hq => hai q (List.mem_cons_of_mem p hq))

/-- The AI-refinement merge never raises on well-typed SIEM dicts. -/
theorem mergeSiemWith_some (marker : Str) (notesVal : Option Str) (siem ai : JDict)
    (hsm : wellTypedSiem siem = true) (ham : wellTypedSiem ai = true) :
    ∃ res, mergeSiemWith marker notesVal siem ai = some res := by
  unfold mergeSiemWith
  exact mergeSiem_fold_some marker notesVal ai siemPlatforms siem
    (fun q hq => List.all_eq_true.mp hsm q hq)
    (fun q hq => List.all_eq_true.mp ham q hq)

/-- Claim C1: whenever the IoC stage yields dict-shaped analysis data and the
SIEM dicts reaching the merge are well-typed (which the stage functions
guarantee), the synchronous aggregation completes and returns a record with
exactly the nine documented top-level keys, and each stage's failure
contributes only its documented default to the aggregate. -/
theorem claim_c1_pipeline_aggregation (env : PipeEnv) (henv : envOk env = true) :
    ∃ resp, buildResponseSync env = some resp
      ∧ dictKeys resp
          = [ strOf "threat_summary", strOf "analysis_data",
              strOf "mitre_mapping", strOf "yara_rules",
              strOf "ioc_sigma_rules", strOf "generated_sigma_rules",
              strOf "siem_queries", strOf "atomic_tests",
              strOf "sigma_matches" ]
      ∧ (env.summaryR = none → dictFind resp (strOf "threat_summary")
          = some (.jstr (strOf "Error generating threat summary")))
      ∧ (env.iocR = none → dictFind resp (strOf "analysis_data")
          = some (.jobj
              [ (strOf "indicators_of_compromise", .jobj []),
                (strOf "ttps", .jarr []),
                (strOf "threat_actors", .jarr []),
                (strOf "tools_or_malware", .jarr []) ]))
      ∧ (env.mitreR = none → dictFind resp (strOf "mitre_mapping")
          = some (.jobj
              [ (strOf "techniques", .jarr []),
                (strOf "tactic_summary", .jobj []),
                (strOf "tags", .jarr []) ]))
      ∧ (env.yaraR = none → dictFind resp (strOf "yara_rules") = some (.jarr []))
      ∧ (env.iocSigmaR = none →
          dictFind resp (strOf "ioc_sigma_rules") = some (.jarr []))
      ∧ (env.aiSigmaR = none → env.iocSigmaR = none →
          dictFind resp (strOf "generated_sigma_rules") = some (.jstr []))
      ∧ (env.aiSigmaR = none → env.siemR = none →
          dictFind resp (strOf "siem_queries") = some (.jobj []))
      ∧ (env.atomicR = none →
          dictFind resp (strOf "atomic_tests") = some (.jarr []))
      ∧ ((env.matchDirExists = false ∨ env.matchR = none) →
          dictFind resp (strOf "sigma_matches") = some (.jarr [])) := by
  unfold envOk at henv
  rw [Bool.and_eq_true, Bool.and_eq_true] at henv
  obtain ⟨⟨h1, h2⟩, h3⟩ := henv
  obtain ⟨fs, had⟩ : ∃ fs, analysisDataOf env.iocR = .jobj fs := by
    cases hval : analysisDataOf env.iocR with
    | jobj fs => exact ⟨fs, rfl⟩
    | jstr s => rw [hval] at h1; exact absurd h1 (by simp)
    | jarr es => rw [hval] at h1; exact absurd h1 (by simp)
  obtain ⟨s, hs, hsplain⟩ :
      ∃ s, (if moreSigmaOf syncNl env.aiSigmaR ≠ [] then
          match env.siemAiR with
          | some (.jobj ai) =>
            mergeSiemWith (strOf "\\n\\n/* AI-Refined */\\n") none
              (env.siemR.getD []) ai
          | some _ => some (env.siemR.getD [])
          | none => some (env.siemR.getD [])
        else some (env.siemR.getD [])) = some s
        ∧ (env.aiSigmaR = none → s = env.siemR.getD []) := by
    by_cases hmore : moreSigmaOf syncNl env.aiSigmaR ≠ []
    · rw [if_pos hmore]
      cases hai : env.siemAiR with
      | none => exact ⟨_, rfl, fun _ => rfl⟩
      | some v =>
        cases v with
        | jobj ai =>
          rw [hai] at h3
          rcases mergeSiemWith_some (strOf "\\n\\n/* AI-Refined */\\n") none
              (env.siemR.getD []) ai h2 h3 with ⟨res, hres⟩
          refine ⟨res, hres, ?_⟩
          intro hnone
          rw [hnone] at hmore
          exact absurd rfl hmore
        | jstr str => exact ⟨_, rfl, fun _ => rfl⟩
        | jarr es => exact ⟨_, rfl, fun _ => rfl⟩
    · rw [if_neg hmore]
      exact ⟨_, rfl, fun _ => rfl⟩
  have heq : buildResponseSync env = some (sanitizeFields
      [ (strOf "threat_summary",
          .jstr (env.summaryR.getD (strOf "Error generating threat summary"))),
        (strOf "analysis_data", .jobj
          [ (strOf "indicators_of_compromise",
              (dictFind fs (strOf "indicators_of_compromise")).getD (.jobj [])),
            (strOf "ttps", (dictFind fs (strOf "ttps")).getD (.jarr [])),
            (strOf "threat_actors",
              (dictFind fs (strOf "threat_actors")).getD (.jarr [])),
            (strOf "tools_or_malware",
              (dictFind fs (strOf "tools_or_malware")).getD (.jarr [])) ]),
        (strOf "mitre_mapping", .jobj
          [ (strOf "techniques",
              (env.mitreR.getD (.jarr [], .jarr [], .jobj [])).1),
            (strOf "tactic_summary",
              (env.mitreR.getD (.jarr [], .jarr [], .jobj [])).2.2),
            (strOf "tags",
              (env.mitreR.getD (.jarr [], .jarr [], .jobj [])).2.1) ]),
        (strOf "yara_rules", env.yaraR.getD (.jarr [])),
        (strOf "ioc_sigma_rules", (env.iocSigmaR.getD (.jarr [], [])).1),
        (strOf "generated_sigma_rules",
          .jstr (allSigmaJoin (strOf "\\n---\\n")
            (env.iocSigmaR.getD (.jarr [], [])).2
            (moreSigmaOf syncNl env.aiSigmaR))),
        (strOf "siem_queries", .jobj s),
        (strOf "atomic_tests",
          if allSigmaJoin (strOf "\\n---\\n") (env.iocSigmaR.getD (.jarr [], [])).2
              (moreSigmaOf syncNl env.aiSigmaR) = []
            ∨ (pyStrip (allSigmaJoin (strOf "\\n---\\n")
                (env.iocSigmaR.getD (.jarr [], [])).2
                (moreSigmaOf syncNl env.aiSigmaR))).length < 20
          then JVal.jarr [] else env.atomicR.getD (.jarr [])),
        (strOf "sigma_matches",
          if env.matchDirExists then env.matchR.getD (.jarr [])
          else JVal.jarr []) ]) := by
    simp only [buildResponseSync, had, hs, pyGetD]
  refine ⟨_, heq, ?_, ?_, ?_, ?_, ?_, ?_, ?_, ?_, ?_, ?_⟩
  · rfl
  · intro hnone
    rw [hnone]
    rfl
  · intro hnone
    rw [hnone] at had
    have hknown : analysisDataOf none
        = .jobj [(strOf "error", .jstr (strOf "Error in IOC/TTP analysis"))] := rfl
    have hfs : fs = [(strOf "error", .jstr (strOf "Error in IOC/TTP analysis"))] := by
      injection had.symm.trans hknown
    rw [hfs]
    rfl
  · intro hnone
    rw [hnone]
    rfl
  · intro hnone
    rw [hnone]
    rfl
  · intro hnone
    rw [hnone]
    rfl
  · intro hai hioc
    rw [hai, hioc]
    rfl
  · intro hai hsr
    rw [hsplain hai, hsr]
    rfl
  · intro hnone
    simp only [hnone, Option.getD_none, ite_self]
    rfl
  · intro hor
    rcases hor with hfalse | hnone
    · simp only [hfalse, Bool.false_eq_true, if_false]
      rfl
    · simp only [hnone, Option.getD_none, ite_self]
      rfl

/-- Witness for the C1 theorem: the environment in which every stage failed
(and the match directory is absent) satisfies the side condition, and the
aggregate is the all-defaults record. -/
theorem claim_c1_pipeline_aggregation_witness :
    ∃ resp, buildResponseSync
        ⟨none, none, none, none, none, none, none, none, none, false, none⟩
        = some resp
      ∧ dictKeys resp
          = [ strOf "threat_summary", strOf "analysis_data",
              strOf "mitre_mapping", strOf "yara_rules",
              strOf "ioc_sigma_rules", strOf "generated_sigma_rules",
              strOf "siem_queries", strOf "atomic_tests",
              strOf "sigma_matches" ]
      ∧ ((none : Option Str) = none → dictFind resp (strOf "threat_summary")
          = some (.jstr (strOf "Error generating threat summary")))
      ∧ ((none : Option Str) = none → dictFind resp (strOf "analysis_data")
          = some (.jobj
              [ (strOf "indicators_of_compromise", .jobj []),
                (strOf "ttps", .jarr []),
                (strOf "threat_actors", .jarr []),
                (strOf "tools_or_malware", .jarr []) ]))
      ∧ ((none : Option (JVal × JVal × JVal)) = none →
          dictFind resp (strOf "mitre_mapping")
          = some (.jobj
              [ (strOf "techniques", .jarr []),
                (strOf "tactic_summary", .jobj []),
                (strOf "tags", .jarr []) ]))
      ∧ ((none : Option JVal) = none →
          dictFind resp (strOf "yara_rules") = some (.jarr []))
      ∧ ((none : Option (JVal × Str)) = none →
          dictFind resp (strOf "ioc_sigma_rules") = some (.jarr []))
      ∧ ((none : Option Str) = none → (none : Option (JVal × Str)) = none →
          dictFind resp (strOf "generated_sigma_rules") = some (.jstr []))
      ∧ ((none : Option Str) = none → (none : Option JDict) = none →
          dictFind resp (strOf "siem_queries") = some (.jobj []))
      ∧ ((none : Option JVal) = none →
          dictFind resp (strOf "atomic_tests") = some (.jarr []))
      ∧ ((false = false ∨ (none : Option JVal) = none) →
          dictFind resp (strOf "sigma_matches") = some (.jarr [])) :=
  claim_c1_pipeline_aggregation
    ⟨none, none, none, none, none, none, none, none, none, false, none⟩ rfl

-- C4 --------------------------------------------------------------------------

/-- Characters of good-value dumps are never Python whitespace. -/
theorem isPyWs_eq_false_of_dumpChar {c : Char} (h : dumpChar c = true) :
    isPyWs c = false := by
  unfold isPyWs
  apply decide_eq_false
  rintro (h1 | h1 | h1 | h1 | h1 | h1) <;> (subst h1; exact absurd h (by decide))

/-- Characters of good-value dumps are never JSON inter-token whitespace. -/
theorem jsonWs_eq_false_of_dumpChar {c : Char} (h : dumpChar c = true) :
    jsonWs c = false := by
  unfold jsonWs
  apply decide_eq_false
  rintro (h1 | h1 | h1 | h1) <;> (subst h1; exact absurd h (by decide))

/-- Characters of good-value dumps are never backslashes. -/
theorem ne_backslash_of_dumpChar {c : Char} (h : dumpChar c = true) :
    c ≠ '\\' := by
  intro h1
  subst h1
  exact absurd h (by decide)

/-- Characters of good-value dumps are never stripped control characters. -/
theorem not_ctrl_of_dumpChar {c : Char} (h : dumpChar c = true) :
    isStrippedCtrl c = false := by
  unfold dumpChar at h
  have hn := of_decide_eq_true h
  unfold isStrippedCtrl
  apply decide_eq_false
  intro hctrl
  rcases hn with hg | h2 | h2 | h2 | h2 | h2 | h2 | h2 <;>
    first
      | (rcases hctrl with h1 | h1 | h1 | h1 <;> omega)
      | (unfold goodChar at hg
         have hgn := of_decide_eq_true hg
         rcases hctrl with h1 | h1 | h1 | h1 <;>
           rcases hgn with g1 | g1 | g1 | g1 <;> omega)

/-- Good characters are dump characters. -/
theorem dumpChar_of_goodChar {c : Char} (h : goodChar c = true) :
    dumpChar c = true := by
  unfold dumpChar
  exact decide_eq_true (Or.inl h)

/-- Members of a good string are good. -/
theorem mem_goodStr {s : Str} (hg : goodStr s = true) {c : Char} (hc : c ∈ s) :
    goodChar c = true :=
  List.all_eq_true.mp (by simpa [goodStr] using hg) c hc

/-- A good character is never one of the JSON punctuation characters (stated
for the characters the proofs below need). -/
theorem goodChar_ne {c : Char} (h : goodChar c = true) (d : Char)
    (hd : goodChar d = false) : c ≠ d := by
  intro h1
  subst h1
  rw [hd] at h
  exact absurd h (by decide)

/-- Strategy 1 is the identity on backslash-free text. -/
theorem fixEscapes_id : ∀ l : Str, (∀ c ∈ l, c ≠ '\\') → fixEscapes l = l
  | [], _ => rfl
  | [c], _ => rfl
  | c :: c2 :: rest, h => by
    have hc : c ≠ '\\' := h c (List.mem_cons_self _ _)
    simp only [fixEscapes, if_neg hc]
    rw [fixEscapes_id (c2 :: rest) (fun d hd => h d (List.mem_cons_of_mem _ hd))]

/-- Strategy 3 is the identity on control-free text. -/
theorem stripCtrl_id (l : Str) (h : ∀ c ∈ l, isStrippedCtrl c = false) :
    stripCtrl l = l := by
  unfold stripCtrl
  rw [List.filter_eq_self.mpr]
  intro c hc
  simp [h c hc]

/-- `dropWhile` does nothing when no character satisfies the predicate. -/
theorem dropWhile_id_of_none (p : Char → Bool) :
    ∀ l : Str, (∀ c ∈ l, p c = false) → l.dropWhile p = l
  | [], _ => rfl
  | c :: rest, h => by
    simp [List.dropWhile_cons, h c (List.mem_cons_self _ _)]

/-- `str.rstrip` is the identity on whitespace-free text. -/
theorem pyRstrip_id (l : Str) (h : ∀ c ∈ l, isPyWs c = false) :
    pyRstrip l = l := by
  unfold pyRstrip
  rw [dropWhile_id_of_none _ _ (fun c hc => h c (List.mem_reverse.mp hc)),
    List.reverse_reverse]

/-- `str.strip` is the identity on whitespace-free text. -/
theorem pyStrip_id (l : Str) (h : ∀ c ∈ l, isPyWs c = false) :
    pyStrip l = l := by
  unfold pyStrip
  rw [dropWhile_id_of_none _ _ h]
  rw [dropWhile_id_of_none _ _ (fun c hc => h c (List.mem_reverse.mp hc)),
    List.reverse_reverse]

/-- `skipWs` does not move over a non-whitespace head. -/
theorem skipWs_cons_of_not_ws {c : Char} (hc : jsonWs c = false) (l : Str) :
    skipWs (c :: l) = c :: l := by
  simp [skipWs, List.dropWhile_cons, hc]

/-- A pattern containing a character absent from the text is not a substring. -/
theorem containsSeq_eq_false_of_missing {p l : Str} (c : Char) (hp : c ∈ p)
    (hl : c ∉ l) : containsSeq p l = false := by
  unfold containsSeq
  apply decide_eq_false
  intro hinf
  exact hl (hinf.subset hp)

/-- Strategy 2 is the identity on whitespace-free text with no comma directly
before the closer. -/
theorem subCommaCloserF_id (cl : Char) : ∀ (fuel : ℕ) (l : Str),
    (∀ c ∈ l, isPyWs c = false) → noCommaCloser cl l = true →
    subCommaCloserF cl fuel l = l
  | fuel, [], _, _ => by cases fuel <;> rfl
  | 0, c :: rest, _, _ => rfl
  | fuel + 1, c :: rest, hws, hncc => by
    simp only [noCommaCloser, Bool.and_eq_true] at hncc
    obtain ⟨hpair, htail⟩ := hncc
    have hrec := subCommaCloserF_id cl fuel rest
      (fun d hd => hws d (List.mem_cons_of_mem _ hd)) htail
    by_cases hc : c = ','
    · subst hc
      have hdw : rest.dropWhile isPyWs = rest := by
        cases rest with
        | nil => rfl
        | cons d r2 =>
          have hd := hws d (by simp)
          simp [List.dropWhile_cons, hd]
      rw [if_pos rfl] at hpair
      simp only [subCommaCloserF]
      rw [if_neg, hrec]
      rintro ⟨-, hhead⟩
      rw [hdw] at hhead
      exact (of_decide_eq_true hpair) hhead
    · simp only [subCommaCloserF]
      rw [if_neg (fun hand => hc hand.1), hrec]

/-- A non-comma head preserves `noCommaCloser`. -/
theorem ncc_cons_ne (cl : Char) {c : Char} (hc : c ≠ ',') {rest : Str}
    (h : noCommaCloser cl rest = true) : noCommaCloser cl (c :: rest) = true := by
  simp only [noCommaCloser, if_neg hc, Bool.true_and]
  exact h

/-- A comma head is fine when the next character is not the closer. -/
theorem ncc_cons_comma (cl : Char) {rest : Str} (hh : rest.head? ≠ some cl)
    (h : noCommaCloser cl rest = true) :
    noCommaCloser cl (',' :: rest) = true := by
  simp only [noCommaCloser, if_pos rfl, Bool.and_eq_true]
  exact ⟨decide_eq_true hh, h⟩

/-- Prepending comma-free text preserves `noCommaCloser`. -/
theorem ncc_append_nocomma (cl : Char) : ∀ (l t : Str),
    (∀ c ∈ l, c ≠ ',') → noCommaCloser cl t = true →
    noCommaCloser cl (l ++ t) = true
  | [], t, _, ht => ht
  | c :: rest, t, h, ht => by
    rw [List.cons_append]
    exact ncc_cons_ne cl (h c (List.mem_cons_self _ _))
      (ncc_append_nocomma cl rest t (fun d hd => h d (List.mem_cons_of_mem _ hd)) ht)

/-- `noCommaCloser` restricts to prefixes. -/
theorem ncc_prefix (cl : Char) : ∀ (l t : Str),
    noCommaCloser cl (l ++ t) = true → noCommaCloser cl l = true
  | [], _, _ => rfl
  | c :: rest, t, h => by
    simp only [List.cons_append, noCommaCloser, Bool.and_eq_true] at h ⊢
    obtain ⟨h1, h2⟩ := h
    refine ⟨?_, ncc_prefix cl rest t h2⟩
    by_cases hc : c = ','
    · rw [if_pos hc] at h1 ⊢
      cases rest with
      | nil => simp
      | cons d r2 => simpa using h1
    · rw [if_neg hc]

/-- A dump starts with a quote, bracket or brace. -/
theorem dumpVal_head_mem (v : JVal) :
    ∃ c t, dumpVal v = c :: t ∧ (c = '"' ∨ c = '[' ∨ c = '{') := by
  cases v with
  | jstr s => exact ⟨'"', _, rfl, Or.inl rfl⟩
  | jarr es => exact ⟨'[', _, rfl, Or.inr (Or.inl rfl)⟩
  | jobj fs => exact ⟨'{', _, rfl, Or.inr (Or.inr rfl)⟩

/-- The dump of a non-empty element list starts with a quote, bracket or
brace. -/
theorem dumpElems_head_mem (v : JVal) (vs : List JVal) :
    ∃ c t, dumpElems (v :: vs) = c :: t ∧ (c = '"' ∨ c = '[' ∨ c = '{') := by
  rcases dumpVal_head_mem v with ⟨c, t, hd, hc⟩
  cases vs with
  | nil => exact ⟨c, t, by simp [dumpElems, hd], hc⟩
  | cons v2 vs2 =>
    exact ⟨c, t ++ ',' :: dumpElems (v2 :: vs2), by simp [dumpElems, hd], hc⟩

/-- The dump of a non-empty field list starts with a quote. -/
theorem dumpFields_head (kv : Str × JVal) (fs : List (Str × JVal)) :
    ∃ t, dumpFields (kv :: fs) = '"' :: t := by
  cases fs with
  | nil => exact ⟨_, rfl⟩
  | cons kv2 fs2 => exact ⟨_, rfl⟩

mutual
/-- Dumps of good values have no comma directly before a closer (continuation
form: the property holds against any safe continuation). -/
theorem dv_ncc (cl : Char) (hcl : cl = '}' ∨ cl = ']') :
    ∀ (v : JVal) (t : Str), goodVal v = true → noCommaCloser cl t = true →
      noCommaCloser cl (dumpVal v ++ t) = true
  | .jstr s, t, hg, ht => by
    have hg2 : goodStr s = true := by simpa [goodVal] using hg
    have heq : dumpVal (.jstr s) ++ t = ('"' :: s ++ ['"']) ++ t := by
      simp [dumpVal]
    rw [heq]
    apply ncc_append_nocomma
    · intro c hc
      rcases List.mem_cons.mp hc with rfl | hc2
      · decide
      rcases List.mem_append.mp hc2 with hc3 | hc3
      · exact goodChar_ne (mem_goodStr hg2 hc3) ',' (by decide)
      · rw [List.mem_singleton.mp hc3]
        decide
    · exact ht
  | .jarr es, t, hg, ht => by
    have hg2 : goodList es = true := by simpa [goodVal] using hg
    have heq : dumpVal (.jarr es) ++ t = '[' :: (dumpElems es ++ (']' :: t)) := by
      simp [dumpVal]
    rw [heq]
    exact ncc_cons_ne cl (by decide)
      (de_ncc cl hcl es (']' :: t) hg2 (ncc_cons_ne cl (by decide) ht))
  | .jobj fs, t, hg, ht => by
    have hg2 : goodFields fs = true := by simpa [goodVal] using hg
    have heq : dumpVal (.jobj fs) ++ t = '{' :: (dumpFields fs ++ ('}' :: t)) := by
      simp [dumpVal]
    rw [heq]
    exact ncc_cons_ne cl (by decide)
      (df_ncc cl hcl fs ('}' :: t) hg2 (ncc_cons_ne cl (by decide) ht))

/-- `dv_ncc` over element lists. -/
theorem de_ncc (cl : Char) (hcl : cl = '}' ∨ cl = ']') :
    ∀ (es : List JVal) (t : Str), goodList es = true → noCommaCloser cl t = true →
      noCommaCloser cl (dumpElems es ++ t) = true
  | [], t, _, ht => ht
  | [v], t, hg, ht => by
    have hg2 : goodVal v = true := by simpa [goodList] using hg
    simpa [dumpElems] using dv_ncc cl hcl v t hg2 ht
  | v :: v2 :: vs, t, hg, ht => by
    have hsplit : goodVal v = true ∧ goodVal v2 = true ∧ goodList vs = true := by
      simpa [goodList] using hg
    have htail : goodList (v2 :: vs) = true := by
      simp only [goodList, Bool.and_eq_true]
      exact ⟨hsplit.2.1, hsplit.2.2⟩
    have heq : dumpElems (v :: v2 :: vs) ++ t
        = dumpVal v ++ (',' :: (dumpElems (v2 :: vs) ++ t)) := by
      simp [dumpElems]
    rw [heq]
    apply dv_ncc cl hcl v _ hsplit.1
    apply ncc_cons_comma
    · rcases dumpElems_head_mem v2 vs with ⟨c, t2, hde, hc⟩
      rw [hde]
      simp only [List.cons_append, List.head?_cons]
      intro hcon
      have hcc : c = cl := by injection hcon
      rcases hc with rfl | rfl | rfl <;> rcases hcl with rfl | rfl <;> simp at hcc
    · exact de_ncc cl hcl (v2 :: vs) t htail ht

/-- `dv_ncc` over field lists. -/
theorem df_ncc (cl : Char) (hcl : cl = '}' ∨ cl = ']') :
    ∀ (fs : List (Str × JVal)) (t : Str), goodFields fs = true →
      noCommaCloser cl t = true →
      noCommaCloser cl (dumpFields fs ++ t) = true
  | [], t, _, ht => ht
  | [kv], t, hg, ht => by
    have hkey : goodStr kv.1 = true ∧ goodVal kv.2 = true := by
      simpa [goodFields] using hg
    have heq : dumpFields [kv] ++ t
        = ('"' :: kv.1 ++ ['"', ':']) ++ (dumpVal kv.2 ++ t) := by
      simp [dumpFields, List.append_assoc]
    rw [heq]
    apply ncc_append_nocomma
    · intro c hc
      rcases List.mem_cons.mp hc with rfl | hc2
      · decide
      rcases List.mem_append.mp hc2 with hc3 | hc3
      · exact goodChar_ne (mem_goodStr hkey.1 hc3) ',' (by decide)
      · rcases List.mem_cons.mp hc3 with rfl | hc4
        · decide
        · rw [List.mem_singleton.mp hc4]
          decide
    · exact dv_ncc cl hcl kv.2 t hkey.2 ht
  | kv :: kv2 :: fs, t, hg, ht => by
    have hsplit : (goodStr kv.1 = true ∧ goodVal kv.2 = true)
        ∧ (goodStr kv2.1 = true ∧ goodVal kv2.2 = true) ∧ goodFields fs = true := by
      simpa [goodFields] using hg
    have hkey : goodStr kv.1 = true ∧ goodVal kv.2 = true := hsplit.1
    have htail : goodFields (kv2 :: fs) = true := by
      simp only [goodFields, Bool.and_eq_true]
      exact ⟨⟨hsplit.2.1.1, hsplit.2.1.2⟩, hsplit.2.2⟩
    have heq : dumpFields (kv :: kv2 :: fs) ++ t
        = ('"' :: kv.1 ++ ['"', ':'])
          ++ (dumpVal kv.2 ++ (',' :: (dumpFields (kv2 :: fs) ++ t))) := by
      simp [dumpFields, List.append_assoc]
    rw [heq]
    apply ncc_append_nocomma
    · intro c hc
      rcases List.mem_cons.mp hc with rfl | hc2
      · decide
      rcases List.mem_append.mp hc2 with hc3 | hc3
      · exact goodChar_ne (mem_goodStr hkey.1 hc3) ',' (by decide)
      · rcases List.mem_cons.mp hc3 with rfl | hc4
        · decide
        · rw [List.mem_singleton.mp hc4]
          decide
    · apply dv_ncc cl hcl kv.2 _ hkey.2
      apply ncc_cons_comma
      · rcases dumpFields_head kv2 fs with ⟨t2, hdf⟩
        rw [hdf]
        simp only [List.cons_append, List.head?_cons]
        intro hcon
        have hcc : ('"' : Char) = cl := by injection hcon
        rcases hcl with rfl | rfl <;> simp at hcc
      · exact df_ncc cl hcl (kv2 :: fs) t htail ht
end

/-- Good strings contain none of the JSON punctuation characters. -/
theorem goodStr_count_zero {s : Str} (hg : goodStr s = true) {c : Char}
    (hc : goodChar c = false) : s.count c = 0 := by
  rw [List.count_eq_zero]
  intro hmem
  have := mem_goodStr hg hmem
  rw [hc] at this
  exact absurd this (by decide)

mutual
/-- Quote, brace and bracket counts of a good dump: quotes are even, braces
and brackets are balanced. -/
theorem dv_counts : ∀ v : JVal, goodVal v = true →
    (dumpVal v).count '"' % 2 = 0
    ∧ (dumpVal v).count '{' = (dumpVal v).count '}'
    ∧ (dumpVal v).count '[' = (dumpVal v).count ']'
  | .jstr s, hg => by
    have hg2 : goodStr s = true := by simpa [goodVal] using hg
    have h1 := goodStr_count_zero hg2 (c := '"') (by decide)
    have h2 := goodStr_count_zero hg2 (c := '{') (by decide)
    have h3 := goodStr_count_zero hg2 (c := '}') (by decide)
    have h4 := goodStr_count_zero hg2 (c := '[') (by decide)
    have h5 := goodStr_count_zero hg2 (c := ']') (by decide)
    simp [dumpVal, List.count_cons, List.count_append, h1, h2, h3, h4, h5]
  | .jarr es, hg => by
    have hg2 : goodList es = true := by simpa [goodVal] using hg
    have ih := de_counts es hg2
    simp only [dumpVal, List.count_cons, List.count_append, List.count_singleton]
    refine ⟨?_, ?_, ?_⟩ <;> simp_all <;> omega
  | .jobj fs, hg => by
    have hg2 : goodFields fs = true := by simpa [goodVal] using hg
    have ih := df_counts fs hg2
    simp only [dumpVal, List.count_cons, List.count_append, List.count_singleton]
    refine ⟨?_, ?_, ?_⟩ <;> simp_all <;> omega

/-- `dv_counts` over element lists. -/
theorem de_counts : ∀ es : List JVal, goodList es = true →
    (dumpElems es).count '"' % 2 = 0
    ∧ (dumpElems es).count '{' = (dumpElems es).count '}'
    ∧ (dumpElems es).count '[' = (dumpElems es).count ']'
  | [], _ => by simp [dumpElems]
  | [v], hg => by
    have hg2 : goodVal v = true := by simpa [goodList] using hg
    simpa [dumpElems] using dv_counts v hg2
  | v :: v2 :: vs, hg => by
    have hsplit : goodVal v = true ∧ goodVal v2 = true ∧ goodList vs = true := by
      simpa [goodList] using hg
    have htail : goodList (v2 :: vs) = true := by
      simp only [goodList, Bool.and_eq_true]
      exact ⟨hsplit.2.1, hsplit.2.2⟩
    have ih1 := dv_counts v hsplit.1
    have ih2 := de_counts (v2 :: vs) htail
    simp only [dumpElems, List.count_cons, List.count_append]
    refine ⟨?_, ?_, ?_⟩ <;> simp_all <;> omega

/-- `dv_counts` over field lists. -/
theorem df_counts : ∀ fs : List (Str × JVal), goodFields fs = true →
    (dumpFields fs).count '"' % 2 = 0
    ∧ (dumpFields fs).count '{' = (dumpFields fs).count '}'
    ∧ (dumpFields fs).count '[' = (dumpFields fs).count ']'
  | [], _ => by simp [dumpFields]
  | [kv], hg => by
    have hkey : goodStr kv.1 = true ∧ goodVal kv.2 = true := by
      simpa [goodFields] using hg
    have ih := dv_counts kv.2 hkey.2
    have h1 := goodStr_count_zero hkey.1 (c := '"') (by decide)
    have h2 := goodStr_count_zero hkey.1 (c := '{') (by decide)
    have h3 := goodStr_count_zero hkey.1 (c := '}') (by decide)
    have h4 := goodStr_count_zero hkey.1 (c := '[') (by decide)
    have h5 := goodStr_count_zero hkey.1 (c := ']') (by decide)
    simp only [dumpFields, List.count_cons, List.count_append]
    refine ⟨?_, ?_, ?_⟩ <;> simp_all <;> omega
  | kv :: kv2 :: fs, hg => by
    have hsplit : (goodStr kv.1 = true ∧ goodVal kv.2 = true)
        ∧ (goodStr kv2.1 = true ∧ goodVal kv2.2 = true)
          ∧ goodFields fs = true := by
      simpa [goodFields] using hg
    have htail : goodFields (kv2 :: fs) = true := by
      simp only [goodFields, Bool.and_eq_true]
      exact ⟨⟨hsplit.2.1.1, hsplit.2.1.2⟩, hsplit.2.2⟩
    have ih1 := dv_counts kv.2 hsplit.1.2
    have ih2 := df_counts (kv2 :: fs) htail
    have h1 := goodStr_count_zero hsplit.1.1 (c := '"') (by decide)
    have h2 := goodStr_count_zero hsplit.1.1 (c := '{') (by decide)
    have h3 := goodStr_count_zero hsplit.1.1 (c := '}') (by decide)
    have h4 := goodStr_count_zero hsplit.1.1 (c := '[') (by decide)
    have h5 := goodStr_count_zero hsplit.1.1 (c := ']') (by decide)
    simp only [dumpFields, List.count_cons, List.count_append]
    refine ⟨?_, ?_, ?_⟩ <;> simp_all <;> omega
end

mutual
/-- Every character of a good dump is a dump character. -/
theorem dv_all : ∀ v : JVal, goodVal v = true → (dumpVal v).all dumpChar = true
  | .jstr s, hg => by
    have hg2 : goodStr s = true := by simpa [goodVal] using hg
    rw [List.all_eq_true]
    intro c hc
    simp only [dumpVal] at hc
    rcases List.mem_cons.mp hc with rfl | hc2
    · decide
    rcases List.mem_append.mp hc2 with hc3 | hc3
    · exact dumpChar_of_goodChar (mem_goodStr hg2 hc3)
    · rw [List.mem_singleton.mp hc3]
      decide
  | .jarr es, hg => by
    have hg2 : goodList es = true := by simpa [goodVal] using hg
    rw [List.all_eq_true]
    intro c hc
    simp only [dumpVal] at hc
    rcases List.mem_cons.mp hc with rfl | hc2
    · decide
    rcases List.mem_append.mp hc2 with hc3 | hc3
    · exact List.all_eq_true.mp (de_all es hg2) c hc3
    · rw [List.mem_singleton.mp hc3]
      decide
  | .jobj fs, hg => by
    have hg2 : goodFields fs = true := by simpa [goodVal] using hg
    rw [List.all_eq_true]
    intro c hc
    simp only [dumpVal] at hc
    rcases List.mem_cons.mp hc with rfl | hc2
    · decide
    rcases List.mem_append.mp hc2 with hc3 | hc3
    · exact List.all_eq_true.mp (df_all fs hg2) c hc3
    · rw [List.mem_singleton.mp hc3]
      decide

/-- `dv_all` over element lists. -/
theorem de_all : ∀ es : List JVal, goodList es = true →
    (dumpElems es).all dumpChar = true
  | [], _ => rfl
  | [v], hg => by
    have hg2 : goodVal v = true := by simpa [goodList] using hg
    simpa [dumpElems] using dv_all v hg2
  | v :: v2 :: vs, hg => by
    have hsplit : goodVal v = true ∧ goodVal v2 = true ∧ goodList vs = true := by
      simpa [goodList] using hg
    have htail : goodList (v2 :: vs) = true := by
      simp only [goodList, Bool.and_eq_true]
      exact ⟨hsplit.2.1, hsplit.2.2⟩
    rw [List.all_eq_true]
    intro c hc
    simp only [dumpElems] at hc
    rcases List.mem_append.mp hc with hc2 | hc2
    · exact List.all_eq_true.mp (dv_all v hsplit.1) c hc2
    rcases List.mem_cons.mp hc2 with rfl | hc3
    · decide
    · exact List.all_eq_true.mp (de_all (v2 :: vs) htail) c hc3

/-- `dv_all` over field lists. -/
theorem df_all : ∀ fs : List (Str × JVal), goodFields fs = true →
    (dumpFields fs).all dumpChar = true
  | [], _ => rfl
  | [kv], hg => by
    have hkey : goodStr kv.1 = true ∧ goodVal kv.2 = true := by
      simpa [goodFields] using hg
    rw [List.all_eq_true]
    intro c hc
    simp only [dumpFields] at hc
    rcases List.mem_cons.mp hc with rfl | hc2
    · decide
    rcases List.mem_append.mp hc2 with hc3 | hc3
    · exact dumpChar_of_goodChar (mem_goodStr hkey.1 hc3)
    rcases List.mem_cons.mp hc3 with rfl | hc4
    · decide
    rcases List.mem_cons.mp hc4 with rfl | hc5
    · decide
    · exact List.all_eq_true.mp (dv_all kv.2 hkey.2) c hc5
  | kv :: kv2 :: fs, hg => by
    have hsplit : (goodStr kv.1 = true ∧ goodVal kv.2 = true)
        ∧ (goodStr kv2.1 = true ∧ goodVal kv2.2 = true)
          ∧ goodFields fs = true := by
      simpa [goodFields] using hg
    have htail : goodFields (kv2 :: fs) = true := by
      simp only [goodFields, Bool.and_eq_true]
      exact ⟨⟨hsplit.2.1.1, hsplit.2.1.2⟩, hsplit.2.2⟩
    rw [List.all_eq_true]
    intro c hc
    simp only [dumpFields] at hc
    rcases List.mem_cons.mp hc with rfl | hc2
    · decide
    rcases List.mem_append.mp hc2 with hc3 | hc3
    · rcases List.mem_append.mp hc3 with hc4 | hc4
      · exact dumpChar_of_goodChar (mem_goodStr hsplit.1.1 hc4)
      rcases List.mem_cons.mp hc4 with rfl | hc5
      · decide
      rcases List.mem_cons.mp hc5 with rfl | hc6
      · decide
      · exact List.all_eq_true.mp (dv_all kv.2 hsplit.1.2) c hc6
    · rcases List.mem_cons.mp hc3 with rfl | hc7
      · decide
      · exact List.all_eq_true.mp (df_all (kv2 :: fs) htail) c hc7
end

mutual
/-- The parse fuel measure is dominated by the dump length. -/
theorem sizeV_le_len : ∀ v : JVal, sizeV v ≤ (dumpVal v).length
  | .jstr s => by simp [sizeV, dumpVal]
  | .jarr es => by
    have := sizeL_le_len es
    simp only [sizeV, dumpVal, List.length_cons, List.length_append]
    omega
  | .jobj fs => by
    have := sizeF_le_len fs
    simp only [sizeV, dumpVal, List.length_cons, List.length_append]
    omega

/-- `sizeV_le_len` over element lists. -/
theorem sizeL_le_len : ∀ es : List JVal, sizeL es ≤ (dumpElems es).length + 1
  | [] => by simp [sizeL]
  | [v] => by
    have := sizeV_le_len v
    simp only [sizeL, dumpElems]
    omega
  | v :: v2 :: vs => by
    have h1 := sizeV_le_len v
    have h2 := sizeL_le_len (v2 :: vs)
    simp only [sizeL, dumpElems, List.length_append, List.length_cons] at h2 ⊢
    omega

/-- `sizeV_le_len` over field lists. -/
theorem sizeF_le_len : ∀ fs : List (Str × JVal), sizeF fs ≤ (dumpFields fs).length + 1
  | [] => by simp [sizeF]
  | [kv] => by
    have := sizeV_le_len kv.2
    simp only [sizeF, dumpFields, List.length_cons, List.length_append]
    omega
  | kv :: kv2 :: fs => by
    have h1 := sizeV_le_len kv.2
    have h2 := sizeF_le_len (kv2 :: fs)
    simp only [sizeF, dumpFields, List.length_append, List.length_cons] at h2 ⊢
    omega
end

/-- The string-body scanner consumes a good string up to its closing quote. -/
theorem parseStrBody_good : ∀ (s : Str), goodStr s = true → ∀ t : Str,
    parseStrBody (s ++ '"' :: t) = some (s, t)
  | [], _, t => by simp [parseStrBody]
  | c :: rest, hg, t => by
    have hc : goodChar c = true := mem_goodStr hg (List.mem_cons_self _ _)
    have h1 : c ≠ '"' := goodChar_ne hc '"' (by decide)
    have h2 : c ≠ '\\' := goodChar_ne hc '\\' (by decide)
    have hrest : goodStr rest = true := by
      rw [goodStr, List.all_eq_true]
      intro x hx
      exact mem_goodStr hg (List.mem_cons_of_mem _ hx)
    simp only [List.cons_append, parseStrBody, if_neg h1, if_neg h2,
      List.append_eq, parseStrBody_good rest hrest t]

mutual
/-- The parser reads back the dump of a good value, leaving the continuation
untouched, given fuel at least the value's measure. -/
theorem parseVal_dump : ∀ (v : JVal) (n : ℕ) (t : Str), goodVal v = true →
    sizeV v ≤ n → parseVal n (dumpVal v ++ t) = some (v, t)
  | .jstr s, n, t, hg, hn => by
    have hg2 : goodStr s = true := by simpa [goodVal] using hg
    obtain ⟨m, rfl⟩ : ∃ m, n = m + 1 := ⟨n - 1, by simp [sizeV] at hn; omega⟩
    show parseVal (m + 1) (('"' :: (s ++ ['"'])) ++ t) = some (.jstr s, t)
    simp only [List.cons_append, List.append_assoc, List.singleton_append]
    simp only [parseVal, List.nil_append,
      skipWs_cons_of_not_ws (show jsonWs '"' = false by decide),
      parseStrBody_good s hg2 t]
  | .jarr es, n, t, hg, hn => by
    have hg2 : goodList es = true := by simpa [goodVal] using hg
    obtain ⟨m, rfl⟩ : ∃ m, n = m + 1 := ⟨n - 1, by simp [sizeV] at hn; omega⟩
    have hm : sizeL es ≤ m := by simp [sizeV] at hn; omega
    show parseVal (m + 1) (('[' :: (dumpElems es ++ [']'])) ++ t) = some (.jarr es, t)
    simp only [List.cons_append, List.append_assoc, List.singleton_append]
    simp only [parseVal,
      skipWs_cons_of_not_ws (show jsonWs '[' = false by decide)]
    cases es with
    | nil =>
      simp only [dumpElems, List.nil_append,
        skipWs_cons_of_not_ws (show jsonWs ']' = false by decide)]
    | cons v vs =>
      rcases dumpElems_head_mem v vs with ⟨c, t2, hde, hc⟩
      have hcne : c ≠ ']' := by
        rcases hc with rfl | rfl | rfl <;> decide
      have hcws : jsonWs c = false := by
        rcases hc with rfl | rfl | rfl <;> decide
      rw [hde, List.cons_append, skipWs_cons_of_not_ws hcws]
      split
      · next r heq2 =>
        exfalso
        injection heq2 with hch htl
        exact hcne hch
      · rw [List.nil_append, ← List.cons_append, ← hde,
          parseElems_dump (v :: vs) m t (by simp) hg2 hm]
  | .jobj fs, n, t, hg, hn => by
    have hg2 : goodFields fs = true := by simpa [goodVal] using hg
    obtain ⟨m, rfl⟩ : ∃ m, n = m + 1 := ⟨n - 1, by simp [sizeV] at hn; omega⟩
    have hm : sizeF fs ≤ m := by simp [sizeV] at hn; omega
    show parseVal (m + 1) (('{' :: (dumpFields fs ++ ['}'])) ++ t) = some (.jobj fs, t)
    simp only [List.cons_append, List.append_assoc, List.singleton_append]
    simp only [parseVal,
      skipWs_cons_of_not_ws (show jsonWs '{' = false by decide)]
    cases fs with
    | nil =>
      simp only [dumpFields, List.nil_append,
        skipWs_cons_of_not_ws (show jsonWs '}' = false by decide)]
    | cons kv fs2 =>
      rcases dumpFields_head kv fs2 with ⟨t2, hdf⟩
      rw [hdf, List.cons_append,
        skipWs_cons_of_not_ws (show jsonWs '"' = false by decide)]
      split
      · next r heq2 =>
        exfalso
        injection heq2 with hch htl
        exact absurd hch (by decide)
      · rw [List.nil_append, ← List.cons_append, ← hdf,
          parseFields_dump (kv :: fs2) m t (by simp) hg2 hm]

/-- `parseVal_dump` for the element-list production. -/
theorem parseElems_dump : ∀ (es : List JVal) (n : ℕ) (t : Str), es ≠ [] →
    goodList es = true → sizeL es ≤ n →
    parseElems n (dumpElems es ++ ']' :: t) = some (es, t)
  | [], _, _, hne, _, _ => absurd rfl hne
  | [v], n, t, _, hg, hn => by
    have hg2 : goodVal v = true := by simpa [goodList] using hg
    obtain ⟨m, rfl⟩ : ∃ m, n = m + 1 := ⟨n - 1, by simp [sizeL] at hn; omega⟩
    have hm : sizeV v ≤ m := by simp [sizeL] at hn; omega
    show parseElems (m + 1) (dumpVal v ++ ']' :: t) = some ([v], t)
    simp only [parseElems, parseVal_dump v m (']' :: t) hg2 hm,
      skipWs_cons_of_not_ws (show jsonWs ']' = false by decide)]
  | v :: v2 :: vs, n, t, _, hg, hn => by
    have hsplit : goodVal v = true ∧ goodVal v2 = true ∧ goodList vs = true := by
      simpa [goodList] using hg
    have htail : goodList (v2 :: vs) = true := by
      simp only [goodList, Bool.and_eq_true]
      exact ⟨hsplit.2.1, hsplit.2.2⟩
    obtain ⟨m, rfl⟩ : ∃ m, n = m + 1 := ⟨n - 1, by simp [sizeL] at hn; omega⟩
    have hm1 : sizeV v ≤ m := by simp [sizeL] at hn; omega
    have hm2 : sizeL (v2 :: vs) ≤ m := by
      simp [sizeL] at hn ⊢
      omega
    have heq : dumpElems (v :: v2 :: vs) ++ ']' :: t
        = dumpVal v ++ (',' :: (dumpElems (v2 :: vs) ++ ']' :: t)) := by
      simp [dumpElems]
    rw [heq]
    simp only [parseElems, parseVal_dump v m _ hsplit.1 hm1,
      skipWs_cons_of_not_ws (show jsonWs ',' = false by decide),
      parseElems_dump (v2 :: vs) m t (by simp) htail hm2]

/-- `parseVal_dump` for the field-list production. -/
theorem parseFields_dump : ∀ (fs : List (Str × JVal)) (n : ℕ) (t : Str), fs ≠ [] →
    goodFields fs = true → sizeF fs ≤ n →
    parseFields n (dumpFields fs ++ '}' :: t) = some (fs, t)
  | [], _, _, hne, _, _ => absurd rfl hne
  | [kv], n, t, _, hg, hn => by
    have hkey : goodStr kv.1 = true ∧ goodVal kv.2 = true := by
      simpa [goodFields] using hg
    obtain ⟨m, rfl⟩ : ∃ m, n = m + 1 := ⟨n - 1, by simp [sizeF] at hn; omega⟩
    have hm : sizeV kv.2 ≤ m := by simp [sizeF] at hn; omega
    have heq : dumpFields [kv] ++ '}' :: t
        = '"' :: (kv.1 ++ '"' :: (':' :: (dumpVal kv.2 ++ '}' :: t))) := by
      simp [dumpFields]
    rw [heq]
    simp only [parseFields,
      skipWs_cons_of_not_ws (show jsonWs '"' = false by decide),
      parseStrBody_good kv.1 hkey.1,
      skipWs_cons_of_not_ws (show jsonWs ':' = false by decide),
      parseVal_dump kv.2 m _ hkey.2 hm,
      skipWs_cons_of_not_ws (show jsonWs '}' = false by decide)]
  | kv :: kv2 :: fs, n, t, _, hg, hn => by
    have hsplit : (goodStr kv.1 = true ∧ goodVal kv.2 = true)
        ∧ (goodStr kv2.1 = true ∧ goodVal kv2.2 = true)
          ∧ goodFields fs = true := by
      simpa [goodFields] using hg
    have htail : goodFields (kv2 :: fs) = true := by
      simp only [goodFields, Bool.and_eq_true]
      exact ⟨⟨hsplit.2.1.1, hsplit.2.1.2⟩, hsplit.2.2⟩
    obtain ⟨m, rfl⟩ : ∃ m, n = m + 1 := ⟨n - 1, by simp [sizeF] at hn; omega⟩
    have hm1 : sizeV kv.2 ≤ m := by simp [sizeF] at hn; omega
    have hm2 : sizeF (kv2 :: fs) ≤ m := by
      simp [sizeF] at hn ⊢
      omega
    have heq : dumpFields (kv :: kv2 :: fs) ++ '}' :: t
        = '"' :: (kv.1 ++ '"' :: (':' ::
            (dumpVal kv.2 ++ ',' :: (dumpFields (kv2 :: fs) ++ '}' :: t)))) := by
      simp [dumpFields]
    rw [heq]
    simp only [parseFields,
      skipWs_cons_of_not_ws (show jsonWs '"' = false by decide),
      parseStrBody_good kv.1 hsplit.1.1,
      skipWs_cons_of_not_ws (show jsonWs ':' = false by decide),
      parseVal_dump kv.2 m _ hsplit.1.2 hm1,
      skipWs_cons_of_not_ws (show jsonWs ',' = false by decide),
      parseFields_dump (kv2 :: fs) m t (by simp) htail hm2]
end

/-- `json.loads` reads back the dump of a good value. -/
theorem loads_dump (v : JVal) (hg : goodVal v = true) :
    loads (dumpVal v) = some v := by
  unfold loads
  have h1 : parseVal ((dumpVal v).length + 1) (dumpVal v ++ []) = some (v, []) :=
    parseVal_dump v _ [] hg (le_trans (sizeV_le_len v) (by omega))
  rw [List.append_nil] at h1
  rw [h1]
  rfl

/-- `list.count` of a character over `replicate` of a different character. -/
theorem count_replicate_ne {c d : Char} (h : c ≠ d) (n : ℕ) :
    (List.replicate n d).count c = 0 := by
  rw [List.count_eq_zero]
  intro hmem
  exact h (List.eq_of_mem_replicate hmem)

/-- `list.count` of a character over `replicate` of itself. -/
theorem count_replicate_self (c : Char) (n : ℕ) :
    (List.replicate n c).count c = n := by
  induction n with
  | zero => rfl
  | succ m ih => simp [List.replicate_succ, List.count_cons, ih]

/-- On whitespace-free fence-free input, `validate_json` is slice-then-parse
with the repair fallback. -/
theorem validateJson_plain (input : Str)
    (hws : ∀ c ∈ input, isPyWs c = false)
    (h1 : containsSeq fenceJson input = false)
    (h2 : containsSeq fenceStr input = false) :
    validateJson input =
      (match loads (sliceBraces input) with
       | some v => (true, some v)
       | none =>
         match repairJson (sliceBraces input) with
         | some v => (true, some v)
         | none => (false, none)) := by
  unfold validateJson
  simp only [pyStrip_id input hws, h1, h2, Bool.false_eq_true, if_false]

/-- The backtick is not a dump character. -/
theorem btick_not_dump : dumpChar btick = false := by decide

/-- C4: refuted as stated.  The dump of the schema-conforming object
\x7b"a":"b"\x7d truncated after two characters is corruption limited to
trailing truncation, yet `validate_json` fails on it: the truncation recovery
closes the dangling quote and appends the missing brace, producing \x7b""\x7d
with an empty key and no colon, which none of the repair strategies can parse,
so the validator returns (False, None). -/
theorem claim_c4_counterexample :
    goodVal (JVal.jobj [(strOf "a", JVal.jstr (strOf "b"))]) = true
    ∧ (dumpVal (JVal.jobj [(strOf "a", JVal.jstr (strOf "b"))])).take 2
        = strOf "\x7b\""
    ∧ validateJson
        ((dumpVal (JVal.jobj [(strOf "a", JVal.jstr (strOf "b"))])).take 2)
        = (false, none) := by
  refine ⟨by decide, by decide, rfl⟩

/-- C4 (amended): for every object built from identifier-like strings
(letters, digits, underscore), every truncation of its JSON dump that cuts
only trailing closing brackets and braces — leaving a non-empty prefix —
is accepted by `validate_json`: the text reaches the parse-plus-repair path
unchanged (no fences, no whitespace, slicing is the identity on a
brace-headed string, and repair strategies 1-3 are the identity on it), and
either parses directly or is completed by the truncation-recovery rebalance
to the original dump, so a parsed value is returned. -/
theorem claim_c4_amended (fs : List (Str × JVal)) (s : Str) (a b : ℕ)
    (hg : goodVal (JVal.jobj fs) = true)
    (hs : s ++ (List.replicate a ']' ++ List.replicate b '\x7d')
        = dumpVal (JVal.jobj fs))
    (hne : s ≠ []) :
    ∃ w, validateJson s = (true, some w) := by
  have hall : ∀ c ∈ s, dumpChar c = true := by
    intro c hc
    have hmem : c ∈ dumpVal (JVal.jobj fs) := by
      rw [← hs]
      exact List.mem_append_left _ hc
    exact List.all_eq_true.mp (dv_all _ hg) c hmem
  have hws : ∀ c ∈ s, isPyWs c = false :=
    fun c hc => isPyWs_eq_false_of_dumpChar (hall c hc)
  have hbtick : btick ∉ s := by
    intro hmem
    have h2 := hall btick hmem
    rw [btick_not_dump] at h2
    exact absurd h2 (by decide)
  have hf1 : containsSeq fenceJson s = false :=
    containsSeq_eq_false_of_missing btick (by simp [fenceJson]) hbtick
  have hf2 : containsSeq fenceStr s = false :=
    containsSeq_eq_false_of_missing btick (by simp [fenceStr]) hbtick
  obtain ⟨s0, rfl⟩ : ∃ s0, s = '\x7b' :: s0 := by
    cases s with
    | nil => exact absurd rfl hne
    | cons c s0 =>
      refine ⟨s0, ?_⟩
      have h0 := congrArg List.head? hs
      simp only [List.cons_append, List.head?_cons, dumpVal,
        Option.some.injEq] at h0
      rw [h0]
  have hslice : sliceBraces ('\x7b' :: s0) = '\x7b' :: s0 := by
    simp [sliceBraces]
  have hv := validateJson_plain _ hws hf1 hf2
  rw [hslice] at hv
  cases hload : loads ('\x7b' :: s0) with
  | some w =>
    refine ⟨w, ?_⟩
    rw [hv, hload]
  | none =>
    refine ⟨JVal.jobj fs, ?_⟩
    have hfe : fixEscapes ('\x7b' :: s0) = '\x7b' :: s0 :=
      fixEscapes_id _ (fun c hc => ne_backslash_of_dumpChar (hall c hc))
    have hnccD1 := dv_ncc '\x7d' (Or.inl rfl) (JVal.jobj fs) [] hg rfl
    have hnccD2 := dv_ncc ']' (Or.inr rfl) (JVal.jobj fs) [] hg rfl
    rw [List.append_nil, ← hs] at hnccD1 hnccD2
    have hncc1 : noCommaCloser '\x7d' ('\x7b' :: s0) = true :=
      ncc_prefix _ _ _ hnccD1
    have hncc2 : noCommaCloser ']' ('\x7b' :: s0) = true :=
      ncc_prefix _ _ _ hnccD2
    have hsub1 : subCommaCloser '\x7d' ('\x7b' :: s0) = '\x7b' :: s0 := by
      unfold subCommaCloser
      exact subCommaCloserF_id _ _ _ hws hncc1
    have hsub2 : subCommaCloser ']' ('\x7b' :: s0) = '\x7b' :: s0 := by
      unfold subCommaCloser
      exact subCommaCloserF_id _ _ _ hws hncc2
    have hctrl : stripCtrl ('\x7b' :: s0) = '\x7b' :: s0 :=
      stripCtrl_id _ (fun c hc => not_ctrl_of_dumpChar (hall c hc))
    have e1 : (List.replicate a ']').count '"' = 0 :=
      count_replicate_ne (by decide) a
    have e2 : (List.replicate b '\x7d').count '"' = 0 :=
      count_replicate_ne (by decide) b
    have e3 : (List.replicate a ']').count '\x7b' = 0 :=
      count_replicate_ne (by decide) a
    have e4 : (List.replicate b '\x7d').count '\x7b' = 0 :=
      count_replicate_ne (by decide) b
    have e5 : (List.replicate a ']').count '\x7d' = 0 :=
      count_replicate_ne (by decide) a
    have e6 : (List.replicate b '\x7d').count '\x7d' = b :=
      count_replicate_self _ b
    have e7 : (List.replicate a ']').count '[' = 0 :=
      count_replicate_ne (by decide) a
    have e8 : (List.replicate b '\x7d').count '[' = 0 :=
      count_replicate_ne (by decide) b
    have e9 : (List.replicate a ']').count ']' = a :=
      count_replicate_self _ a
    have e10 : (List.replicate b '\x7d').count ']' = 0 :=
      count_replicate_ne (by decide) b
    have hcounts := dv_counts (JVal.jobj fs) hg
    rw [← hs] at hcounts
    simp only [List.count_append, e1, e2, e3, e4, e5, e6, e7, e8, e9, e10,
      Nat.add_zero, Nat.zero_add] at hcounts
    obtain ⟨hq, hbr, hsq⟩ := hcounts
    have hreb : rebalance ('\x7b' :: s0) = dumpVal (JVal.jobj fs) := by
      simp only [rebalance]
      rw [pyRstrip_id _ hws]
      rw [if_neg (by omega)]
      rw [show ('\x7b' :: s0).count '[' - ('\x7b' :: s0).count ']' = a by omega,
        show ('\x7b' :: s0).count '\x7b' - ('\x7b' :: s0).count '\x7d' = b
          by omega,
        List.append_assoc]
      exact hs
    have hrep : repairJson ('\x7b' :: s0) = some (JVal.jobj fs) := by
      simp only [repairJson]
      rw [hfe, hsub1, hsub2, hctrl, hload, hreb, loads_dump _ hg]
    rw [hv, hload, hrep]

/-- Witness for C4 (amended): the dump \x7b"a":"b"\x7d truncated before its
closing brace is repaired and parsed. -/
theorem claim_c4_amended_witness :
    ∃ w, validateJson (strOf "\x7b\"a\":\"b\"") = (true, some w) :=
  claim_c4_amended [(strOf "a", JVal.jstr (strOf "b"))]
    (strOf "\x7b\"a\":\"b\"") 0 1 (by decide) (by decide) (by decide)

end Perseptor
